import Mathlib

/-!
Verification of the filesystem action transaction engine of the
`geforce_video_reviewer` repository: a shallow embedding of
`src/objects/file_ops.py`, the four action variants
(`rename_video_action.py`, `trim_video_action.py`, `delete_video_action.py`,
`merge_videos_action.py`) and `src/services/action_history_service.py`,
together with proofs about the claims of the specification.

Modelling conventions:
* a file path is split into its directory string, its stem (the part of the
  base name before the extension, as produced by `os.path.splitext`) and its
  extension;
* the filesystem is an association list from paths to file contents; only
  files are tracked (directory creation via `os.makedirs` is implicit);
* output of the external `ffmpeg` process is represented symbolically as a
  content constructor applied to the contents of the input files;
* transient `PermissionError`s of `os.rename` and the exit status of the
  external process are supplied by oracles in an `Env` structure, so that a
  theorem can quantify over every possible failure pattern.
-/

/-- Path model: directory, stem and extension (the split that
`os.path.dirname` / `os.path.splitext(os.path.basename(...))` produce). -/
structure FPath where
  dir : String
  name : String
  ext : String
deriving DecidableEq

/-- Symbolic file contents: raw bytes are abstracted by a tag, the output of
the external trim / concat process is a constructor applied to the inputs,
`listing` is the text of the ffmpeg concat list file, and `junk` stands for a
partial output left behind by a failed external process. -/
inductive Content where
  | raw : Nat → Content
  | trimOut : Content → String → String → Content
  | concatOut : List Content → Content
  | listing : List FPath → Content
  | junk : Content

/-- Error taxonomy of the code base: Python `FileNotFoundError`,
`FileExistsError`, `ValueError`, `PermissionError`, the `RuntimeError`
wrapping a non-zero ffmpeg exit, a dedicated timeout condition (present in
the spec's taxonomy), and a catch-all for unanticipated exceptions. -/
inductive Err where
  | notFound
  | conflict
  | validation
  | permission
  | external
  | timeout
  | internal
deriving DecidableEq

/-- Filesystem state: an association list from paths to contents. -/
abbrev FS := List (FPath × Content)

/-- Lookup of the content stored at a path. -/
def fsGet : FS → FPath → Option Content
  | [], _ => none
  | (q, c) :: rest, p => if p = q then some c else fsGet rest p

/-- Existence check, the model of `os.path.exists` / `os.path.isfile`. -/
def fsExists (fs : FS) (p : FPath) : Bool :=
  (fsGet fs p).isSome

/-- Removal of a path, the model of `os.remove`. -/
def fsErase : FS → FPath → FS
  | [], _ => []
  | (q, c) :: rest, p => if p = q then fsErase rest p else (q, c) :: fsErase rest p

/-- Writing content at a path (creating or overwriting the file). -/
def fsSet (fs : FS) (p : FPath) (c : Content) : FS :=
  (p, c) :: fsErase fs p

/-- Model of `os.rename` with Windows semantics (the repository manages
GeForce recordings on Windows, cf. the Windows-character comment in
`sanitize_filename`): the rename fails when the source is absent, fails with
`FileExistsError` when a distinct destination already exists, and otherwise
moves the stored content from `src` to `dst`. -/
def osRename (fs : FS) (src dst : FPath) : Except Err FS :=
  match fsGet fs src with
  | none => .error .notFound
  | some c =>
    if dst ≠ src ∧ fsExists fs dst = true then .error .conflict
    else .ok (fsSet (fsErase fs src) dst c)

/-- Two filesystems are byte-identical when every path stores the same
content in both (same set of paths, same file contents). -/
def fsEquiv (fs₁ fs₂ : FS) : Prop :=
  ∀ p : FPath, fsGet fs₁ p = fsGet fs₂ p

/-- List of paths present in a filesystem state. -/
def fsKeys (fs : FS) : List FPath :=
  fs.map Prod.fst

/-! ### Decimal representation of the collision index

`ensure_unique_path` embeds the integer collision counter into the candidate
file name using Python's decimal string formatting `f"{name} ({index}){ext}"`.
`natDigits` produces the decimal digit characters of a natural number. -/

/-- Character of a decimal digit (`0 ↦ '0'`, ..., `9 ↦ '9'`). -/
def digitChar (d : Nat) : Char :=
  Char.ofNat (48 + d)

/-- Decimal digit characters of a natural number, most significant first.
The fuel argument (any bound above the number itself suffices) only makes
the recursion structural, so that the definition reduces definitionally. -/
def natDigitsAux : Nat → Nat → List Char
  | _, 0 => []
  | n, fuel + 1 =>
    if n < 10 then [digitChar n]
    else natDigitsAux (n / 10) fuel ++ [digitChar (n % 10)]

/-- Decimal digit characters of a natural number, most significant first. -/
def natDigits (n : Nat) : List Char :=
  natDigitsAux n (n + 1)

/-- Decimal string of a natural number, the model of Python's `str(index)`. -/
def natRepr (n : Nat) : String :=
  String.mk (natDigits n)

/-- Numeric value of a decimal digit character. -/
def digitVal (c : Char) : Nat :=
  c.toNat - 48

/-- Value of a list of decimal digit characters, most significant first. -/
def digitsVal (l : List Char) : Nat :=
  l.foldl (fun a c => 10 * a + digitVal c) 0

/-! ### `file_ops.py` -/

/-- Model of `sanitize_filename`: replace characters illegal in Windows
filename components (`<>:"/\|?*` and control characters) by `'_'`. -/
def isInvalidFilenameChar (c : Char) : Bool :=
  c = '<' || c = '>' || c = ':' || c = '"' || c = '/' || c = '\\' ||
    c = '|' || c = '?' || c = '*' || c.toNat < 32

/-- Model of `sanitize_filename(name)` from `src/objects/file_ops.py`. -/
def sanitize_filename (s : String) : String :=
  String.mk (s.data.map fun c => if isInvalidFilenameChar c then '_' else c)

/-- Fixed retry count of `safe_rename` (`retries=5`). -/
def RETRIES : Nat := 5

/-- Fixed delay in seconds slept between failed rename attempts
(`delay=0.1`). -/
def RETRY_DELAY : ℚ := 1 / 10

/-- Loop body of `safe_rename`.  Attempt `i` raises a transient
`PermissionError` exactly when `fails i` is `true`; a non-final failed
attempt sleeps for the fixed delay and retries, the final failed attempt
re-raises.  The second result component counts the sleeps.  The extra fuel
argument only serves structural termination: the source loop always ends at
attempt `retries - 1`, so with `fuel = retries` the fuel branch is never
reached. -/
def safeRenameAux (fails : Nat → Bool) (fs : FS) (src dst : FPath)
    (retries : Nat) : Nat → Nat → Except Err FS × Nat
  | _, 0 => (.error .permission, 0)
  | i, fuel + 1 =>
    if fails i then
      if i < retries - 1 then
        let r := safeRenameAux fails fs src dst retries (i + 1) fuel
        (r.1, r.2 + 1)
      else (.error .permission, 0)
    else (osRename fs src dst, 0)

/-- Model of `safe_rename(src, dst, retries=5, delay=0.1)` from
`src/objects/file_ops.py`.  Returns the outcome together with the number of
`time.sleep(delay)` calls performed. -/
def safe_rename (fails : Nat → Bool) (fs : FS) (src dst : FPath) :
    Except Err FS × Nat :=
  safeRenameAux fails fs src dst RETRIES 0 RETRIES

/-- Candidate path built by the collision loop of `ensure_unique_path`:
`os.path.join(folder, f"{name} ({index}){ext}")`. -/
def candidatePath (dir name ext : String) (index : Nat) : FPath :=
  ⟨dir, name ++ " (" ++ natRepr index ++ ")", ext⟩

/-- Collision loop of `ensure_unique_path`.  The fuel argument only serves
structural termination; `ensure_unique_path` supplies enough fuel
(`fs.length + 1`) for the loop to reach a free candidate, which always
exists because the filesystem is finite. -/
def ensureUniqueAux (fs : FS) (dir name ext : String) : Nat → Nat → FPath
  | index, 0 => candidatePath dir name ext index
  | index, fuel + 1 =>
    if fsExists fs (candidatePath dir name ext index) then
      ensureUniqueAux fs dir name ext (index + 1) fuel
    else candidatePath dir name ext index

/-- Model of `ensure_unique_path(path)` from `src/objects/file_ops.py`: an
existing desired path is disambiguated by appending `" (N)"` to the stem,
starting at `N = 2`. -/
def ensure_unique_path (fs : FS) (p : FPath) : FPath :=
  if fsExists fs p then ensureUniqueAux fs p.dir p.name p.ext 2 (fs.length + 1)
  else p

/-- Name of the archive subdirectory created by `get_archive_dir`. -/
def ARCHIVE_DIR_NAME : String := "TO_BE_DELETED"

/-- Model of `get_archive_dir(folder_path)` from `src/objects/file_ops.py`
(`os.path.join(folder_path, "TO_BE_DELETED")`; the `os.makedirs` call is
implicit since only files are tracked). -/
def get_archive_dir (folder : String) : String :=
  folder ++ "/" ++ ARCHIVE_DIR_NAME

/-! ### Actions

Each Python action class becomes a constructor of `UAction`; the fields are
the constructor arguments of the class, including the memoized resolved
paths (`new_path`, `trimmed_path`, `archived_original_path`,
`archived_path`, `merged_path`, `archived_paths`), which are `none` until
resolution runs.  `apply`/`undo` return the action with its memoized fields
updated (the Python methods mutate `self`), the resulting filesystem and
the outcome. -/

inductive UAction where
  | rename (old_path : FPath) (new_name : String) (new_path : Option FPath)
  | trim (original_path : FPath) (new_name start end_ : String)
      (trimmed_path archived_original_path : Option FPath)
  | del (original_path : FPath) (archived_path : Option FPath)
  | merge (primary_path : FPath) (paths : List FPath) (new_name : String)
      (archive_originals : Bool) (merged_path : Option FPath)
      (archived_paths : Option (List FPath))

/-- Environment oracles for the effects outside the filesystem map: the exit
status of the external ffmpeg process, the unique tokens entering temp-file
names (`os.getpid()`/`time.time()`/`tempfile` randomness), and, for every
`safe_rename` call site, which attempts hit a transient `PermissionError`. -/
structure Env where
  ffmpegOk : Bool
  tempToken : String
  concatToken : String
  promoteFails : Nat → Bool
  archiveFails : Nat → Nat → Bool
  rollbackFails : Nat → Nat → Bool
  actFails : Nat → Bool
  undoOutFails : Nat → Bool
  restoreFails : Nat → Nat → Bool

/-- Constructor of `RenameVideoAction.__init__`: the user-supplied name is
stripped once at construction. -/
def mkRenameAction (old_path : FPath) (new_name : String)
    (new_path : Option FPath) : UAction :=
  .rename old_path new_name.trim new_path

/-- Constructor of `TrimVideoAction.__init__`. -/
def mkTrimAction (original_path : FPath) (new_name start end_ : String)
    (trimmed_path archived_original_path : Option FPath) : UAction :=
  .trim original_path new_name.trim start.trim end_.trim trimmed_path
    archived_original_path

/-- Constructor of `DeleteVideoAction.__init__`. -/
def mkDeleteAction (original_path : FPath) (archived_path : Option FPath) :
    UAction :=
  .del original_path archived_path

/-- Constructor of `MergeVideosAction.__init__`. -/
def mkMergeAction (primary_path : FPath) (paths : List FPath)
    (new_name : String) (archive_originals : Bool) (merged_path : Option FPath)
    (archived_paths : Option (List FPath)) : UAction :=
  .merge primary_path paths new_name.trim archive_originals merged_path
    archived_paths

/-- Model of `RenameVideoAction._resolve_new_path`: return the memoized path
when present, otherwise build the desired path from the sanitized name plus
the original extension and disambiguate it. -/
def resolveRenamePath (fs : FS) (old_path : FPath) (new_name : String)
    (memo : Option FPath) : Except Err FPath :=
  match memo with
  | some p => .ok p
  | none =>
    if new_name = "" then .error .validation
    else .ok (ensure_unique_path fs
      ⟨old_path.dir, sanitize_filename new_name, old_path.ext⟩)

/-- Model of `RenameVideoAction.apply`. -/
def renameApply (env : Env) (fs : FS) (old_path : FPath) (new_name : String)
    (memo : Option FPath) : UAction × FS × Except Err FPath :=
  if fsExists fs old_path = false then
    (.rename old_path new_name memo, fs, .error .notFound)
  else
    match resolveRenamePath fs old_path new_name memo with
    | .error e => (.rename old_path new_name memo, fs, .error e)
    | .ok target =>
      if target = old_path then
        (.rename old_path new_name (some target), fs, .ok target)
      else if fsExists fs target then
        (.rename old_path new_name (some target), fs, .error .conflict)
      else
        match (safe_rename env.actFails fs old_path target).1 with
        | .error e => (.rename old_path new_name (some target), fs, .error e)
        | .ok fs' => (.rename old_path new_name (some target), fs', .ok target)

/-- Model of `RenameVideoAction.undo`. -/
def renameUndo (env : Env) (fs : FS) (old_path : FPath) (new_name : String)
    (memo : Option FPath) : UAction × FS × Except Err FPath :=
  match resolveRenamePath fs old_path new_name memo with
  | .error e => (.rename old_path new_name memo, fs, .error e)
  | .ok target =>
    if target = old_path then
      (.rename old_path new_name (some target), fs, .ok old_path)
    else if fsExists fs target = false then
      (.rename old_path new_name (some target), fs, .error .notFound)
    else if fsExists fs old_path then
      (.rename old_path new_name (some target), fs, .error .conflict)
    else
      match (safe_rename (env.restoreFails 0) fs target old_path).1 with
      | .error e => (.rename old_path new_name (some target), fs, .error e)
      | .ok fs' => (.rename old_path new_name (some target), fs', .ok old_path)

/-- Model of `DeleteVideoAction._resolve_archived_path`. -/
def resolveDeleteArchivedPath (fs : FS) (original_path : FPath)
    (memo : Option FPath) : FPath :=
  match memo with
  | some p => p
  | none =>
    ensure_unique_path fs
      ⟨get_archive_dir original_path.dir,
        original_path.name ++ "_archive_" ++ original_path.name,
        original_path.ext⟩

/-- Model of `DeleteVideoAction.apply`. -/
def deleteApply (env : Env) (fs : FS) (original_path : FPath)
    (memo : Option FPath) : UAction × FS × Except Err FPath :=
  if fsExists fs original_path = false then
    (.del original_path memo, fs, .error .notFound)
  else
    let archived := resolveDeleteArchivedPath fs original_path memo
    if fsExists fs archived then
      (.del original_path (some archived), fs, .error .conflict)
    else
      match (safe_rename env.actFails fs original_path archived).1 with
      | .error e => (.del original_path (some archived), fs, .error e)
      | .ok fs' => (.del original_path (some archived), fs', .ok archived)

/-- Model of `DeleteVideoAction.undo`. -/
def deleteUndo (env : Env) (fs : FS) (original_path : FPath)
    (memo : Option FPath) : UAction × FS × Except Err FPath :=
  let archived := resolveDeleteArchivedPath fs original_path memo
  if fsExists fs archived = false then
    (.del original_path (some archived), fs, .error .notFound)
  else if fsExists fs original_path then
    (.del original_path (some archived), fs, .error .conflict)
  else
    match (safe_rename (env.restoreFails 0) fs archived original_path).1 with
    | .error e => (.del original_path (some archived), fs, .error e)
    | .ok fs' => (.del original_path (some archived), fs', .ok original_path)

/-- Model of `TrimVideoAction._resolve_trimmed_path`. -/
def resolveTrimmedPath (fs : FS) (original_path : FPath) (new_name : String)
    (memo : Option FPath) : FPath :=
  match memo with
  | some p => p
  | none =>
    ensure_unique_path fs
      ⟨original_path.dir, sanitize_filename new_name, original_path.ext⟩

/-- Model of `TrimVideoAction._resolve_archived_original_path`. -/
def resolveTrimArchivedPath (fs : FS) (original_path : FPath)
    (new_name : String) (memo : Option FPath) : FPath :=
  match memo with
  | some p => p
  | none =>
    ensure_unique_path fs
      ⟨get_archive_dir original_path.dir,
        sanitize_filename new_name ++ "_archive_" ++ original_path.name,
        original_path.ext⟩

/-- Model of `TrimVideoAction._build_temp_output_path` (the pid/time part of
the name is the environment's token). -/
def trimTempPath (env : Env) (original_path : FPath) (new_name : String) :
    FPath :=
  let base := sanitize_filename new_name
  ⟨original_path.dir,
    "_temp_trim_" ++ env.tempToken ++ "_" ++ (if base = "" then "trim" else base),
    original_path.ext⟩

/-- Model of `TrimVideoAction.apply`, including the cleanup performed by
its two `except` branches. -/
def trimApply (env : Env) (fs : FS) (original_path : FPath)
    (new_name start end_ : String) (trimmed_memo archived_memo : Option FPath) :
    UAction × FS × Except Err FPath :=
  if new_name = "" then
    (.trim original_path new_name start end_ trimmed_memo archived_memo, fs,
      .error .validation)
  else if start = "" then
    (.trim original_path new_name start end_ trimmed_memo archived_memo, fs,
      .error .validation)
  else if fsExists fs original_path = false then
    (.trim original_path new_name start end_ trimmed_memo archived_memo, fs,
      .error .notFound)
  else
    let trimmed := resolveTrimmedPath fs original_path new_name trimmed_memo
    let archived := resolveTrimArchivedPath fs original_path new_name archived_memo
    let act := UAction.trim original_path new_name start end_ (some trimmed)
      (some archived)
    if fsExists fs trimmed then (act, fs, .error .conflict)
    else if fsExists fs archived then (act, fs, .error .conflict)
    else
      let temp := trimTempPath env original_path new_name
      if env.ffmpegOk = false then
        let fsT := fsSet fs temp .junk
        let fs1 := if fsExists fsT temp then fsErase fsT temp else fsT
        (act, fs1, .error .external)
      else
        let fs1 := fsSet fs temp
          (.trimOut ((fsGet fs original_path).getD .junk) start end_)
        match (safe_rename env.promoteFails fs1 temp trimmed).1 with
        | .error e =>
          let fs2 := if fsExists fs1 temp then fsErase fs1 temp else fs1
          let fs3 := if fsExists fs2 trimmed then fsErase fs2 trimmed else fs2
          (act, fs3, .error e)
        | .ok fs2 =>
          match (safe_rename (env.archiveFails 0) fs2 original_path archived).1 with
          | .error e =>
            let fs3 := if fsExists fs2 temp then fsErase fs2 temp else fs2
            let fs4 := if fsExists fs3 trimmed then fsErase fs3 trimmed else fs3
            (act, fs4, .error e)
          | .ok fs3 => (act, fs3, .ok trimmed)

/-- Model of `TrimVideoAction.undo`. -/
def trimUndo (env : Env) (fs : FS) (original_path : FPath)
    (new_name start end_ : String) (trimmed_memo archived_memo : Option FPath) :
    UAction × FS × Except Err FPath :=
  let archived := resolveTrimArchivedPath fs original_path new_name archived_memo
  let act := UAction.trim original_path new_name start end_ trimmed_memo
    (some archived)
  if fsExists fs archived = false then (act, fs, .error .notFound)
  else if fsExists fs original_path then (act, fs, .error .conflict)
  else
    let step : FS × Option Err :=
      match trimmed_memo with
      | some tp =>
        if fsExists fs tp then
          let q := ensure_unique_path fs
            ⟨get_archive_dir original_path.dir, "undo_archive_" ++ tp.name, tp.ext⟩
          match (safe_rename env.undoOutFails fs tp q).1 with
          | .error e => (fs, some e)
          | .ok fs1 => (fs1, none)
        else (fs, none)
      | none => (fs, none)
    match step with
    | (fsA, some e) => (act, fsA, .error e)
    | (fsA, none) =>
      match (safe_rename (env.restoreFails 0) fsA archived original_path).1 with
      | .error e => (act, fsA, .error e)
      | .ok fs2 => (act, fs2, .ok original_path)

/-- Model of `MergeVideosAction._resolve_merged_path`.  Resolution reads
`self.paths[0]` for the extension; an empty path list (impossible after
validation) is mapped to the catch-all error an uncaught `IndexError`
would be. -/
def resolveMergedPath (fs : FS) (folder : String) (paths : List FPath)
    (new_name : String) (memo : Option FPath) : Except Err FPath :=
  match memo with
  | some p => .ok p
  | none =>
    match paths with
    | [] => .error .internal
    | p0 :: _ =>
      .ok (ensure_unique_path fs ⟨folder, sanitize_filename new_name, p0.ext⟩)

/-- Model of `MergeVideosAction._resolve_archived_paths` for the
`archive_originals` case. -/
def resolveMergeArchivedPaths (fs : FS) (folder : String)
    (paths : List FPath) (new_name : String) (memo : Option (List FPath)) :
    List FPath :=
  match memo with
  | some l => l
  | none =>
    paths.map fun sp =>
      ensure_unique_path fs
        ⟨get_archive_dir folder,
          sanitize_filename new_name ++ "_archive_" ++ sp.name, sp.ext⟩

/-- Archive loop of `MergeVideosAction.apply`: rename each source to its
archive destination, recording the moved pairs in order, stopping at the
first failing rename. -/
def mergeArchiveLoop (env : Env) :
    FS → List (FPath × FPath) → Nat → FS × List (FPath × FPath) × Option Err
  | fs, [], _ => (fs, [], none)
  | fs, (src, dst) :: rest, k =>
    match (safe_rename (env.archiveFails k) fs src dst).1 with
    | .error e => (fs, [], some e)
    | .ok fs' =>
      match mergeArchiveLoop env fs' rest (k + 1) with
      | (fs'', moved, res) => (fs'', (src, dst) :: moved, res)

/-- Rollback loop of `MergeVideosAction.apply`'s `except` branch: undo the
already performed archive renames (in reverse order), swallowing failures of
the rollback renames themselves. -/
def mergeRollback (env : Env) : FS → List (FPath × FPath) → Nat → FS
  | fs, [], _ => fs
  | fs, (src, dst) :: rest, k =>
    let fs' :=
      if fsExists fs dst && !fsExists fs src then
        match (safe_rename (env.rollbackFails k) fs dst src).1 with
        | .ok f => f
        | .error _ => fs
      else fs
    mergeRollback env fs' rest (k + 1)

/-- Model of `MergeVideosAction._build_temp_output_path`. -/
def mergeTempPath (env : Env) (folder : String) (p0 : FPath)
    (new_name : String) : FPath :=
  let base := sanitize_filename new_name
  ⟨folder,
    "_temp_merge_" ++ env.tempToken ++ "_" ++ (if base = "" then "merge" else base),
    p0.ext⟩

/-- Model of the concat list file written by
`MergeVideosAction._write_concat_file` (a `tempfile.NamedTemporaryFile` in
the clips' folder). -/
def mergeConcatPath (env : Env) (folder : String) : FPath :=
  ⟨folder, "_merge_concat_" ++ env.concatToken, ".txt"⟩

/-- Model of `MergeVideosAction.apply`, including validation, the staged
concat, the archive loop, the rollback of its `except` branch and the
`finally` removal of the concat list file. -/
def mergeApply (env : Env) (fs : FS) (primary_path : FPath)
    (paths : List FPath) (new_name : String) (archive_originals : Bool)
    (merged_memo : Option FPath) (archived_memo : Option (List FPath)) :
    UAction × FS × Except Err FPath :=
  let mkAct := fun (mm : Option FPath) (am : Option (List FPath)) =>
    UAction.merge primary_path paths new_name archive_originals mm am
  if paths.length < 2 then (mkAct merged_memo archived_memo, fs, .error .validation)
  else if 3 < paths.length then (mkAct merged_memo archived_memo, fs, .error .validation)
  else if ¬ paths.Nodup then (mkAct merged_memo archived_memo, fs, .error .validation)
  else if new_name = "" then (mkAct merged_memo archived_memo, fs, .error .validation)
  else
    match paths with
    | [] => (mkAct merged_memo archived_memo, fs, .error .internal)
    | p0 :: rest =>
      if ¬ (∀ q ∈ rest, q.dir = p0.dir) then
        (mkAct merged_memo archived_memo, fs, .error .validation)
      else
        let folder := p0.dir
        if ¬ (∀ q ∈ paths, fsExists fs q = true) then
          (mkAct merged_memo archived_memo, fs, .error .notFound)
        else
          match resolveMergedPath fs folder paths new_name merged_memo with
          | .error e => (mkAct merged_memo archived_memo, fs, .error e)
          | .ok merged =>
            let archived : List FPath :=
              if archive_originals then
                resolveMergeArchivedPaths fs folder paths new_name archived_memo
              else []
            let memoA : Option (List FPath) :=
              if archive_originals then some archived else archived_memo
            let act := mkAct (some merged) memoA
            if fsExists fs merged then (act, fs, .error .conflict)
            else if ∃ ap ∈ archived, fsExists fs ap = true then
              (act, fs, .error .conflict)
            else
              let temp := mergeTempPath env folder p0 new_name
              let concatFile := mergeConcatPath env folder
              let fsC := fsSet fs concatFile (.listing paths)
              if env.ffmpegOk = false then
                let fsT := fsSet fsC temp .junk
                let fs1 := if fsExists fsT temp then fsErase fsT temp else fsT
                let fs2 := if fsExists fs1 concatFile then fsErase fs1 concatFile else fs1
                (act, fs2, .error .external)
              else
                let contents := paths.map fun q => (fsGet fs q).getD .junk
                let fs1 := fsSet fsC temp (.concatOut contents)
                match (safe_rename env.promoteFails fs1 temp merged).1 with
                | .error e =>
                  let fs2 := if fsExists fs1 temp then fsErase fs1 temp else fs1
                  let fs3 := if fsExists fs2 merged then fsErase fs2 merged else fs2
                  let fs4 := if fsExists fs3 concatFile then fsErase fs3 concatFile else fs3
                  (act, fs4, .error e)
                | .ok fs2 =>
                  if archive_originals then
                    match mergeArchiveLoop env fs2 (paths.zip archived) 0 with
                    | (fs3, _, none) =>
                      let fs4 := if fsExists fs3 concatFile then fsErase fs3 concatFile else fs3
                      (act, fs4, .ok merged)
                    | (fs3, moved, some e) =>
                      let fs4 := if fsExists fs3 temp then fsErase fs3 temp else fs3
                      let fs5 := mergeRollback env fs4 moved.reverse 0
                      let fs6 := if fsExists fs5 merged then fsErase fs5 merged else fs5
                      let fs7 := if fsExists fs6 concatFile then fsErase fs6 concatFile else fs6
                      (act, fs7, .error e)
                  else
                    let fs3 := if fsExists fs2 concatFile then fsErase fs2 concatFile else fs2
                    (act, fs3, .ok merged)

/-- Validation loop of `MergeVideosAction.undo`: each pair must have its
archived original present and its source path free. -/
def mergeUndoCheckLoop (fs : FS) : List (FPath × FPath) → Option Err
  | [] => none
  | (src, dst) :: rest =>
    if fsExists fs dst = false then some .notFound
    else if fsExists fs src then some .conflict
    else mergeUndoCheckLoop fs rest

/-- Restore loop of `MergeVideosAction.undo`: move each archived original
back to its source path; a failing rename aborts mid-loop. -/
def mergeRestoreLoop (env : Env) :
    FS → List (FPath × FPath) → Nat → FS × Option Err
  | fs, [], _ => (fs, none)
  | fs, (src, dst) :: rest, k =>
    match (safe_rename (env.restoreFails k) fs dst src).1 with
    | .error e => (fs, some e)
    | .ok fs' => mergeRestoreLoop env fs' rest (k + 1)

/-- Model of `MergeVideosAction.undo`: the merged output is moved into the
archive directory first, the archived originals are validated and restored
afterwards. -/
def mergeUndo (env : Env) (fs : FS) (primary_path : FPath)
    (paths : List FPath) (new_name : String) (archive_originals : Bool)
    (merged_memo : Option FPath) (archived_memo : Option (List FPath)) :
    UAction × FS × Except Err FPath :=
  let mkAct := fun (mm : Option FPath) (am : Option (List FPath)) =>
    UAction.merge primary_path paths new_name archive_originals mm am
  let folder := primary_path.dir
  match resolveMergedPath fs folder paths new_name merged_memo with
  | .error e => (mkAct merged_memo archived_memo, fs, .error e)
  | .ok merged =>
    if fsExists fs merged = false then
      (mkAct (some merged) archived_memo, fs, .error .notFound)
    else
      let archivedMerged := ensure_unique_path fs
        ⟨get_archive_dir folder, "undo_archive_" ++ merged.name, merged.ext⟩
      match (safe_rename env.undoOutFails fs merged archivedMerged).1 with
      | .error e => (mkAct (some merged) archived_memo, fs, .error e)
      | .ok fs1 =>
        if archive_originals then
          let archived := resolveMergeArchivedPaths fs1 folder paths new_name
            archived_memo
          let act := mkAct (some merged) (some archived)
          match mergeUndoCheckLoop fs1 (paths.zip archived) with
          | some e => (act, fs1, .error e)
          | none =>
            match mergeRestoreLoop env fs1 (paths.zip archived) 0 with
            | (fs2, some e) => (act, fs2, .error e)
            | (fs2, none) =>
              let current := match paths with
                | [] => primary_path
                | q :: _ => q
              (act, fs2, .ok current)
        else
          let current := match paths with
            | [] => primary_path
            | q :: _ => q
          (mkAct (some merged) archived_memo, fs1, .ok current)

/-- Dispatcher of `UserAction.apply` over the variant tag. -/
def applyA (env : Env) (fs : FS) : UAction → UAction × FS × Except Err FPath
  | .rename o n m => renameApply env fs o n m
  | .trim o n s e tm am => trimApply env fs o n s e tm am
  | .del o m => deleteApply env fs o m
  | .merge pr ps n ao mm am => mergeApply env fs pr ps n ao mm am

/-- Dispatcher of `UserAction.undo` over the variant tag. -/
def undoA (env : Env) (fs : FS) : UAction → UAction × FS × Except Err FPath
  | .rename o n m => renameUndo env fs o n m
  | .trim o n s e tm am => trimUndo env fs o n s e tm am
  | .del o m => deleteUndo env fs o m
  | .merge pr ps n ao mm am => mergeUndo env fs pr ps n ao mm am

/-- Model of `UserAction.redo`, which simply re-runs `apply`. -/
def redoA (env : Env) (fs : FS) (a : UAction) : UAction × FS × Except Err FPath :=
  applyA env fs a

/-! ### `action_history_service.py`

The persisted per-folder history document: a cursor and the ordered list of
action records.  A record stores every payload field needed to reconstruct
the action, including the memoized resolved paths, so a record is
represented by the reconstructed `UAction` itself (`to_record`/`from_record`
preserve all payload fields; the generated `id`/`created_at` metadata plays
no role in the engine's behavior).  The service functions return the state
that is durably persisted when they finish: a raised `apply`/`undo`/`redo`
error leaves the previously persisted state in place because `_save_state`
only runs after a successful action call. -/

structure HistoryState where
  cursor : Int
  actions : List UAction

/-- State returned by `_load_state` for a folder with no history file. -/
def initialHistoryState : HistoryState :=
  ⟨-1, []⟩

/-- Model of `ActionHistoryService._truncate_redo_tail` (the in-memory
slice `actions[: cursor + 1]`). -/
def truncate_redo_tail (s : HistoryState) : HistoryState :=
  if s.cursor < (s.actions.length : Int) - 1 then
    { s with actions := s.actions.take (s.cursor + 1).toNat }
  else s

/-- Model of `ActionHistoryService.execute`: load, truncate the redo tail,
apply, append the record and persist; a raised `apply` leaves the persisted
state untouched and propagates. -/
def executeH (env : Env) (s : HistoryState) (a : UAction) (fs : FS) :
    HistoryState × FS × Except Err FPath :=
  let s1 := truncate_redo_tail s
  match applyA env fs a with
  | (_, fs', .error e) => (s, fs', .error e)
  | (a', fs', .ok r) =>
    let actions' := s1.actions ++ [a']
    (⟨(actions'.length : Int) - 1, actions'⟩, fs', .ok r)

/-- Model of `ActionHistoryService.undo`. -/
def undoH (env : Env) (s : HistoryState) (fs : FS) :
    HistoryState × FS × Except Err FPath :=
  if s.cursor < 0 ∨ (s.actions.length : Int) ≤ s.cursor then
    (s, fs, .error .validation)
  else
    match s.actions.get? s.cursor.toNat with
    | none => (s, fs, .error .validation)
    | some rec =>
      match undoA env fs rec with
      | (_, fs', .error e) => (s, fs', .error e)
      | (_, fs', .ok r) => ({ s with cursor := s.cursor - 1 }, fs', .ok r)

/-- Model of `ActionHistoryService.redo`. -/
def redoH (env : Env) (s : HistoryState) (fs : FS) :
    HistoryState × FS × Except Err FPath :=
  let next := s.cursor + 1
  if next < 0 ∨ (s.actions.length : Int) ≤ next then
    (s, fs, .error .validation)
  else
    match s.actions.get? next.toNat with
    | none => (s, fs, .error .validation)
    | some rec =>
      match redoA env fs rec with
      | (_, fs', .error e) => (s, fs', .error e)
      | (_, fs', .ok r) => ({ s with cursor := next }, fs', .ok r)

/-- Cursor invariant of a persisted history state. -/
def validHistory (s : HistoryState) : Prop :=
  -1 ≤ s.cursor ∧ s.cursor ≤ (s.actions.length : Int) - 1

/-! ### Concrete sample data for witnesses and counterexamples -/

/-- Environment in which the external process succeeds and no rename ever
hits a transient `PermissionError`. -/
def envOk : Env :=
  ⟨true, "T", "C", fun _ => false, fun _ _ => false, fun _ _ => false,
    fun _ => false, fun _ => false, fun _ _ => false⟩

/-- Sample path `d/a.mp4`. -/
def pA : FPath := ⟨"d", "a", ".mp4"⟩

/-- Sample path `d/b.mp4`. -/
def pB : FPath := ⟨"d", "b", ".mp4"⟩

/-! ### Characterization of sequential move loops

`moveSpec fs0 zs p` describes, pair by pair, the filesystem reached from
`fs0` by moving `pr.1` to `pr.2` for every pair of `zs`, valid whenever the
moves do not interfere (sources pairwise distinct, destinations pairwise
distinct and never equal to a source) — exactly the discipline that the
Windows rename semantics enforces on a successful archive/restore loop. -/
def moveSpec (fs0 : FS) : List (FPath × FPath) → FPath → Option Content
  | [], p => fsGet fs0 p
  | (s, d) :: rest, p =>
    if p = d then fsGet fs0 s
    else if p = s then none
    else moveSpec fs0 rest p

/-! ### Claim C5 -/

/-- Environment in which the external process succeeds, the rename archiving
the second clip of a merge keeps failing transiently, and every rollback
rename also keeps failing transiently. -/
def envRollbackStuck : Env :=
  ⟨true, "T", "C", fun _ => false, fun k _ => decide (k = 1),
    fun _ _ => true, fun _ => false, fun _ => false, fun _ _ => false⟩

/-- Environment in which the external process succeeds and the rename
archiving the second clip of a merge keeps failing transiently, while the
rollback renames succeed. -/
def envArchFail : Env :=
  ⟨true, "T", "C", fun _ => false, fun k _ => decide (k = 1),
    fun _ _ => false, fun _ => false, fun _ => false, fun _ _ => false⟩

/-! ### Theorems -/

theorem fsGet_fsErase (fs : FS) (q p : FPath) :
    fsGet (fsErase fs q) p = if p = q then none else fsGet fs p := by
  induction fs with
  | nil => simp [fsErase, fsGet]
  | cons hd tl ih =>
    obtain ⟨r, c⟩ := hd
    simp only [fsErase, fsGet]
    by_cases hqr : q = r
    · subst hqr
      rw [if_pos rfl, ih]
      by_cases hp : p = q <;> simp [hp]
    · rw [if_neg hqr]
      simp only [fsGet]
      rw [ih]
      by_cases hp : p = r
      · have hpq : p ≠ q := fun h => hqr (h.symm.trans hp)
        simp [hp, hpq, Ne.symm hqr]
      · by_cases hpq : p = q <;> simp [hp, hpq, hqr]

theorem fsGet_fsSet (fs : FS) (q p : FPath) (c : Content) :
    fsGet (fsSet fs q c) p = if p = q then some c else fsGet fs p := by
  by_cases hp : p = q <;> simp [fsSet, fsGet, hp, fsGet_fsErase]

theorem mem_fsKeys_of_fsGet {fs : FS} {p : FPath} {c : Content}
    (h : fsGet fs p = some c) : p ∈ fsKeys fs := by
  induction fs with
  | nil => simp [fsGet] at h
  | cons hd tl ih =>
    obtain ⟨q, d⟩ := hd
    by_cases hp : p = q
    · subst hp; simp [fsKeys]
    · simp [fsGet, hp] at h
      simpa [fsKeys] using Or.inr (ih h)

theorem mem_fsKeys_of_fsExists {fs : FS} {p : FPath}
    (h : fsExists fs p = true) : p ∈ fsKeys fs := by
  unfold fsExists at h
  cases hg : fsGet fs p with
  | none => rw [hg] at h; simp at h
  | some c => exact mem_fsKeys_of_fsGet hg

theorem digitVal_digitChar {d : Nat} (h : d < 10) : digitVal (digitChar d) = d := by
  interval_cases d <;> rfl

theorem digitsVal_append_singleton (l : List Char) (c : Char) :
    digitsVal (l ++ [c]) = 10 * digitsVal l + digitVal c := by
  simp [digitsVal, List.foldl_append]

theorem digitsVal_natDigitsAux :
    ∀ fuel n, n < fuel → digitsVal (natDigitsAux n fuel) = n := by
  intro fuel
  induction fuel with
  | zero => omega
  | succ f ih =>
    intro n hn
    by_cases h : n < 10
    · simp [natDigitsAux, h, digitsVal, digitVal_digitChar h]
    · rw [natDigitsAux]
      simp only [h, if_false]
      rw [digitsVal_append_singleton,
        ih (n / 10) (by omega),
        digitVal_digitChar (Nat.mod_lt _ (by omega))]
      omega

theorem digitsVal_natDigits (n : Nat) : digitsVal (natDigits n) = n :=
  digitsVal_natDigitsAux (n + 1) n (by omega)

theorem natDigits_injective : Function.Injective natDigits := by
  intro m n h
  have := congrArg digitsVal h
  rwa [digitsVal_natDigits, digitsVal_natDigits] at this

theorem natDigits_ne_nil (n : Nat) : natDigits n ≠ [] := by
  rw [natDigits, natDigitsAux]
  by_cases h : n < 10 <;> simp [h]

theorem natRepr_injective : Function.Injective natRepr := by
  intro m n h
  exact natDigits_injective (by injection h)

theorem ne_of_exists_free {fs : FS} {p q : FPath}
    (hp : fsExists fs p = true) (hq : fsExists fs q = false) : p ≠ q := by
  intro h
  rw [h] at hp
  rw [hp] at hq
  cases hq

theorem get_archive_dir_ne (s : String) : get_archive_dir s ≠ s := by
  intro h
  have := congrArg String.length h
  rw [get_archive_dir, String.length_append, String.length_append] at this
  have h1 : ("/" : String).length = 1 := rfl
  have h2 : ARCHIVE_DIR_NAME.length = 13 := rfl
  omega

theorem fsGet_of_fsExists {fs : FS} {p : FPath} (h : fsExists fs p = true) :
    ∃ c, fsGet fs p = some c := by
  revert h
  unfold fsExists
  cases hg : fsGet fs p <;> simp

/-! ### Lemmas about `safe_rename` -/

theorem safeRenameAux_cases (fails : Nat → Bool) (fs : FS) (src dst : FPath)
    (retries : Nat) : ∀ fuel i,
    (safeRenameAux fails fs src dst retries i fuel).1 = osRename fs src dst ∨
      (safeRenameAux fails fs src dst retries i fuel).1 = .error .permission := by
  intro fuel
  induction fuel with
  | zero => intro i; right; rfl
  | succ f ih =>
    intro i
    by_cases hf : fails i
    · by_cases hlt : i < retries - 1
      · simpa [safeRenameAux, hf, hlt] using ih (i + 1)
      · right; simp [safeRenameAux, hf, hlt]
    · left; simp [safeRenameAux, hf]

theorem safe_rename_ok {fails : Nat → Bool} {fs fs' : FS} {src dst : FPath}
    (h : (safe_rename fails fs src dst).1 = .ok fs') :
    osRename fs src dst = .ok fs' := by
  rcases safeRenameAux_cases fails fs src dst RETRIES RETRIES 0 with hc | hc
  · rw [safe_rename] at h; rw [← hc, h]
  · rw [safe_rename] at h; rw [hc] at h; exact absurd h (by simp)

theorem osRename_ok {fs fs' : FS} {src dst : FPath}
    (h : osRename fs src dst = .ok fs') :
    ∃ c, fsGet fs src = some c ∧ fs' = fsSet (fsErase fs src) dst c := by
  unfold osRename at h
  cases hg : fsGet fs src with
  | none => rw [hg] at h; exact absurd h (by simp)
  | some c =>
    rw [hg] at h
    dsimp only [] at h
    by_cases hfree : dst ≠ src ∧ fsExists fs dst = true
    · rw [if_pos hfree] at h; exact absurd h (by simp)
    · rw [if_neg hfree] at h
      exact ⟨c, rfl, by injection h with h'; exact h'.symm⟩

theorem osRename_ok_free {fs : FS} {src dst : FPath} {c : Content}
    (hc : fsGet fs src = some c) (hfree : fsExists fs dst = false) :
    osRename fs src dst = .ok (fsSet (fsErase fs src) dst c) := by
  unfold osRename
  rw [hc]
  dsimp only []
  rw [if_neg (fun hh => by rw [hfree] at hh; exact absurd hh.2 (by simp))]

theorem safe_rename_all_fail (fails : Nat → Bool) (fs : FS) (src dst : FPath)
    (h : ∀ i, i < RETRIES → fails i = true) :
    safe_rename fails fs src dst = (.error .permission, RETRIES - 1) := by
  have h0 := h 0 (by norm_num [RETRIES])
  have h1 := h 1 (by norm_num [RETRIES])
  have h2 := h 2 (by norm_num [RETRIES])
  have h3 := h 3 (by norm_num [RETRIES])
  have h4 := h 4 (by norm_num [RETRIES])
  simp [safe_rename, RETRIES, safeRenameAux, h0, h1, h2, h3, h4]

theorem safeRenameAux_first_success (fails : Nat → Bool) (fs : FS)
    (src dst : FPath) (retries : Nat) : ∀ fuel i j, i ≤ j → j < retries →
    j - i < fuel → (∀ k, i ≤ k → k < j → fails k = true) → fails j = false →
    safeRenameAux fails fs src dst retries i fuel =
      (osRename fs src dst, j - i) := by
  intro fuel
  induction fuel with
  | zero => omega
  | succ f ih =>
    intro i j hij hjr hfuel hfail hok
    by_cases hji : i = j
    · subst hji
      simp [safeRenameAux, hok]
    · have hi : i < j := by omega
      have hfi : fails i = true := hfail i le_rfl hi
      have hir : i < retries - 1 := by omega
      have := ih (i + 1) j (by omega) hjr (by omega)
        (fun k hk1 hk2 => hfail k (by omega) hk2) hok
      simp only [safeRenameAux, hfi, if_true, hir, this]
      have : j - i = j - (i + 1) + 1 := by omega
      simp [this]

/-- Behavior of `safe_rename` when the first `j` attempts fail transiently
and attempt `j` goes through: the rename is performed and exactly `j` sleeps
of the fixed delay have happened. -/
theorem safe_rename_retry_success (fails : Nat → Bool) (fs : FS)
    (src dst : FPath) (j : Nat) (hj : j < RETRIES)
    (hfail : ∀ k, k < j → fails k = true) (hok : fails j = false) :
    safe_rename fails fs src dst = (osRename fs src dst, j) := by
  have := safeRenameAux_first_success fails fs src dst RETRIES RETRIES 0 j
    (by omega) hj (by omega) (fun k _ hk2 => hfail k hk2) hok
  simpa [safe_rename] using this

/-! ### Lemmas about `ensure_unique_path` -/

theorem candidatePath_dir (dir name ext : String) (i : Nat) :
    (candidatePath dir name ext i).dir = dir := rfl

theorem candidatePath_ext (dir name ext : String) (i : Nat) :
    (candidatePath dir name ext i).ext = ext := rfl

theorem natRepr_length_pos (n : Nat) : 0 < (natRepr n).length := by
  have h := natDigits_ne_nil n
  simp only [natRepr, String.length]
  cases hd : natDigits n with
  | nil => exact absurd hd h
  | cons c l => simp

theorem candidatePath_ne_base (dir name ext : String) (i : Nat) :
    candidatePath dir name ext i ≠ ⟨dir, name, ext⟩ := by
  intro h
  have hname : name ++ " (" ++ natRepr i ++ ")" = name := congrArg FPath.name h
  have := congrArg String.length hname
  simp only [String.length_append] at this
  have := natRepr_length_pos i
  omega

theorem candidatePath_injective (dir name ext : String) {i j : Nat}
    (h : candidatePath dir name ext i = candidatePath dir name ext j) :
    i = j := by
  have hname : name ++ " (" ++ natRepr i ++ ")" = name ++ " (" ++ natRepr j ++ ")" :=
    congrArg FPath.name h
  have hdata := congrArg String.data hname
  simp only [String.data_append, List.append_assoc] at hdata
  have h1 := List.append_cancel_left hdata
  have h2 := List.append_cancel_left h1
  have h3 := List.append_cancel_right h2
  apply natRepr_injective
  apply String.ext
  exact h3

theorem exists_free_candidate (fs : FS) (dir name ext : String) :
    ∃ k, k ≤ fs.length ∧
      fsExists fs (candidatePath dir name ext (2 + k)) = false := by
  by_contra hcon
  push_neg at hcon
  have hall : ∀ k, k ≤ fs.length →
      fsExists fs (candidatePath dir name ext (2 + k)) = true := by
    intro k hk
    have := hcon k hk
    revert this
    cases fsExists fs (candidatePath dir name ext (2 + k)) <;> simp
  set f : Fin (fs.length + 1) → FPath :=
    fun k => candidatePath dir name ext (2 + (k : Nat)) with hf
  have hinj : Function.Injective f := by
    intro a b hab
    have := candidatePath_injective dir name ext hab
    exact Fin.ext (by omega)
  have hsub : (Finset.univ.image f) ⊆ (fsKeys fs).toFinset := by
    intro x hx
    simp only [Finset.mem_image] at hx
    obtain ⟨k, _, hk⟩ := hx
    rw [List.mem_toFinset]
    exact hk ▸ mem_fsKeys_of_fsExists (hall k (by omega))
  have hcard1 : (Finset.univ.image f).card = fs.length + 1 := by
    rw [Finset.card_image_of_injective _ hinj, Finset.card_univ, Fintype.card_fin]
  have hcard2 : (fsKeys fs).toFinset.card ≤ fs.length := by
    have := (fsKeys fs).toFinset_card_le
    simpa [fsKeys] using this
  have := Finset.card_le_card hsub
  omega

theorem ensureUniqueAux_eq_of_least (fs : FS) (dir name ext : String) :
    ∀ fuel start k, k < fuel →
    fsExists fs (candidatePath dir name ext (start + k)) = false →
    (∀ m, m < k → fsExists fs (candidatePath dir name ext (start + m)) = true) →
    ensureUniqueAux fs dir name ext start fuel =
      candidatePath dir name ext (start + k) := by
  intro fuel
  induction fuel with
  | zero => omega
  | succ f ih =>
    intro start k hk hfree hocc
    by_cases hk0 : k = 0
    · subst hk0
      simp only [Nat.add_zero] at hfree ⊢
      simp [ensureUniqueAux, hfree]
    · have h0 : fsExists fs (candidatePath dir name ext start) = true := by
        simpa using hocc 0 (by omega)
      have := ih (start + 1) (k - 1) (by omega)
        (by have : start + 1 + (k - 1) = start + k := by omega
            rw [this]; exact hfree)
        (by intro m hm
            have : start + 1 + m = start + (m + 1) := by omega
            rw [this]; exact hocc (m + 1) (by omega))
      simp only [ensureUniqueAux, h0, if_true, this]
      congr 1
      omega

/-- Full characterization of `ensure_unique_path`: a free desired path is
returned unchanged, an occupied one is replaced by the candidate with the
least free collision index `N ≥ 2`. -/
theorem ensure_unique_path_spec (fs : FS) (p : FPath) :
    (fsExists fs p = false → ensure_unique_path fs p = p) ∧
    (fsExists fs p = true → ∃ N, 2 ≤ N ∧
      ensure_unique_path fs p = candidatePath p.dir p.name p.ext N ∧
      fsExists fs (candidatePath p.dir p.name p.ext N) = false ∧
      ∀ M, 2 ≤ M → M < N →
        fsExists fs (candidatePath p.dir p.name p.ext M) = true) := by
  constructor
  · intro h
    simp [ensure_unique_path, h]
  · intro h
    obtain ⟨k₀, hk₀, hfree₀⟩ := exists_free_candidate fs p.dir p.name p.ext
    have hex : ∃ k, fsExists fs (candidatePath p.dir p.name p.ext (2 + k)) = false :=
      ⟨k₀, hfree₀⟩
    set k := Nat.find hex with hkdef
    have hkfree : fsExists fs (candidatePath p.dir p.name p.ext (2 + k)) = false :=
      Nat.find_spec hex
    have hkmin : ∀ m, m < k →
        fsExists fs (candidatePath p.dir p.name p.ext (2 + m)) = true := by
      intro m hm
      have := Nat.find_min hex hm
      revert this
      cases fsExists fs (candidatePath p.dir p.name p.ext (2 + m)) <;> simp
    have hkle : k ≤ k₀ := Nat.find_min' hex hfree₀
    refine ⟨2 + k, by omega, ?_, hkfree, ?_⟩
    · rw [ensure_unique_path, if_pos h]
      exact ensureUniqueAux_eq_of_least fs p.dir p.name p.ext (fs.length + 1) 2 k
        (by omega) hkfree hkmin
    · intro M hM2 hMk
      have : M = 2 + (M - 2) := by omega
      rw [this]
      exact hkmin (M - 2) (by omega)

/-- The path produced by `ensure_unique_path` never collides with an
existing file. -/
theorem fsExists_ensure_unique_path (fs : FS) (p : FPath) :
    fsExists fs (ensure_unique_path fs p) = false := by
  obtain ⟨h1, h2⟩ := ensure_unique_path_spec fs p
  cases he : fsExists fs p with
  | false => rw [h1 he]; exact he
  | true =>
    obtain ⟨N, _, heq, hfree, _⟩ := h2 he
    rw [heq]; exact hfree

theorem ensure_unique_path_dir (fs : FS) (p : FPath) :
    (ensure_unique_path fs p).dir = p.dir := by
  obtain ⟨h1, h2⟩ := ensure_unique_path_spec fs p
  cases he : fsExists fs p with
  | false => rw [h1 he]
  | true =>
    obtain ⟨N, _, heq, _, _⟩ := h2 he
    rw [heq]; rfl

theorem ensure_unique_path_ext (fs : FS) (p : FPath) :
    (ensure_unique_path fs p).ext = p.ext := by
  obtain ⟨h1, h2⟩ := ensure_unique_path_spec fs p
  cases he : fsExists fs p with
  | false => rw [h1 he]
  | true =>
    obtain ⟨N, _, heq, _, _⟩ := h2 he
    rw [heq]; rfl

/-! ### Success characterizations of the rename and delete variants -/

theorem renameApply_ok_elim {env : Env} {fs : FS} {old : FPath} {nn : String}
    {memo : Option FPath} {a' : UAction} {fs' : FS} {r : FPath}
    (h : renameApply env fs old nn memo = (a', fs', .ok r)) :
    fsExists fs old = true ∧
    resolveRenamePath fs old nn memo = .ok r ∧
    a' = .rename old nn (some r) ∧
    ((r = old ∧ fs' = fs) ∨
      (r ≠ old ∧ fsExists fs r = false ∧
        ∃ c, fsGet fs old = some c ∧ fs' = fsSet (fsErase fs old) r c)) := by
  unfold renameApply at h
  by_cases h1 : fsExists fs old = false
  · rw [if_pos h1] at h; simp at h
  · rw [if_neg h1] at h
    have h1' : fsExists fs old = true := by
      revert h1; cases fsExists fs old <;> simp
    cases hres : resolveRenamePath fs old nn memo with
    | error e => rw [hres] at h; simp at h
    | ok target =>
      rw [hres] at h
      dsimp only [] at h
      by_cases h2 : target = old
      · rw [if_pos h2] at h
        simp only [Prod.mk.injEq, Except.ok.injEq] at h
        obtain ⟨ha, hfs, hr⟩ := h
        subst hr
        exact ⟨h1', rfl, ha.symm, Or.inl ⟨h2, hfs.symm⟩⟩
      · rw [if_neg h2] at h
        by_cases h3 : fsExists fs target
        · rw [if_pos h3] at h; simp at h
        · rw [if_neg h3] at h
          cases hsr : (safe_rename env.actFails fs old target).1 with
          | error e => rw [hsr] at h; simp at h
          | ok fsr =>
            rw [hsr] at h
            dsimp only [] at h
            simp only [Prod.mk.injEq, Except.ok.injEq] at h
            obtain ⟨ha, hfs, hr⟩ := h
            subst hr
            obtain ⟨c, hc, hfsr⟩ := osRename_ok (safe_rename_ok hsr)
            refine ⟨h1', rfl, ha.symm, Or.inr ⟨h2, ?_, c, hc, ?_⟩⟩
            · revert h3; cases fsExists fs target <;> simp
            · rw [← hfs, hfsr]

theorem renameUndo_ok_elim {env : Env} {fs : FS} {old : FPath} {nn : String}
    {memo : Option FPath} {a' : UAction} {fs' : FS} {r : FPath}
    (h : renameUndo env fs old nn memo = (a', fs', .ok r)) :
    r = old ∧
    ∃ target, resolveRenamePath fs old nn memo = .ok target ∧
      ((target = old ∧ fs' = fs) ∨
        (target ≠ old ∧ fsExists fs old = false ∧
          ∃ c, fsGet fs target = some c ∧
            fs' = fsSet (fsErase fs target) old c)) := by
  unfold renameUndo at h
  cases hres : resolveRenamePath fs old nn memo with
  | error e => rw [hres] at h; simp at h
  | ok target =>
    rw [hres] at h
    dsimp only [] at h
    by_cases h2 : target = old
    · rw [if_pos h2] at h
      simp only [Prod.mk.injEq, Except.ok.injEq] at h
      obtain ⟨_, hfs, hr⟩ := h
      exact ⟨hr.symm, target, rfl, Or.inl ⟨h2, hfs.symm⟩⟩
    · rw [if_neg h2] at h
      by_cases h3 : fsExists fs target = false
      · rw [if_pos h3] at h; simp at h
      · rw [if_neg h3] at h
        by_cases h4 : fsExists fs old
        · rw [if_pos h4] at h; simp at h
        · rw [if_neg h4] at h
          cases hsr : (safe_rename (env.restoreFails 0) fs target old).1 with
          | error e => rw [hsr] at h; simp at h
          | ok fsr =>
            rw [hsr] at h
            dsimp only [] at h
            simp only [Prod.mk.injEq, Except.ok.injEq] at h
            obtain ⟨_, hfs, hr⟩ := h
            obtain ⟨c, hc, hfsr⟩ := osRename_ok (safe_rename_ok hsr)
            refine ⟨hr.symm, target, rfl, Or.inr ⟨h2, ?_, c, hc, ?_⟩⟩
            · revert h4; cases fsExists fs old <;> simp
            · rw [← hfs, hfsr]

theorem deleteApply_ok_elim {env : Env} {fs : FS} {orig : FPath}
    {memo : Option FPath} {a' : UAction} {fs' : FS} {r : FPath}
    (h : deleteApply env fs orig memo = (a', fs', .ok r)) :
    fsExists fs orig = true ∧
    r = resolveDeleteArchivedPath fs orig memo ∧
    a' = .del orig (some r) ∧
    fsExists fs r = false ∧
    ∃ c, fsGet fs orig = some c ∧ fs' = fsSet (fsErase fs orig) r c := by
  unfold deleteApply at h
  by_cases h1 : fsExists fs orig = false
  · rw [if_pos h1] at h; simp at h
  · rw [if_neg h1] at h
    have h1' : fsExists fs orig = true := by
      revert h1; cases fsExists fs orig <;> simp
    simp only [] at h
    by_cases h2 : fsExists fs (resolveDeleteArchivedPath fs orig memo)
    · rw [if_pos h2] at h; simp at h
    · rw [if_neg h2] at h
      cases hsr : (safe_rename env.actFails fs orig
          (resolveDeleteArchivedPath fs orig memo)).1 with
      | error e => rw [hsr] at h; simp at h
      | ok fsr =>
        rw [hsr] at h
        dsimp only [] at h
        simp only [Prod.mk.injEq, Except.ok.injEq] at h
        obtain ⟨ha, hfs, hr⟩ := h
        subst hr
        obtain ⟨c, hc, hfsr⟩ := osRename_ok (safe_rename_ok hsr)
        refine ⟨h1', rfl, ha.symm, ?_, c, hc, ?_⟩
        · revert h2; cases fsExists fs (resolveDeleteArchivedPath fs orig memo) <;> simp
        · rw [← hfs, hfsr]

theorem deleteUndo_ok_elim {env : Env} {fs : FS} {orig : FPath}
    {memo : Option FPath} {a' : UAction} {fs' : FS} {r : FPath}
    (h : deleteUndo env fs orig memo = (a', fs', .ok r)) :
    r = orig ∧
    fsExists fs orig = false ∧
    ∃ c, fsGet fs (resolveDeleteArchivedPath fs orig memo) = some c ∧
      fs' = fsSet (fsErase fs (resolveDeleteArchivedPath fs orig memo)) orig c := by
  unfold deleteUndo at h
  simp only [] at h
  by_cases h1 : fsExists fs (resolveDeleteArchivedPath fs orig memo) = false
  · rw [if_pos h1] at h; simp at h
  · rw [if_neg h1] at h
    by_cases h2 : fsExists fs orig
    · rw [if_pos h2] at h; simp at h
    · rw [if_neg h2] at h
      cases hsr : (safe_rename (env.restoreFails 0) fs
          (resolveDeleteArchivedPath fs orig memo) orig).1 with
      | error e => rw [hsr] at h; simp at h
      | ok fsr =>
        rw [hsr] at h
        dsimp only [] at h
        simp only [Prod.mk.injEq, Except.ok.injEq] at h
        obtain ⟨_, hfs, hr⟩ := h
        obtain ⟨c, hc, hfsr⟩ := osRename_ok (safe_rename_ok hsr)
        refine ⟨hr.symm, ?_, c, hc, ?_⟩
        · revert h2; cases fsExists fs orig <;> simp
        · rw [← hfs, hfsr]

/-! ### Claim C7 -/

/-- Claim C7, counterexample to the claim as stated: on an input where every
rename attempt fails transiently, `safe_rename` re-raises the underlying
filesystem error (`PermissionError`) — it does not raise a dedicated timeout
condition distinct from that error. -/
theorem C7_counterexample_no_dedicated_timeout :
    (safe_rename (fun _ => true) [(pA, Content.raw 1)] pA pB).1 =
      .error .permission ∧
    Err.permission ≠ Err.timeout := by
  exact ⟨rfl, by decide⟩

/-- Claim C7 as amended: `safe_rename` retries a fixed number of times
(5 attempts) with a small fixed delay (0.1 s) between failed attempts; when a
later attempt succeeds the rename is performed after exactly as many sleeps
as there were failed attempts, and when all attempts fail it re-raises the
underlying `PermissionError` (rather than a dedicated timeout condition). -/
theorem C7_amended_retry_behavior :
    (∀ (fails : Nat → Bool) (fs : FS) (src dst : FPath) (j : Nat),
      j < RETRIES → (∀ k, k < j → fails k = true) → fails j = false →
      safe_rename fails fs src dst = (osRename fs src dst, j)) ∧
    (∀ (fails : Nat → Bool) (fs : FS) (src dst : FPath),
      (∀ i, i < RETRIES → fails i = true) →
      safe_rename fails fs src dst = (.error .permission, RETRIES - 1)) ∧
    RETRIES = 5 ∧ RETRY_DELAY = 1 / 10 :=
  ⟨fun fails fs src dst j hj hf hok =>
      safe_rename_retry_success fails fs src dst j hj hf hok,
    fun fails fs src dst h => safe_rename_all_fail fails fs src dst h,
    rfl, rfl⟩

/-- Witness for C7's amended theorem at concrete inputs: two transient
failures followed by a success perform the rename with two sleeps; total
failure yields the `PermissionError` after four sleeps. -/
theorem C7_amended_retry_behavior_witness :
    safe_rename (fun i => decide (i < 2)) [(pA, Content.raw 1)] pA pB =
      (osRename [(pA, Content.raw 1)] pA pB, 2) ∧
    safe_rename (fun _ => true) [(pA, Content.raw 1)] pA pB =
      (.error .permission, RETRIES - 1) :=
  ⟨C7_amended_retry_behavior.1 _ _ _ _ 2 (by decide) (by decide) (by decide),
    C7_amended_retry_behavior.2.1 _ _ _ _ (fun _ _ => rfl)⟩

/-! ### Claim C8 -/

/-- Claim C8 (confirmed): `ensure_unique_path` returns the desired path
unchanged when no file exists there, and otherwise returns the first
candidate obtained by inserting `" (N)"` before the extension, `N` counting
up from 2, that does not exist. -/
theorem C8_ensure_unique_first_free (fs : FS) (p : FPath) :
    (fsExists fs p = false → ensure_unique_path fs p = p) ∧
    (fsExists fs p = true → ∃ N, 2 ≤ N ∧
      ensure_unique_path fs p = candidatePath p.dir p.name p.ext N ∧
      fsExists fs (candidatePath p.dir p.name p.ext N) = false ∧
      ∀ M, 2 ≤ M → M < N →
        fsExists fs (candidatePath p.dir p.name p.ext M) = true) :=
  ensure_unique_path_spec fs p

/-- Witness for C8 at the spec's example: with `b.mp4` present the desired
path `b.mp4` resolves to `b (2).mp4`; with `b (2).mp4` also present it
resolves to `b (3).mp4`. -/
theorem C8_ensure_unique_first_free_witness :
    (∃ N, 2 ≤ N ∧
      ensure_unique_path [(pB, Content.raw 1)] pB =
        candidatePath pB.dir pB.name pB.ext N ∧
      fsExists [(pB, Content.raw 1)]
        (candidatePath pB.dir pB.name pB.ext N) = false ∧
      ∀ M, 2 ≤ M → M < N →
        fsExists [(pB, Content.raw 1)]
          (candidatePath pB.dir pB.name pB.ext M) = true) ∧
    ensure_unique_path [(pB, Content.raw 1)] pB =
      candidatePath "d" "b" ".mp4" 2 ∧
    ensure_unique_path
        [(pB, Content.raw 1), (candidatePath "d" "b" ".mp4" 2, Content.raw 2)]
        pB =
      candidatePath "d" "b" ".mp4" 3 :=
  ⟨(C8_ensure_unique_first_free [(pB, Content.raw 1)] pB).2 rfl, rfl, rfl⟩

/-! ### Claim C2 -/

/-- Claim C2 (confirmed): when `apply()` raises inside
`ActionHistoryService.execute`, the persisted history state is left
untouched — neither the redo-tail truncation nor the append/persist take
effect — and the error propagates unchanged to the caller. -/
theorem C2_execute_error_leaves_state (env : Env) (s : HistoryState)
    (a : UAction) (fs : FS) (e : Err)
    (h : (applyA env fs a).2.2 = .error e) :
    (executeH env s a fs).1 = s ∧ (executeH env s a fs).2.2 = .error e := by
  rcases happ : applyA env fs a with ⟨a', fs', res⟩
  rw [happ] at h
  dsimp only [] at h
  subst h
  unfold executeH
  rw [happ]
  exact ⟨rfl, rfl⟩

/-- Witness for C2: executing a rename of a missing file propagates the
`NotFound` error and leaves the (empty) persisted history untouched. -/
theorem C2_execute_error_leaves_state_witness :
    (executeH envOk ⟨-1, []⟩ (.rename pA "b" none) []).1 = (⟨-1, []⟩ : HistoryState) ∧
    (executeH envOk ⟨-1, []⟩ (.rename pA "b" none) []).2.2 = .error .notFound :=
  C2_execute_error_leaves_state envOk ⟨-1, []⟩ (.rename pA "b" none) []
    .notFound rfl

/-! ### Claim C10 -/

/-- Claim C10 (confirmed): when the sanitized new name plus the original
extension equals the source file's current base name and the source exists,
the freshly resolved destination is a collision-suffixed path distinct from
the source, so a successful apply performs a real rename (the source path is
vacated and its content moves to the new path), not a no-op. -/
theorem C10_rename_to_own_name_is_real_rename (env : Env) (fs : FS)
    (old : FPath) (nn : String) (hex : fsExists fs old = true) (hnn : nn ≠ "")
    (hname : sanitize_filename nn = old.name) :
    ∃ t, resolveRenamePath fs old nn none = .ok t ∧ t ≠ old ∧
      fsExists fs t = false ∧
      ∀ a' fs' r, renameApply env fs old nn none = (a', fs', .ok r) →
        r = t ∧ fsGet fs' old = none ∧ fsGet fs' t = fsGet fs old := by
  have hdesired : (⟨old.dir, sanitize_filename nn, old.ext⟩ : FPath) = old := by
    rw [hname]
  have hres : resolveRenamePath fs old nn none =
      .ok (ensure_unique_path fs old) := by
    simp only [resolveRenamePath, hnn, if_false, hdesired]
  set t := ensure_unique_path fs old with ht
  have hfree : fsExists fs t = false := fsExists_ensure_unique_path fs old
  have hne : t ≠ old := by
    intro hEq
    rw [hEq, hex] at hfree
    cases hfree
  refine ⟨t, hres, hne, hfree, ?_⟩
  intro a' fs' r happ
  obtain ⟨_, hres', _, hcases⟩ := renameApply_ok_elim happ
  rw [hres] at hres'
  have hrt : r = t := by injection hres' with hh; exact hh.symm
  subst hrt
  rcases hcases with ⟨hro, _⟩ | ⟨_, _, c, hc, hfs'⟩
  · exact absurd hro hne
  · subst hfs'
    refine ⟨rfl, ?_, ?_⟩
    · rw [fsGet_fsSet, if_neg (fun hh => hne hh.symm), fsGet_fsErase, if_pos rfl]
    · rw [fsGet_fsSet, if_pos rfl, hc]

/-- Witness for C10: renaming `d/a.mp4` to `"a"` while `d/a.mp4` exists
resolves to the suffixed destination `d/a (2).mp4`, not to the source
itself. -/
theorem C10_rename_to_own_name_is_real_rename_witness :
    (∃ t, resolveRenamePath [(pA, Content.raw 1)] pA "a" none = .ok t ∧
      t ≠ pA ∧ fsExists [(pA, Content.raw 1)] t = false ∧
      ∀ a' fs' r,
        renameApply envOk [(pA, Content.raw 1)] pA "a" none = (a', fs', .ok r) →
        r = t ∧ fsGet fs' pA = none ∧ fsGet fs' t = fsGet [(pA, Content.raw 1)] pA) ∧
    resolveRenamePath [(pA, Content.raw 1)] pA "a" none =
      .ok (candidatePath "d" "a" ".mp4" 2) :=
  ⟨C10_rename_to_own_name_is_real_rename envOk [(pA, Content.raw 1)] pA "a"
      rfl (by decide) rfl, rfl⟩

/-! ### Claim C6 -/

/-- Claim C6, counterexample to the claim as stated: a `RenameVideoAction`
whose memoized destination equals the source path applies successfully as a
no-op even though the resolved destination exists at apply time — no
`Conflict` is raised. -/
theorem C6_counterexample_noop_despite_existing_destination :
    fsExists [(pA, Content.raw 1)] pA = true ∧
    renameApply envOk [(pA, Content.raw 1)] pA "a" (some pA) =
      (.rename pA "a" (some pA), [(pA, Content.raw 1)], .ok pA) :=
  ⟨rfl, rfl⟩

/-- Claim C6 as amended: rename `apply` raises `NotFound` when the source is
missing; a fresh action resolves its destination as the sanitized base name
plus the original extension disambiguated by `ensure_unique_path` (so the
resolved destination never collides); an occupied memoized destination
distinct from the source raises `Conflict`; a memoized destination equal to
the source short-circuits as a successful no-op; and a successful apply
moves the source's content to the resolved destination. -/
theorem C6_amended_rename_apply_behavior :
    (∀ (env : Env) (fs : FS) (old : FPath) (nn : String) (memo : Option FPath),
      fsExists fs old = false →
      renameApply env fs old nn memo = (.rename old nn memo, fs, .error .notFound)) ∧
    (∀ (fs : FS) (old : FPath) (nn : String), nn ≠ "" →
      resolveRenamePath fs old nn none =
        .ok (ensure_unique_path fs ⟨old.dir, sanitize_filename nn, old.ext⟩) ∧
      fsExists fs
        (ensure_unique_path fs ⟨old.dir, sanitize_filename nn, old.ext⟩) = false) ∧
    (∀ (env : Env) (fs : FS) (old t : FPath) (nn : String),
      fsExists fs old = true → t ≠ old → fsExists fs t = true →
      renameApply env fs old nn (some t) =
        (.rename old nn (some t), fs, .error .conflict)) ∧
    (∀ (env : Env) (fs : FS) (old : FPath) (nn : String),
      fsExists fs old = true →
      renameApply env fs old nn (some old) =
        (.rename old nn (some old), fs, .ok old)) ∧
    (∀ (env : Env) (fs : FS) (old : FPath) (nn : String) (memo : Option FPath)
      (a' : UAction) (fs' : FS) (r : FPath),
      renameApply env fs old nn memo = (a', fs', .ok r) →
      fsGet fs' r = fsGet fs old ∧ (r ≠ old → fsGet fs' old = none)) := by
  refine ⟨?_, ?_, ?_, ?_, ?_⟩
  · intro env fs old nn memo h
    unfold renameApply
    rw [if_pos h]
  · intro fs old nn hnn
    exact ⟨by simp only [resolveRenamePath, hnn, if_false],
      fsExists_ensure_unique_path fs _⟩
  · intro env fs old t nn hex hne hocc
    unfold renameApply
    rw [if_neg (by simp [hex]), ]
    dsimp only [resolveRenamePath]
    rw [if_neg hne, if_pos hocc]
  · intro env fs old nn hex
    unfold renameApply
    rw [if_neg (by simp [hex])]
    dsimp only [resolveRenamePath]
    rw [if_pos rfl]
  · intro env fs old nn memo a' fs' r h
    obtain ⟨hex, hres, ha, hcases⟩ := renameApply_ok_elim h
    rcases hcases with ⟨hro, hfs⟩ | ⟨hro, hfree, c, hc, hfs⟩
    · subst hfs
      exact ⟨by rw [hro], fun hcon => absurd hro hcon⟩
    · subst hfs
      refine ⟨?_, fun _ => ?_⟩
      · rw [fsGet_fsSet, if_pos rfl, hc]
      · rw [fsGet_fsSet, if_neg (fun hh => hro hh.symm), fsGet_fsErase,
          if_pos rfl]

/-- Witness for C6's amended theorem at concrete inputs. -/
theorem C6_amended_rename_apply_behavior_witness :
    renameApply envOk [] pA "b" none =
      (.rename pA "b" none, [], .error .notFound) ∧
    renameApply envOk [(pA, Content.raw 1), (pB, Content.raw 2)] pA "b" (some pB) =
      (.rename pA "b" (some pB), [(pA, Content.raw 1), (pB, Content.raw 2)],
        .error .conflict) ∧
    renameApply envOk [(pB, Content.raw 2)] pB "b" (some pB) =
      (.rename pB "b" (some pB), [(pB, Content.raw 2)], .ok pB) :=
  ⟨C6_amended_rename_apply_behavior.1 envOk [] pA "b" none rfl,
    C6_amended_rename_apply_behavior.2.2.1 envOk
      [(pA, Content.raw 1), (pB, Content.raw 2)] pA pB "b" rfl (by decide) rfl,
    C6_amended_rename_apply_behavior.2.2.2.1 envOk [(pB, Content.raw 2)] pB "b" rfl⟩

/-! ### Success characterizations of the history service -/

theorem executeH_ok_elim {env : Env} {s : HistoryState} {a : UAction}
    {fs : FS} {s' : HistoryState} {fs' : FS} {r : FPath}
    (h : executeH env s a fs = (s', fs', .ok r)) :
    ∃ a1, applyA env fs a = (a1, fs', .ok r) ∧
      s'.actions = (truncate_redo_tail s).actions ++ [a1] ∧
      s'.cursor = (s'.actions.length : Int) - 1 := by
  unfold executeH at h
  rcases happ : applyA env fs a with ⟨a1, fsr, res⟩
  rw [happ] at h
  cases res with
  | error e => simp at h
  | ok rr =>
    dsimp only [] at h
    simp only [Prod.mk.injEq, Except.ok.injEq] at h
    obtain ⟨hs, hfs, hr⟩ := h
    subst hfs; subst hr
    exact ⟨a1, rfl, by rw [← hs], by rw [← hs]⟩

theorem undoH_ok_elim {env : Env} {s : HistoryState} {fs : FS}
    {s' : HistoryState} {fs' : FS} {r : FPath}
    (h : undoH env s fs = (s', fs', .ok r)) :
    0 ≤ s.cursor ∧ s.cursor < (s.actions.length : Int) ∧
    ∃ rec, s.actions.get? s.cursor.toNat = some rec ∧
      (undoA env fs rec).2.2 = .ok r ∧ fs' = (undoA env fs rec).2.1 ∧
      s'.cursor = s.cursor - 1 ∧ s'.actions = s.actions := by
  unfold undoH at h
  by_cases hg : s.cursor < 0 ∨ (s.actions.length : Int) ≤ s.cursor
  · rw [if_pos hg] at h; simp at h
  · rw [if_neg hg] at h
    push_neg at hg
    cases hrec : s.actions.get? s.cursor.toNat with
    | none => rw [hrec] at h; simp at h
    | some rec =>
      rw [hrec] at h
      dsimp only [] at h
      rcases hu : undoA env fs rec with ⟨a2, fs2, res⟩
      rw [hu] at h
      cases res with
      | error e => simp at h
      | ok rr =>
        dsimp only [] at h
        simp only [Prod.mk.injEq, Except.ok.injEq] at h
        obtain ⟨hs, hfs, hr⟩ := h
        refine ⟨hg.1, hg.2, rec, rfl, ?_, ?_, ?_, ?_⟩
        · rw [hu, hr]
        · rw [hu, ← hfs]
        · rw [← hs]
        · rw [← hs]

theorem redoH_ok_elim {env : Env} {s : HistoryState} {fs : FS}
    {s' : HistoryState} {fs' : FS} {r : FPath}
    (h : redoH env s fs = (s', fs', .ok r)) :
    0 ≤ s.cursor + 1 ∧ s.cursor + 1 < (s.actions.length : Int) ∧
    ∃ rec, s.actions.get? (s.cursor + 1).toNat = some rec ∧
      (redoA env fs rec).2.2 = .ok r ∧ fs' = (redoA env fs rec).2.1 ∧
      s'.cursor = s.cursor + 1 ∧ s'.actions = s.actions := by
  unfold redoH at h
  by_cases hg : s.cursor + 1 < 0 ∨ (s.actions.length : Int) ≤ s.cursor + 1
  · rw [if_pos hg] at h; simp at h
  · rw [if_neg hg] at h
    push_neg at hg
    cases hrec : s.actions.get? (s.cursor + 1).toNat with
    | none => rw [hrec] at h; simp at h
    | some rec =>
      rw [hrec] at h
      dsimp only [] at h
      rcases hu : redoA env fs rec with ⟨a2, fs2, res⟩
      rw [hu] at h
      cases res with
      | error e => simp at h
      | ok rr =>
        dsimp only [] at h
        simp only [Prod.mk.injEq, Except.ok.injEq] at h
        obtain ⟨hs, hfs, hr⟩ := h
        refine ⟨hg.1, hg.2, rec, rfl, ?_, ?_, ?_, ?_⟩
        · rw [hu, hr]
        · rw [hu, ← hfs]
        · rw [← hs]
        · rw [← hs]

theorem executeH_err_state {env : Env} {s : HistoryState} {a : UAction}
    {fs : FS} {s' : HistoryState} {fs' : FS} {e : Err}
    (h : executeH env s a fs = (s', fs', .error e)) : s' = s := by
  unfold executeH at h
  rcases happ : applyA env fs a with ⟨a1, fsr, res⟩
  rw [happ] at h
  cases res with
  | error e2 =>
    dsimp only [] at h
    simp only [Prod.mk.injEq] at h
    exact h.1.symm
  | ok rr => simp at h

theorem undoH_err_state {env : Env} {s : HistoryState} {fs : FS}
    {s' : HistoryState} {fs' : FS} {e : Err}
    (h : undoH env s fs = (s', fs', .error e)) : s' = s := by
  unfold undoH at h
  by_cases hg : s.cursor < 0 ∨ (s.actions.length : Int) ≤ s.cursor
  · rw [if_pos hg] at h
    simp only [Prod.mk.injEq] at h
    exact h.1.symm
  · rw [if_neg hg] at h
    cases hrec : s.actions.get? s.cursor.toNat with
    | none =>
      rw [hrec] at h
      dsimp only [] at h
      simp only [Prod.mk.injEq] at h
      exact h.1.symm
    | some rec =>
      rw [hrec] at h
      dsimp only [] at h
      rcases hu : undoA env fs rec with ⟨a2, fs2, res⟩
      rw [hu] at h
      cases res with
      | error e2 =>
        dsimp only [] at h
        simp only [Prod.mk.injEq] at h
        exact h.1.symm
      | ok rr => simp at h

theorem redoH_err_state {env : Env} {s : HistoryState} {fs : FS}
    {s' : HistoryState} {fs' : FS} {e : Err}
    (h : redoH env s fs = (s', fs', .error e)) : s' = s := by
  unfold redoH at h
  by_cases hg : s.cursor + 1 < 0 ∨ (s.actions.length : Int) ≤ s.cursor + 1
  · rw [if_pos hg] at h
    simp only [Prod.mk.injEq] at h
    exact h.1.symm
  · rw [if_neg hg] at h
    cases hrec : s.actions.get? (s.cursor + 1).toNat with
    | none =>
      rw [hrec] at h
      dsimp only [] at h
      simp only [Prod.mk.injEq] at h
      exact h.1.symm
    | some rec =>
      rw [hrec] at h
      dsimp only [] at h
      rcases hu : redoA env fs rec with ⟨a2, fs2, res⟩
      rw [hu] at h
      cases res with
      | error e2 =>
        dsimp only [] at h
        simp only [Prod.mk.injEq] at h
        exact h.1.symm
      | ok rr => simp at h

/-! ### Cursor invariant preservation -/

theorem validHistory_executeH (env : Env) (s : HistoryState) (a : UAction)
    (fs : FS) (hv : validHistory s) : validHistory (executeH env s a fs).1 := by
  rcases hx : executeH env s a fs with ⟨s', fs', res⟩
  cases res with
  | error e => rw [executeH_err_state hx]; exact hv
  | ok r =>
    obtain ⟨a1, _, hact, hcur⟩ := executeH_ok_elim hx
    constructor
    · rw [hcur, hact]
      simp only [List.length_append, List.length_cons, List.length_nil]
      push_cast
      omega
    · rw [hcur]

theorem validHistory_undoH (env : Env) (s : HistoryState) (fs : FS)
    (hv : validHistory s) : validHistory (undoH env s fs).1 := by
  rcases hx : undoH env s fs with ⟨s', fs', res⟩
  cases res with
  | error e => rw [undoH_err_state hx]; exact hv
  | ok r =>
    obtain ⟨h0, h1, rec, _, _, _, hcur, hact⟩ := undoH_ok_elim hx
    constructor
    · dsimp only []
      rw [hcur]; omega
    · dsimp only []
      rw [hcur, hact]; omega

theorem validHistory_redoH (env : Env) (s : HistoryState) (fs : FS)
    (hv : validHistory s) : validHistory (redoH env s fs).1 := by
  rcases hx : redoH env s fs with ⟨s', fs', res⟩
  cases res with
  | error e => rw [redoH_err_state hx]; exact hv
  | ok r =>
    obtain ⟨h0, h1, rec, _, _, _, hcur, hact⟩ := redoH_ok_elim hx
    constructor
    · dsimp only []
      rw [hcur]; omega
    · dsimp only []
      rw [hcur, hact]; omega

/-! ### Claim C3 -/

/-- Claim C3 (confirmed): the cursor of every history state reachable via
`execute`/`undo`/`redo` stays in `[-1, len(actions) - 1]`; a successful undo
reverses `actions[cursor]` and decrements the cursor; a successful redo
reapplies `actions[cursor + 1]` and increments the cursor; executing a new
action while `cursor < len(actions) - 1` first discards every record after
the cursor, then appends the new record and sets the cursor to the new last
index, after which redo fails with the `ValidationError` (`ValueError`). -/
theorem C3_history_cursor_invariants :
    validHistory initialHistoryState ∧
    (∀ (env : Env) (s : HistoryState) (a : UAction) (fs : FS),
      validHistory s → validHistory (executeH env s a fs).1) ∧
    (∀ (env : Env) (s : HistoryState) (fs : FS),
      validHistory s → validHistory (undoH env s fs).1) ∧
    (∀ (env : Env) (s : HistoryState) (fs : FS),
      validHistory s → validHistory (redoH env s fs).1) ∧
    (∀ (env : Env) (s : HistoryState) (fs : FS) (s' : HistoryState)
      (fs' : FS) (r : FPath), undoH env s fs = (s', fs', .ok r) →
      ∃ rec, s.actions.get? s.cursor.toNat = some rec ∧
        (undoA env fs rec).2.2 = .ok r ∧ fs' = (undoA env fs rec).2.1 ∧
        s'.cursor = s.cursor - 1 ∧ s'.actions = s.actions) ∧
    (∀ (env : Env) (s : HistoryState) (fs : FS) (s' : HistoryState)
      (fs' : FS) (r : FPath), redoH env s fs = (s', fs', .ok r) →
      ∃ rec, s.actions.get? (s.cursor + 1).toNat = some rec ∧
        (redoA env fs rec).2.2 = .ok r ∧ fs' = (redoA env fs rec).2.1 ∧
        s'.cursor = s.cursor + 1 ∧ s'.actions = s.actions) ∧
    (∀ (env : Env) (s : HistoryState) (a : UAction) (fs : FS)
      (s' : HistoryState) (fs' : FS) (r : FPath),
      s.cursor < (s.actions.length : Int) - 1 →
      executeH env s a fs = (s', fs', .ok r) →
      ∃ a1, s'.actions = s.actions.take (s.cursor + 1).toNat ++ [a1] ∧
        s'.cursor = (s'.actions.length : Int) - 1 ∧
        ∀ (env2 : Env) (fs2 : FS),
          (redoH env2 s' fs2).2.2 = .error .validation) := by
  refine ⟨⟨by norm_num [initialHistoryState], by norm_num [initialHistoryState]⟩,
    validHistory_executeH, validHistory_undoH, validHistory_redoH, ?_, ?_, ?_⟩
  · intro env s fs s' fs' r h
    obtain ⟨_, _, rec, hrec, hok, hfs, hcur, hact⟩ := undoH_ok_elim h
    exact ⟨rec, hrec, hok, hfs, hcur, hact⟩
  · intro env s fs s' fs' r h
    obtain ⟨_, _, rec, hrec, hok, hfs, hcur, hact⟩ := redoH_ok_elim h
    exact ⟨rec, hrec, hok, hfs, hcur, hact⟩
  · intro env s a fs s' fs' r htail h
    obtain ⟨a1, _, hact, hcur⟩ := executeH_ok_elim h
    rw [truncate_redo_tail, if_pos htail] at hact
    refine ⟨a1, hact, hcur, ?_⟩
    intro env2 fs2
    unfold redoH
    rw [if_pos (Or.inr (by rw [hcur]; omega))]

/-- Witness for C3: a concrete execute from the middle of a two-record
history truncates the redo tail, appends the new record, puts the cursor at
the new last index, and makes redo fail with the validation error. -/
theorem C3_history_cursor_invariants_witness :
    validHistory (executeH envOk ⟨0, [.del pA none, .del pB none]⟩
      (.rename pA "b" none) [(pA, Content.raw 1)]).1 ∧
    (∃ a1,
      (⟨1, [UAction.del pA none, UAction.rename pA "b" (some pB)]⟩ :
          HistoryState).actions =
        (⟨0, [UAction.del pA none, UAction.del pB none]⟩ :
          HistoryState).actions.take
            (((⟨0, [UAction.del pA none, UAction.del pB none]⟩ :
              HistoryState).cursor + 1)).toNat ++ [a1] ∧
      (⟨1, [UAction.del pA none, UAction.rename pA "b" (some pB)]⟩ :
          HistoryState).cursor =
        ((⟨1, [UAction.del pA none, UAction.rename pA "b" (some pB)]⟩ :
          HistoryState).actions.length : Int) - 1 ∧
      ∀ (env2 : Env) (fs2 : FS),
        (redoH env2
          ⟨1, [UAction.del pA none, UAction.rename pA "b" (some pB)]⟩
          fs2).2.2 = .error .validation) := by
  have hx : executeH envOk ⟨0, [.del pA none, .del pB none]⟩
      (.rename pA "b" none) [(pA, Content.raw 1)] =
      (⟨1, [UAction.del pA none, UAction.rename pA "b" (some pB)]⟩,
        [(pB, Content.raw 1)], .ok pB) := rfl
  refine ⟨?_, ?_⟩
  · exact C3_history_cursor_invariants.2.1 envOk _ _ _ ⟨by norm_num, by norm_num⟩
  · exact C3_history_cursor_invariants.2.2.2.2.2.2 envOk
      ⟨0, [.del pA none, .del pB none]⟩ (.rename pA "b" none)
      [(pA, Content.raw 1)] _ _ _ (by norm_num) hx

/-! ### Loop lemmas for `MergeVideosAction.undo` -/

theorem mergeUndoCheckLoop_none_elim {fs : FS} :
    ∀ {pairs : List (FPath × FPath)}, mergeUndoCheckLoop fs pairs = none →
    ∀ pr ∈ pairs, fsExists fs pr.2 = true ∧ fsExists fs pr.1 = false := by
  intro pairs
  induction pairs with
  | nil => intro _ pr hpr; simp at hpr
  | cons hd tl ih =>
    obtain ⟨src, dst⟩ := hd
    intro h pr hpr
    unfold mergeUndoCheckLoop at h
    by_cases h1 : fsExists fs dst = false
    · rw [if_pos h1] at h; simp at h
    · rw [if_neg h1] at h
      by_cases h2 : fsExists fs src
      · rw [if_pos h2] at h; simp at h
      · rw [if_neg h2] at h
        rcases List.mem_cons.mp hpr with heq | hmem
        · subst heq
          constructor
          · revert h1; cases fsExists fs dst <;> simp
          · revert h2; cases fsExists fs src <;> simp
        · exact ih h pr hmem

theorem zip_map_snd_sublist (as : List FPath) (bs : List FPath) :
    ((as.zip bs).map Prod.snd).Sublist bs := by
  induction as generalizing bs with
  | nil => simp
  | cons a as ih =>
    cases bs with
    | nil => simp
    | cons b bs =>
      simpa [List.zip] using (ih bs).cons₂ b

theorem zip_map_fst_sublist (as : List FPath) (bs : List FPath) :
    ((as.zip bs).map Prod.fst).Sublist as := by
  induction as generalizing bs with
  | nil => simp
  | cons a as ih =>
    cases bs with
    | nil => simp
    | cons b bs =>
      simpa [List.zip] using (ih bs).cons₂ a

theorem mergeRestoreLoop_err_permission (env : Env) :
    ∀ (pairs : List (FPath × FPath)) (fs : FS) (k : Nat) (e : Err),
    (pairs.map Prod.fst).Nodup →
    (pairs.map Prod.snd).Nodup →
    (∀ pr ∈ pairs, fsExists fs pr.2 = true) →
    (∀ pr ∈ pairs, fsExists fs pr.1 = false) →
    (mergeRestoreLoop env fs pairs k).2 = some e → e = .permission := by
  intro pairs
  induction pairs with
  | nil => intro fs k e _ _ _ _ h; simp [mergeRestoreLoop] at h
  | cons hd tl ih =>
    obtain ⟨src, dst⟩ := hd
    intro fs k e hnds hndd hex hfr h
    have hdst : fsExists fs dst = true := hex (src, dst) (by simp)
    have hsrc : fsExists fs src = false := hfr (src, dst) (by simp)
    obtain ⟨c, hc⟩ := fsGet_of_fsExists hdst
    have hren : osRename fs dst src = .ok (fsSet (fsErase fs dst) src c) :=
      osRename_ok_free hc hsrc
    unfold mergeRestoreLoop at h
    rcases safeRenameAux_cases (env.restoreFails k) fs dst src RETRIES RETRIES 0
      with hcase | hcase
    · rw [safe_rename] at h
      rw [hcase, hren] at h
      dsimp only [] at h
      have hnds' : src ∉ tl.map Prod.fst ∧ (tl.map Prod.fst).Nodup := by
        rw [List.map_cons] at hnds
        exact List.nodup_cons.mp hnds
      have hndd' : dst ∉ tl.map Prod.snd ∧ (tl.map Prod.snd).Nodup := by
        rw [List.map_cons] at hndd
        exact List.nodup_cons.mp hndd
      refine ih (fsSet (fsErase fs dst) src c) (k + 1) e hnds'.2 hndd'.2 ?_ ?_ h
      · intro pr hpr
        have hne : pr.2 ≠ dst := by
          intro hh
          have hmem : pr.2 ∈ tl.map Prod.snd := List.mem_map_of_mem _ hpr
          rw [hh] at hmem
          exact hndd'.1 hmem
        have := hex pr (List.mem_cons_of_mem _ hpr)
        unfold fsExists at this ⊢
        rw [fsGet_fsSet]
        by_cases hps : pr.2 = src
        · rw [if_pos hps]; rfl
        · rw [if_neg hps, fsGet_fsErase, if_neg hne]
          exact this
      · intro pr hpr
        have hne : pr.1 ≠ src := by
          intro hh
          have hmem : pr.1 ∈ tl.map Prod.fst := List.mem_map_of_mem _ hpr
          rw [hh] at hmem
          exact hnds'.1 hmem
        have := hfr pr (List.mem_cons_of_mem _ hpr)
        unfold fsExists at this ⊢
        rw [fsGet_fsSet, if_neg hne, fsGet_fsErase]
        by_cases hpd : pr.1 = dst
        · rw [if_pos hpd]; rfl
        · rw [if_neg hpd]
          exact this
    · rw [safe_rename] at h
      rw [hcase] at h
      dsimp only [] at h
      injection h with hh
      exact hh.symm

/-! ### Claim C9 -/

/-- Claim C9 (confirmed): `MergeVideosAction.undo` with `archive_originals`
moves the merged output into the archive directory before validating that
each archived original exists and each source path is free; consequently,
when undo raises `NotFound` or `Conflict` from that validation, the merged
output is no longer at its resolved destination — it already sits at a fresh
`undo_archive_` path inside the archive directory, so the pre-undo
filesystem layout is not preserved on error. -/
theorem C9_merge_undo_moves_output_before_validation (env : Env) (fs : FS)
    (primary : FPath) (paths : List FPath) (nn : String)
    (mm : Option FPath) (l : List FPath) (merged : FPath)
    (a' : UAction) (fs' : FS) (e : Err)
    (hres : resolveMergedPath fs primary.dir paths nn mm = .ok merged)
    (hex : fsExists fs merged = true)
    (hp : paths.Nodup)
    (hl : l.Nodup)
    (hundo : mergeUndo env fs primary paths nn true mm (some l) =
      (a', fs', .error e))
    (he : e = .notFound ∨ e = .conflict) :
    fsGet fs' merged = none ∧
    (ensure_unique_path fs
      ⟨get_archive_dir primary.dir, "undo_archive_" ++ merged.name,
        merged.ext⟩).dir = get_archive_dir primary.dir ∧
    fsGet fs'
      (ensure_unique_path fs
        ⟨get_archive_dir primary.dir, "undo_archive_" ++ merged.name,
          merged.ext⟩) = fsGet fs merged := by
  have hgetm : ∃ c, fsGet fs merged = some c := by
    revert hex
    unfold fsExists
    cases hg : fsGet fs merged <;> simp
  obtain ⟨c, hc⟩ := hgetm
  set q := ensure_unique_path fs
    ⟨get_archive_dir primary.dir, "undo_archive_" ++ merged.name, merged.ext⟩
    with hqdef
  have hqfree : fsExists fs q = false := fsExists_ensure_unique_path fs _
  have hqm : q ≠ merged := by
    intro hh
    rw [hh, hex] at hqfree
    cases hqfree
  have hrenq : osRename fs merged q = .ok (fsSet (fsErase fs merged) q c) :=
    osRename_ok_free hc hqfree
  unfold mergeUndo at hundo
  dsimp only [] at hundo
  rw [hres] at hundo
  dsimp only [] at hundo
  rw [if_neg (by rw [hex]; simp)] at hundo
  rw [← hqdef] at hundo
  rcases safeRenameAux_cases env.undoOutFails fs merged q RETRIES RETRIES 0
    with hcase | hcase
  · rw [safe_rename, hcase, hrenq] at hundo
    dsimp only [] at hundo
    obtain ⟨fs1, hfs1⟩ : ∃ x, fsSet (fsErase fs merged) q c = x := ⟨_, rfl⟩
    rw [hfs1] at hundo
    have hm1 : fsGet fs1 merged = none := by
      rw [← hfs1, fsGet_fsSet, if_neg (fun hh => hqm hh.symm), fsGet_fsErase,
        if_pos rfl]
    have hq1 : fsGet fs1 q = some c := by
      rw [← hfs1, fsGet_fsSet, if_pos rfl]
    cases hchk : mergeUndoCheckLoop fs1
        (paths.zip (resolveMergeArchivedPaths fs1 primary.dir paths nn (some l)))
        with
    | some e1 =>
      rw [hchk] at hundo
      dsimp only [] at hundo
      have hfseq : fs1 = fs' := congrArg (fun t => t.2.1) hundo
      subst hfseq
      exact ⟨hm1, ensure_unique_path_dir fs _, by rw [hq1, hc]⟩
    | none =>
      rw [hchk] at hundo
      dsimp only [] at hundo
      rcases hrl : mergeRestoreLoop env fs1
          (paths.zip (resolveMergeArchivedPaths fs1 primary.dir paths nn (some l)))
          0 with ⟨fs2, oe⟩
      rw [hrl] at hundo
      cases oe with
      | none =>
        cases paths <;> simp at hundo
      | some e2 =>
        dsimp only [] at hundo
        have heq : e2 = e := by
          have h2 := congrArg (fun t => t.2.2) hundo
          dsimp only [] at h2
          injection h2 with hh
        have hperm : e2 = .permission := by
          refine mergeRestoreLoop_err_permission env _ fs1 0 e2 ?_ ?_ ?_ ?_
            (by rw [hrl])
          · exact List.Nodup.sublist (zip_map_fst_sublist paths _) hp
          · refine List.Nodup.sublist ?_ hl
            have hres2 : resolveMergeArchivedPaths fs1 primary.dir paths nn (some l) = l :=
              rfl
            rw [hres2]
            exact zip_map_snd_sublist paths l
          · intro pr hpr
            exact (mergeUndoCheckLoop_none_elim hchk pr hpr).1
          · intro pr hpr
            exact (mergeUndoCheckLoop_none_elim hchk pr hpr).2
        rw [← heq, hperm] at he
        rcases he with he | he <;> cases he
  · rw [safe_rename, hcase] at hundo
    dsimp only [] at hundo
    have h2 := congrArg (fun t => t.2.2) hundo
    dsimp only [] at h2
    have heq : Err.permission = e := by injection h2
    rw [← heq] at he
    rcases he with he | he <;> cases he

/-- Witness for C9: undoing a two-clip archived merge whose first archived
original is missing raises `NotFound`, with the merged output already moved
from `d/m.mp4` into the archive directory. -/
theorem C9_merge_undo_moves_output_before_validation_witness :
    fsGet
      (mergeUndo envOk
        [(⟨"d", "m", ".mp4"⟩, Content.raw 9), (pA, Content.raw 1),
          (pB, Content.raw 2)]
        pA [pA, pB] "m" true (some ⟨"d", "m", ".mp4"⟩)
        (some [⟨"d/TO_BE_DELETED", "x1", ".mp4"⟩,
          ⟨"d/TO_BE_DELETED", "x2", ".mp4"⟩])).2.1
      ⟨"d", "m", ".mp4"⟩ = none ∧
    (ensure_unique_path
      [(⟨"d", "m", ".mp4"⟩, Content.raw 9), (pA, Content.raw 1),
        (pB, Content.raw 2)]
      ⟨get_archive_dir "d", "undo_archive_" ++ "m", ".mp4"⟩).dir =
      get_archive_dir "d" ∧
    fsGet
      (mergeUndo envOk
        [(⟨"d", "m", ".mp4"⟩, Content.raw 9), (pA, Content.raw 1),
          (pB, Content.raw 2)]
        pA [pA, pB] "m" true (some ⟨"d", "m", ".mp4"⟩)
        (some [⟨"d/TO_BE_DELETED", "x1", ".mp4"⟩,
          ⟨"d/TO_BE_DELETED", "x2", ".mp4"⟩])).2.1
      (ensure_unique_path
        [(⟨"d", "m", ".mp4"⟩, Content.raw 9), (pA, Content.raw 1),
          (pB, Content.raw 2)]
        ⟨get_archive_dir "d", "undo_archive_" ++ "m", ".mp4"⟩) =
      fsGet
        [(⟨"d", "m", ".mp4"⟩, Content.raw 9), (pA, Content.raw 1),
          (pB, Content.raw 2)]
        ⟨"d", "m", ".mp4"⟩ := by
  have hundo : mergeUndo envOk
      [(⟨"d", "m", ".mp4"⟩, Content.raw 9), (pA, Content.raw 1),
        (pB, Content.raw 2)]
      pA [pA, pB] "m" true (some ⟨"d", "m", ".mp4"⟩)
      (some [⟨"d/TO_BE_DELETED", "x1", ".mp4"⟩,
        ⟨"d/TO_BE_DELETED", "x2", ".mp4"⟩]) =
      (.merge pA [pA, pB] "m" true (some ⟨"d", "m", ".mp4"⟩)
        (some [⟨"d/TO_BE_DELETED", "x1", ".mp4"⟩,
          ⟨"d/TO_BE_DELETED", "x2", ".mp4"⟩]),
        (mergeUndo envOk
          [(⟨"d", "m", ".mp4"⟩, Content.raw 9), (pA, Content.raw 1),
            (pB, Content.raw 2)]
          pA [pA, pB] "m" true (some ⟨"d", "m", ".mp4"⟩)
          (some [⟨"d/TO_BE_DELETED", "x1", ".mp4"⟩,
            ⟨"d/TO_BE_DELETED", "x2", ".mp4"⟩])).2.1,
        .error .notFound) := rfl
  exact C9_merge_undo_moves_output_before_validation envOk _ pA [pA, pB] "m"
    (some ⟨"d", "m", ".mp4"⟩)
    [⟨"d/TO_BE_DELETED", "x1", ".mp4"⟩, ⟨"d/TO_BE_DELETED", "x2", ".mp4"⟩]
    ⟨"d", "m", ".mp4"⟩ _ _ .notFound rfl rfl (by decide) (by decide) hundo
    (Or.inl rfl)

/-! ### Success characterizations of the trim variant -/

theorem trimApply_ok_elim {env : Env} {fs : FS} {o : FPath}
    {nn st en : String} {tm am : Option FPath} {a' : UAction} {fs' : FS}
    {r : FPath} (h : trimApply env fs o nn st en tm am = (a', fs', .ok r)) :
    nn ≠ "" ∧ st ≠ "" ∧ fsExists fs o = true ∧
    r = resolveTrimmedPath fs o nn tm ∧
    a' = .trim o nn st en (some r) (some (resolveTrimArchivedPath fs o nn am)) ∧
    fsExists fs r = false ∧
    fsExists fs (resolveTrimArchivedPath fs o nn am) = false ∧
    env.ffmpegOk = true ∧ o ≠ trimTempPath env o nn ∧
    ∃ c, fsGet fs o = some c ∧
      ∀ p, fsGet fs' p =
        if p = resolveTrimArchivedPath fs o nn am then some c
        else if p = o then none
        else if p = resolveTrimmedPath fs o nn tm then
          some (.trimOut c st en)
        else if p = trimTempPath env o nn then none
        else fsGet fs p := by
  unfold trimApply at h
  by_cases h1 : nn = ""
  · rw [if_pos h1] at h; simp at h
  · rw [if_neg h1] at h
    by_cases h2 : st = ""
    · rw [if_pos h2] at h; simp at h
    · rw [if_neg h2] at h
      by_cases h3 : fsExists fs o = false
      · rw [if_pos h3] at h; simp at h
      · rw [if_neg h3] at h
        have h3' : fsExists fs o = true := by
          revert h3; cases fsExists fs o <;> simp
        dsimp only [] at h
        by_cases h4 : fsExists fs (resolveTrimmedPath fs o nn tm)
        · rw [if_pos h4] at h; simp at h
        · rw [if_neg h4] at h
          by_cases h5 : fsExists fs (resolveTrimArchivedPath fs o nn am)
          · rw [if_pos h5] at h; simp at h
          · rw [if_neg h5] at h
            by_cases h6 : env.ffmpegOk = false
            · rw [if_pos h6] at h; simp at h
            · rw [if_neg h6] at h
              have h6' : env.ffmpegOk = true := by
                revert h6; cases env.ffmpegOk <;> simp
              obtain ⟨c0, hc0⟩ := fsGet_of_fsExists h3'
              cases hp : (safe_rename env.promoteFails
                  (fsSet fs (trimTempPath env o nn)
                    (.trimOut ((fsGet fs o).getD .junk) st en))
                  (trimTempPath env o nn) (resolveTrimmedPath fs o nn tm)).1 with
              | error e => rw [hp] at h; simp at h
              | ok fs2 =>
                rw [hp] at h
                dsimp only [] at h
                obtain ⟨c1, hc1, hfs2⟩ := osRename_ok (safe_rename_ok hp)
                rw [fsGet_fsSet, if_pos rfl] at hc1
                have hct : c1 = .trimOut ((fsGet fs o).getD .junk) st en := by
                  injection hc1 with hh; exact hh.symm
                cases ha : (safe_rename (env.archiveFails 0) fs2 o
                    (resolveTrimArchivedPath fs o nn am)).1 with
                | error e => rw [ha] at h; simp at h
                | ok fs3 =>
                  rw [ha] at h
                  dsimp only [] at h
                  simp only [Prod.mk.injEq, Except.ok.injEq] at h
                  obtain ⟨ha', hfs', hr⟩ := h
                  obtain ⟨c2, hc2, hfs3⟩ := osRename_ok (safe_rename_ok ha)
                  have hotr : o ≠ resolveTrimmedPath fs o nn tm :=
                    ne_of_exists_free h3' (by revert h4; cases hx : fsExists fs (resolveTrimmedPath fs o nn tm) <;> simp)
                  rw [hfs2, fsGet_fsSet, if_neg hotr, fsGet_fsErase] at hc2
                  by_cases hot : o = trimTempPath env o nn
                  · rw [if_pos hot] at hc2; cases hc2
                  · rw [if_neg hot, fsGet_fsSet, if_neg hot] at hc2
                    have hc2' : c2 = c0 := by
                      rw [hc0] at hc2; injection hc2 with hh; exact hh.symm
                    subst hr
                    refine ⟨h1, h2, h3', rfl, ?_, ?_, ?_, h6', hot, c0, hc0, ?_⟩
                    · rw [← ha']
                    · revert h4; cases fsExists fs (resolveTrimmedPath fs o nn tm) <;> simp
                    · revert h5; cases fsExists fs (resolveTrimArchivedPath fs o nn am) <;> simp
                    · intro p
                      rw [← hfs', hfs3, hfs2, hc2', hct]
                      rw [fsGet_fsSet, fsGet_fsErase, fsGet_fsSet, fsGet_fsErase,
                        fsGet_fsSet]
                      rw [hc0]
                      simp only [Option.getD_some]
                      split_ifs <;> rfl

theorem trimUndo_ok_elim {env : Env} {fs : FS} {o : FPath}
    {nn st en : String} {tm am : Option FPath} {a' : UAction} {fs' : FS}
    {r : FPath} (h : trimUndo env fs o nn st en tm am = (a', fs', .ok r)) :
    r = o ∧
    fsExists fs (resolveTrimArchivedPath fs o nn am) = true ∧
    fsExists fs o = false ∧
    ∃ c, fsGet fs (resolveTrimArchivedPath fs o nn am) = some c ∧
      (((∀ tp, tm = some tp → fsExists fs tp = false) ∧
        ∀ p, fsGet fs' p =
          if p = o then some c
          else if p = resolveTrimArchivedPath fs o nn am then none
          else fsGet fs p) ∨
        ∃ tp ct, tm = some tp ∧ fsExists fs tp = true ∧ fsGet fs tp = some ct ∧
          tp ≠ resolveTrimArchivedPath fs o nn am ∧
          ∀ p, fsGet fs' p =
            if p = o then some c
            else if p = resolveTrimArchivedPath fs o nn am then none
            else if p = ensure_unique_path fs
              ⟨get_archive_dir o.dir, "undo_archive_" ++ tp.name, tp.ext⟩ then
              some ct
            else if p = tp then none
            else fsGet fs p) := by
  unfold trimUndo at h
  by_cases h1 : fsExists fs (resolveTrimArchivedPath fs o nn am) = false
  · rw [if_pos h1] at h; simp at h
  · rw [if_neg h1] at h
    have h1' : fsExists fs (resolveTrimArchivedPath fs o nn am) = true := by
      revert h1; cases fsExists fs (resolveTrimArchivedPath fs o nn am) <;> simp
    by_cases h2 : fsExists fs o
    · rw [if_pos h2] at h; simp at h
    · rw [if_neg h2] at h
      have h2' : fsExists fs o = false := by
        revert h2; cases fsExists fs o <;> simp
      obtain ⟨c, hc⟩ := fsGet_of_fsExists h1'
      have hrest : ∀ fsA : FS, (safe_rename (env.restoreFails 0) fsA
          (resolveTrimArchivedPath fs o nn am) o).1 = .ok fs' →
          ∃ cA, fsGet fsA (resolveTrimArchivedPath fs o nn am) = some cA ∧
            fs' = fsSet (fsErase fsA (resolveTrimArchivedPath fs o nn am)) o cA := by
        intro fsA hA
        exact osRename_ok (safe_rename_ok hA)
      cases tm with
      | none =>
        dsimp only [] at h
        cases hs : (safe_rename (env.restoreFails 0) fs
            (resolveTrimArchivedPath fs o nn am) o).1 with
        | error e => rw [hs] at h; simp at h
        | ok fs2 =>
          rw [hs] at h
          dsimp only [] at h
          simp only [Prod.mk.injEq, Except.ok.injEq] at h
          obtain ⟨ha', hfs', hr⟩ := h
          obtain ⟨cA, hcA, hfs2⟩ := osRename_ok (safe_rename_ok hs)
          have hcA' : cA = c := by rw [hc] at hcA; injection hcA with hh; exact hh.symm
          refine ⟨hr.symm, h1', h2', c, hc, Or.inl ⟨(fun tp hh => by cases hh), ?_⟩⟩
          intro p
          rw [← hfs', hfs2, hcA', fsGet_fsSet, fsGet_fsErase]
      | some tp =>
        dsimp only [] at h
        by_cases htp : fsExists fs tp
        · rw [if_pos htp] at h
          cases hout : (safe_rename env.undoOutFails fs tp
              (ensure_unique_path fs
                ⟨get_archive_dir o.dir, "undo_archive_" ++ tp.name, tp.ext⟩)).1 with
          | error e =>
            rw [hout] at h
            dsimp only [] at h
            simp at h
          | ok fsA =>
            rw [hout] at h
            dsimp only [] at h
            obtain ⟨ct, hct, hfsA⟩ := osRename_ok (safe_rename_ok hout)
            cases hs : (safe_rename (env.restoreFails 0) fsA
                (resolveTrimArchivedPath fs o nn am) o).1 with
            | error e => rw [hs] at h; simp at h
            | ok fs2 =>
              rw [hs] at h
              dsimp only [] at h
              simp only [Prod.mk.injEq, Except.ok.injEq] at h
              obtain ⟨ha', hfs', hr⟩ := h
              obtain ⟨cA, hcA, hfs2⟩ := osRename_ok (safe_rename_ok hs)
              have hqfree : fsExists fs (ensure_unique_path fs
                  ⟨get_archive_dir o.dir, "undo_archive_" ++ tp.name, tp.ext⟩) =
                  false := fsExists_ensure_unique_path fs _
              have harq : resolveTrimArchivedPath fs o nn am ≠
                  ensure_unique_path fs
                    ⟨get_archive_dir o.dir, "undo_archive_" ++ tp.name, tp.ext⟩ :=
                ne_of_exists_free h1' hqfree
              rw [hfsA, fsGet_fsSet, if_neg harq, fsGet_fsErase] at hcA
              by_cases hartp : resolveTrimArchivedPath fs o nn am = tp
              · rw [if_pos hartp] at hcA; cases hcA
              · rw [if_neg hartp] at hcA
                have hcA' : cA = c := by
                  rw [hc] at hcA; injection hcA with hh; exact hh.symm
                refine ⟨hr.symm, h1', h2', c, hc,
                  Or.inr ⟨tp, ct, rfl, htp, hct, fun hh => hartp hh.symm, ?_⟩⟩
                intro p
                rw [← hfs', hfs2, hfsA, hcA']
                rw [fsGet_fsSet, fsGet_fsErase, fsGet_fsSet, fsGet_fsErase]
        · rw [if_neg htp] at h
          dsimp only [] at h
          cases hs : (safe_rename (env.restoreFails 0) fs
              (resolveTrimArchivedPath fs o nn am) o).1 with
          | error e => rw [hs] at h; simp at h
          | ok fs2 =>
            rw [hs] at h
            dsimp only [] at h
            simp only [Prod.mk.injEq, Except.ok.injEq] at h
            obtain ⟨ha', hfs', hr⟩ := h
            obtain ⟨cA, hcA, hfs2⟩ := osRename_ok (safe_rename_ok hs)
            have hcA' : cA = c := by
              rw [hc] at hcA; injection hcA with hh; exact hh.symm
            refine ⟨hr.symm, h1', h2', c, hc, Or.inl ⟨?_, ?_⟩⟩
            · intro tp' hh
              injection hh with hh2
              rw [← hh2]
              revert htp
              cases fsExists fs tp <;> simp
            intro p
            rw [← hfs', hfs2, hcA', fsGet_fsSet, fsGet_fsErase]

theorem moveSpec_other (fs0 : FS) :
    ∀ (zs : List (FPath × FPath)) (p : FPath),
    p ∉ zs.map Prod.fst → p ∉ zs.map Prod.snd →
    moveSpec fs0 zs p = fsGet fs0 p := by
  intro zs
  induction zs with
  | nil => intro p _ _; rfl
  | cons hd tl ih =>
    obtain ⟨s, d⟩ := hd
    intro p hf hs
    have hpd : p ≠ d := fun hh => hs (by rw [hh]; simp)
    have hps : p ≠ s := fun hh => hf (by rw [hh]; simp)
    rw [moveSpec, if_neg hpd, if_neg hps]
    exact ih p (fun hh => hf (by simp [hh])) (fun hh => hs (by simp [hh]))

theorem moveSpec_src (fs0 : FS) :
    ∀ (zs : List (FPath × FPath)) (p : FPath),
    p ∈ zs.map Prod.fst → p ∉ zs.map Prod.snd →
    moveSpec fs0 zs p = none := by
  intro zs
  induction zs with
  | nil => intro p hf _; simp at hf
  | cons hd tl ih =>
    obtain ⟨s, d⟩ := hd
    intro p hf hs
    have hpd : p ≠ d := fun hh => hs (by rw [hh]; simp)
    rw [moveSpec, if_neg hpd]
    by_cases hps : p = s
    · rw [if_pos hps]
    · rw [if_neg hps]
      have hf' : p ∈ tl.map Prod.fst := by
        rcases (by simpa using hf : p = s ∨ p ∈ tl.map Prod.fst) with hh | hh
        · exact absurd hh hps
        · exact hh
      exact ih p hf' (fun hh => hs (by simp [hh]))

theorem moveSpec_dest (fs0 : FS) :
    ∀ (zs : List (FPath × FPath)) (s d : FPath),
    (s, d) ∈ zs → (zs.map Prod.snd).Nodup →
    (∀ pr ∈ zs, ∀ pr2 ∈ zs, pr.2 ≠ pr2.1) →
    moveSpec fs0 zs d = fsGet fs0 s := by
  intro zs
  induction zs with
  | nil => intro s d hm; simp at hm
  | cons hd tl ih =>
    obtain ⟨s', d'⟩ := hd
    intro s d hm hnd hcross
    have hnd' : d' ∉ tl.map Prod.snd ∧ (tl.map Prod.snd).Nodup := by
      rw [List.map_cons] at hnd
      exact List.nodup_cons.mp hnd
    rw [moveSpec]
    by_cases hdd : d = d'
    · rw [if_pos hdd]
      rcases List.mem_cons.mp hm with hh | hh
      · injection hh with hh1 hh2
        rw [hh1]
      · exfalso
        have : d ∈ tl.map Prod.snd := by
          have := List.mem_map_of_mem Prod.snd hh
          simpa using this
        rw [hdd] at this
        exact hnd'.1 this
    · rw [if_neg hdd]
      have hmem : (s, d) ∈ tl := by
        rcases List.mem_cons.mp hm with hh | hh
        · injection hh with hh1 hh2; exact absurd hh2 hdd
        · exact hh
      have hds : d ≠ s' := by
        have := hcross (s, d) hm (s', d') (by simp)
        simpa using this
      rw [if_neg hds]
      exact ih s d hmem hnd'.2
        (fun pr hpr pr2 hpr2 =>
          hcross pr (List.mem_cons_of_mem _ hpr) pr2 (List.mem_cons_of_mem _ hpr2))

theorem moveSpec_congr (fs1 fs0 : FS) :
    ∀ (zs : List (FPath × FPath)) (p : FPath),
    (∀ pr ∈ zs, fsGet fs1 pr.1 = fsGet fs0 pr.1) →
    (p ∈ zs.map Prod.fst ∨ p ∈ zs.map Prod.snd ∨ fsGet fs1 p = fsGet fs0 p) →
    moveSpec fs1 zs p = moveSpec fs0 zs p := by
  intro zs
  induction zs with
  | nil =>
    intro p _ hb
    rcases hb with hb | hb | hb <;> simp_all [moveSpec]
  | cons hd tl ih =>
    obtain ⟨s, d⟩ := hd
    intro p hsrc hb
    rw [moveSpec, moveSpec]
    by_cases hpd : p = d
    · rw [if_pos hpd, if_pos hpd, hsrc (s, d) (by simp)]
    · rw [if_neg hpd, if_neg hpd]
      by_cases hps : p = s
      · rw [if_pos hps, if_pos hps]
      · rw [if_neg hps, if_neg hps]
        refine ih p (fun pr hpr => hsrc pr (List.mem_cons_of_mem _ hpr)) ?_
        rcases hb with hb | hb | hb
        · rcases (by simpa using hb : p = s ∨ p ∈ tl.map Prod.fst) with hh | hh
          · exact absurd hh hps
          · exact Or.inl hh
        · rcases (by simpa using hb : p = d ∨ p ∈ tl.map Prod.snd) with hh | hh
          · exact absurd hh hpd
          · exact Or.inr (Or.inl hh)
        · exact Or.inr (Or.inr hb)

theorem osRename_ok_dst {fs fs' : FS} {src dst : FPath}
    (h : osRename fs src dst = .ok fs') :
    dst = src ∨ fsExists fs dst = false := by
  unfold osRename at h
  cases hg : fsGet fs src with
  | none => rw [hg] at h; exact absurd h (by simp)
  | some c =>
    rw [hg] at h
    dsimp only [] at h
    by_cases hcond : dst ≠ src ∧ fsExists fs dst = true
    · rw [if_pos hcond] at h; exact absurd h (by simp)
    · by_cases hd : dst = src
      · exact Or.inl hd
      · right
        revert hcond
        cases fsExists fs dst
        · intro _; rfl
        · intro hcond; exact absurd ⟨hd, rfl⟩ hcond

theorem mergeArchiveLoop_ok_elim (env : Env) :
    ∀ (zs : List (FPath × FPath)) (fs0 : FS) (k : Nat) (fsE : FS)
      (moved : List (FPath × FPath)),
    mergeArchiveLoop env fs0 zs k = (fsE, moved, none) →
    (zs.map Prod.fst).Nodup →
    (∀ pr ∈ zs, fsExists fs0 pr.1 = true) →
    (∀ pr ∈ zs, ∀ pr2 ∈ zs, pr.2 ≠ pr2.1) →
    moved = zs ∧
    (∀ pr ∈ zs, fsExists fs0 pr.2 = false) ∧
    (zs.map Prod.snd).Nodup ∧
    (∀ p, fsGet fsE p = moveSpec fs0 zs p) := by
  intro zs
  induction zs with
  | nil =>
    intro fs0 k fsE moved h _ _ _
    unfold mergeArchiveLoop at h
    simp only [Prod.mk.injEq] at h
    obtain ⟨h1, h2, _⟩ := h
    subst h1
    exact ⟨h2.symm, by simp, by simp, fun p => rfl⟩
  | cons hd tl ih =>
    obtain ⟨s, d⟩ := hd
    intro fs0 k fsE moved h hnds hex hcross
    unfold mergeArchiveLoop at h
    cases hsr : (safe_rename (env.archiveFails k) fs0 s d).1 with
    | error e =>
      rw [hsr] at h
      simp at h
    | ok fs1 =>
      rw [hsr] at h
      dsimp only [] at h
      rcases hrec : mergeArchiveLoop env fs1 tl (k + 1) with ⟨fs'', mv, res⟩
      rw [hrec] at h
      dsimp only [] at h
      simp only [Prod.mk.injEq] at h
      obtain ⟨hE, hmv, hres⟩ := h
      cases res with
      | some e => simp at hres
      | none =>
        subst hE
        have hren := safe_rename_ok hsr
        obtain ⟨c, hc, hfs1⟩ := osRename_ok hren
        have hds : d ≠ s := by
          have := hcross (s, d) (by simp) (s, d) (by simp)
          simpa using this
        have hdfree : fsExists fs0 d = false := by
          rcases osRename_ok_dst hren with hh | hh
          · exact absurd hh hds
          · exact hh
        have hnds' : s ∉ tl.map Prod.fst ∧ (tl.map Prod.fst).Nodup := by
          rw [List.map_cons] at hnds
          exact List.nodup_cons.mp hnds
        have hsrc1 : ∀ pr ∈ tl, fsGet fs1 pr.1 = fsGet fs0 pr.1 := by
          intro pr hpr
          have hne_s : pr.1 ≠ s := by
            intro hh
            exact hnds'.1 (hh ▸ List.mem_map_of_mem Prod.fst hpr)
          have hne_d : pr.1 ≠ d := by
            intro hh
            have := hcross (s, d) (by simp) pr (List.mem_cons_of_mem _ hpr)
            exact this (by simpa using hh.symm)
          rw [hfs1, fsGet_fsSet, if_neg hne_d, fsGet_fsErase, if_neg hne_s]
        have hex1 : ∀ pr ∈ tl, fsExists fs1 pr.1 = true := by
          intro pr hpr
          have := hex pr (List.mem_cons_of_mem _ hpr)
          unfold fsExists at this ⊢
          rw [hsrc1 pr hpr]
          exact this
        obtain ⟨hmv', hdfree', hndd', hpw'⟩ := ih fs1 (k + 1) fs'' mv hrec
          hnds'.2 hex1
          (fun pr hpr pr2 hpr2 =>
            hcross pr (List.mem_cons_of_mem _ hpr) pr2 (List.mem_cons_of_mem _ hpr2))
        have hdfree0 : ∀ pr ∈ tl, fsExists fs0 pr.2 = false := by
          intro pr hpr
          have h1 := hdfree' pr hpr
          have hne_d : pr.2 ≠ d := by
            intro hh
            have := h1
            unfold fsExists at this
            rw [hh, hfs1, fsGet_fsSet, if_pos rfl] at this
            simp at this
          have hne_s : pr.2 ≠ s :=
            fun hh => (hcross pr (List.mem_cons_of_mem _ hpr) (s, d) (by simp))
              (by simpa using hh)
          unfold fsExists at h1 ⊢
          rw [hfs1, fsGet_fsSet, if_neg hne_d, fsGet_fsErase, if_neg hne_s] at h1
          exact h1
        refine ⟨by rw [← hmv, hmv'], ?_, ?_, ?_⟩
        · intro pr hpr
          rcases List.mem_cons.mp hpr with hh | hh
          · rw [hh]; exact hdfree
          · exact hdfree0 pr hh
        · rw [List.map_cons, List.nodup_cons]
          refine ⟨?_, hndd'⟩
          intro hmem
          obtain ⟨pr, hpr, hpr2⟩ := List.mem_map.mp hmem
          have hx := hdfree' pr hpr
          unfold fsExists at hx
          rw [hpr2, hfs1, fsGet_fsSet] at hx
          rw [if_pos rfl] at hx
          simp at hx
        · intro p
          rw [hpw' p, moveSpec]
          by_cases hpd : p = d
          · have hout : d ∉ tl.map Prod.fst := by
              intro hmem
              obtain ⟨pr, hpr, hpr2⟩ := List.mem_map.mp hmem
              exact (hcross (s, d) (by simp) pr (List.mem_cons_of_mem _ hpr))
                (by simpa using hpr2.symm)
            have hout2 : d ∉ tl.map Prod.snd := by
              intro hmem
              obtain ⟨pr, hpr, hpr2⟩ := List.mem_map.mp hmem
              have hx := hdfree' pr hpr
              unfold fsExists at hx
              rw [hpr2, hfs1, fsGet_fsSet] at hx
              rw [if_pos rfl] at hx
              simp at hx
            rw [hpd, moveSpec_other fs1 tl d hout hout2, if_pos rfl, hfs1,
              fsGet_fsSet]
            rw [if_pos rfl, hc]
          · rw [if_neg hpd]
            by_cases hps : p = s
            · have hout : s ∉ tl.map Prod.fst := hnds'.1
              have hout2 : s ∉ tl.map Prod.snd := by
                intro hmem
                obtain ⟨pr, hpr, hpr2⟩ := List.mem_map.mp hmem
                exact (hcross pr (List.mem_cons_of_mem _ hpr) (s, d) (by simp))
                  (by simpa using hpr2)
              rw [hps, moveSpec_other fs1 tl s hout hout2,
                if_pos rfl, hfs1, fsGet_fsSet,
                if_neg (fun hh => hds hh.symm), fsGet_fsErase]
              rw [if_pos rfl]
            · rw [if_neg hps]
              refine moveSpec_congr fs1 fs0 tl p hsrc1 ?_
              by_cases hf : p ∈ tl.map Prod.fst
              · exact Or.inl hf
              · by_cases hs2 : p ∈ tl.map Prod.snd
                · exact Or.inr (Or.inl hs2)
                · refine Or.inr (Or.inr ?_)
                  rw [hfs1, fsGet_fsSet, if_neg hpd, fsGet_fsErase, if_neg hps]

theorem mergeRestoreLoop_ok_elim (env : Env) :
    ∀ (zs : List (FPath × FPath)) (fs0 : FS) (k : Nat) (fs2 : FS),
    mergeRestoreLoop env fs0 zs k = (fs2, none) →
    (zs.map Prod.fst).Nodup →
    (zs.map Prod.snd).Nodup →
    (∀ pr ∈ zs, fsExists fs0 pr.2 = true) →
    (∀ pr ∈ zs, fsExists fs0 pr.1 = false) →
    (∀ pr ∈ zs, ∀ pr2 ∈ zs, pr.1 ≠ pr2.2) →
    ∀ p, fsGet fs2 p = moveSpec fs0 (zs.map fun pr => (pr.2, pr.1)) p := by
  intro zs
  induction zs with
  | nil =>
    intro fs0 k fs2 h _ _ _ _ _ p
    unfold mergeRestoreLoop at h
    simp only [Prod.mk.injEq] at h
    rw [← h.1]
    rfl
  | cons hd tl ih =>
    obtain ⟨s, d⟩ := hd
    intro fs0 k fs2 h hndf hnds hex hfr hcross p
    unfold mergeRestoreLoop at h
    cases hsr : (safe_rename (env.restoreFails k) fs0 d s).1 with
    | error e =>
      rw [hsr] at h
      simp at h
    | ok fs1 =>
      rw [hsr] at h
      dsimp only [] at h
      obtain ⟨c, hc, hfs1⟩ := osRename_ok (safe_rename_ok hsr)
      have hsd : s ≠ d := by
        have := hcross (s, d) (by simp) (s, d) (by simp)
        simpa using this
      have hndf' : s ∉ tl.map Prod.fst ∧ (tl.map Prod.fst).Nodup := by
        rw [List.map_cons] at hndf
        exact List.nodup_cons.mp hndf
      have hnds' : d ∉ tl.map Prod.snd ∧ (tl.map Prod.snd).Nodup := by
        rw [List.map_cons] at hnds
        exact List.nodup_cons.mp hnds
      have hsnd1 : ∀ pr ∈ tl, fsGet fs1 pr.2 = fsGet fs0 pr.2 := by
        intro pr hpr
        have hne_d : pr.2 ≠ d := by
          intro hh
          exact hnds'.1 (hh ▸ List.mem_map_of_mem Prod.snd hpr)
        have hne_s : pr.2 ≠ s := by
          intro hh
          have := hcross (s, d) (by simp) pr (List.mem_cons_of_mem _ hpr)
          exact this (by simpa using hh.symm)
        rw [hfs1, fsGet_fsSet, if_neg hne_s, fsGet_fsErase, if_neg hne_d]
      have hfst1 : ∀ pr ∈ tl, fsGet fs1 pr.1 = fsGet fs0 pr.1 := by
        intro pr hpr
        have hne_s : pr.1 ≠ s := by
          intro hh
          exact hndf'.1 (hh ▸ List.mem_map_of_mem Prod.fst hpr)
        have hne_d : pr.1 ≠ d := by
          intro hh
          have := hcross pr (List.mem_cons_of_mem _ hpr) (s, d) (by simp)
          exact this (by simpa using hh)
        rw [hfs1, fsGet_fsSet, if_neg hne_s, fsGet_fsErase, if_neg hne_d]
      have hpw := ih fs1 (k + 1) fs2 h hndf'.2 hnds'.2
        (fun pr hpr => by
          have := hex pr (List.mem_cons_of_mem _ hpr)
          unfold fsExists at this ⊢
          rw [hsnd1 pr hpr]; exact this)
        (fun pr hpr => by
          have := hfr pr (List.mem_cons_of_mem _ hpr)
          unfold fsExists at this ⊢
          rw [hfst1 pr hpr]; exact this)
        (fun pr hpr pr2 hpr2 =>
          hcross pr (List.mem_cons_of_mem _ hpr) pr2 (List.mem_cons_of_mem _ hpr2))
      rw [hpw p, List.map_cons, moveSpec]
      by_cases hps : p = s
      · have hout : s ∉ (tl.map fun pr => (pr.2, pr.1)).map Prod.fst := by
          intro hmem
          obtain ⟨pr', hpr', hpr2'⟩ := List.mem_map.mp hmem
          obtain ⟨pr, hpr, hpr3⟩ := List.mem_map.mp hpr'
          have : pr.2 = s := by rw [← hpr3] at hpr2'; simpa using hpr2'
          exact (hcross (s, d) (by simp) pr (List.mem_cons_of_mem _ hpr))
            (by simpa using this.symm)
        have hout2 : s ∉ (tl.map fun pr => (pr.2, pr.1)).map Prod.snd := by
          intro hmem
          obtain ⟨pr', hpr', hpr2'⟩ := List.mem_map.mp hmem
          obtain ⟨pr, hpr, hpr3⟩ := List.mem_map.mp hpr'
          have : pr.1 = s := by rw [← hpr3] at hpr2'; simpa using hpr2'
          exact hndf'.1 (this ▸ List.mem_map_of_mem Prod.fst hpr)
        rw [hps, moveSpec_other fs1 _ s hout hout2, if_pos rfl, hfs1,
          fsGet_fsSet]
        rw [if_pos rfl, hc]
      · rw [if_neg hps]
        by_cases hpd : p = d
        · have hout : d ∉ (tl.map fun pr => (pr.2, pr.1)).map Prod.fst := by
            intro hmem
            obtain ⟨pr', hpr', hpr2'⟩ := List.mem_map.mp hmem
            obtain ⟨pr, hpr, hpr3⟩ := List.mem_map.mp hpr'
            have : pr.2 = d := by rw [← hpr3] at hpr2'; simpa using hpr2'
            exact hnds'.1 (this ▸ List.mem_map_of_mem Prod.snd hpr)
          have hout2 : d ∉ (tl.map fun pr => (pr.2, pr.1)).map Prod.snd := by
            intro hmem
            obtain ⟨pr', hpr', hpr2'⟩ := List.mem_map.mp hmem
            obtain ⟨pr, hpr, hpr3⟩ := List.mem_map.mp hpr'
            have : pr.1 = d := by rw [← hpr3] at hpr2'; simpa using hpr2'
            exact (hcross pr (List.mem_cons_of_mem _ hpr) (s, d) (by simp))
              (by simpa using this)
          rw [hpd, moveSpec_other fs1 _ d hout hout2, hfs1, fsGet_fsSet,
            if_neg (fun hh => hsd hh.symm), fsGet_fsErase]
          rw [if_pos rfl, if_pos rfl]
        · rw [if_neg hpd]
          refine moveSpec_congr fs1 fs0 _ p ?_ ?_
          · intro pr' hpr'
            obtain ⟨pr, hpr, hpr3⟩ := List.mem_map.mp hpr'
            rw [← hpr3]
            exact hsnd1 pr hpr
          · by_cases hf : p ∈ (tl.map fun pr => (pr.2, pr.1)).map Prod.fst
            · exact Or.inl hf
            · by_cases hs2 : p ∈ (tl.map fun pr => (pr.2, pr.1)).map Prod.snd
              · exact Or.inr (Or.inl hs2)
              · refine Or.inr (Or.inr ?_)
                rw [hfs1, fsGet_fsSet, if_neg hps, fsGet_fsErase, if_neg hpd]

theorem fsGet_eraseIf (fs : FS) (q p : FPath) :
    fsGet (if fsExists fs q then fsErase fs q else fs) p =
      if p = q then none else fsGet fs p := by
  by_cases h : fsExists fs q
  · rw [if_pos h, fsGet_fsErase]
  · rw [if_neg h]
    by_cases hp : p = q
    · rw [if_pos hp, hp]
      revert h
      unfold fsExists
      cases hg : fsGet fs q <;> simp
    · rw [if_neg hp]

theorem mergeApply_ok_elim {env : Env} {fs : FS} {prm p0 : FPath}
    {rest : List FPath} {nn : String} {ao : Bool} {mm : Option FPath}
    {am : Option (List FPath)} {a' : UAction} {fs' : FS} {r : FPath}
    (h : mergeApply env fs prm (p0 :: rest) nn ao mm am = (a', fs', .ok r))
    (htf : fsExists fs (mergeTempPath env p0.dir p0 nn) = false)
    (hcf : fsExists fs (mergeConcatPath env p0.dir) = false) :
    (p0 :: rest).length ≤ 3 ∧ 2 ≤ (p0 :: rest).length ∧ (p0 :: rest).Nodup ∧
    nn ≠ "" ∧ (∀ q ∈ rest, q.dir = p0.dir) ∧
    (∀ q ∈ p0 :: rest, fsExists fs q = true) ∧
    resolveMergedPath fs p0.dir (p0 :: rest) nn mm = .ok r ∧
    a' = .merge prm (p0 :: rest) nn ao (some r)
      (if ao then
        some (resolveMergeArchivedPaths fs p0.dir (p0 :: rest) nn am)
      else am) ∧
    fsExists fs r = false ∧
    (ao = true → ∀ ap ∈ resolveMergeArchivedPaths fs p0.dir (p0 :: rest) nn am,
      fsExists fs ap = false) ∧
    (ao = true →
      (((p0 :: rest).zip
        (resolveMergeArchivedPaths fs p0.dir (p0 :: rest) nn am)).map
          Prod.snd).Nodup) ∧
    env.ffmpegOk = true ∧
    (∀ p, fsGet fs' p =
      if p = mergeConcatPath env p0.dir then none
      else moveSpec
        (fsSet (fsErase
            (fsSet (fsSet fs (mergeConcatPath env p0.dir)
              (.listing (p0 :: rest)))
            (mergeTempPath env p0.dir p0 nn)
            (.concatOut ((p0 :: rest).map fun q => (fsGet fs q).getD .junk)))
          (mergeTempPath env p0.dir p0 nn)) r
          (.concatOut ((p0 :: rest).map fun q => (fsGet fs q).getD .junk)))
        (if ao then
          (p0 :: rest).zip (resolveMergeArchivedPaths fs p0.dir (p0 :: rest) nn am)
        else []) p) := by
  unfold mergeApply at h
  by_cases h1 : (p0 :: rest).length < 2
  · rw [if_pos h1] at h; simp at h
  · rw [if_neg h1] at h
    by_cases h2 : 3 < (p0 :: rest).length
    · rw [if_pos h2] at h; simp at h
    · rw [if_neg h2] at h
      by_cases h3 : ¬ (p0 :: rest).Nodup
      · rw [if_pos h3] at h; simp at h
      · rw [if_neg h3] at h
        rw [not_not] at h3
        by_cases h4 : nn = ""
        · rw [if_pos h4] at h; simp at h
        · rw [if_neg h4] at h
          dsimp only [] at h
          by_cases h5 : ¬ ∀ q ∈ rest, q.dir = p0.dir
          · rw [if_pos h5] at h; simp at h
          · rw [if_neg h5] at h
            rw [not_not] at h5
            by_cases h6 : ¬ ∀ q ∈ p0 :: rest, fsExists fs q = true
            · rw [if_pos h6] at h; simp at h
            · rw [if_neg h6] at h
              rw [not_not] at h6
              cases hres : resolveMergedPath fs p0.dir (p0 :: rest) nn mm with
              | error e => rw [hres] at h; simp at h
              | ok merged =>
                rw [hres] at h
                dsimp only [] at h
                by_cases h7 : fsExists fs merged
                · rw [if_pos h7] at h; simp at h
                · rw [if_neg h7] at h
                  by_cases h8 : ∃ ap ∈ (if ao then
                      resolveMergeArchivedPaths fs p0.dir (p0 :: rest) nn am
                    else []), fsExists fs ap = true
                  · rw [if_pos h8] at h; simp at h
                  · rw [if_neg h8] at h
                    push_neg at h8
                    by_cases h9 : env.ffmpegOk = false
                    · rw [if_pos h9] at h; simp at h
                    · rw [if_neg h9] at h
                      have h9' : env.ffmpegOk = true := by
                        revert h9; cases env.ffmpegOk <;> simp
                      have h7' : fsExists fs merged = false := by
                        revert h7; cases fsExists fs merged <;> simp
                      have h8' : ∀ ap ∈ (if ao then
                          resolveMergeArchivedPaths fs p0.dir (p0 :: rest) nn am
                        else []), fsExists fs ap = false := by
                        intro ap hap
                        have := h8 ap hap
                        revert this; cases fsExists fs ap <;> simp
                      cases hpr : (safe_rename env.promoteFails
                          (fsSet (fsSet fs (mergeConcatPath env p0.dir)
                              (.listing (p0 :: rest)))
                            (mergeTempPath env p0.dir p0 nn)
                            (.concatOut ((p0 :: rest).map fun q =>
                              (fsGet fs q).getD .junk)))
                          (mergeTempPath env p0.dir p0 nn) merged).1 with
                      | error e => rw [hpr] at h; simp at h
                      | ok fs2 =>
                        rw [hpr] at h
                        dsimp only [] at h
                        obtain ⟨ct, hct, hfs2⟩ := osRename_ok (safe_rename_ok hpr)
                        rw [fsGet_fsSet, if_pos rfl] at hct
                        have hsrcs_fs2 : ∀ q ∈ p0 :: rest, fsGet fs2 q = fsGet fs q := by
                          intro q hq
                          have hqex : fsExists fs q = true := h6 q hq
                          have hq_m : q ≠ merged := ne_of_exists_free hqex h7'
                          have hq_t : q ≠ mergeTempPath env p0.dir p0 nn :=
                            ne_of_exists_free hqex htf
                          have hq_c : q ≠ mergeConcatPath env p0.dir :=
                            ne_of_exists_free hqex hcf
                          rw [hfs2, fsGet_fsSet, if_neg hq_m, fsGet_fsErase,
                            if_neg hq_t, fsGet_fsSet, if_neg hq_t, fsGet_fsSet,
                            if_neg hq_c]
                        cases hao : ao with
                        | false =>
                          rw [hao] at h
                          simp only [Bool.false_eq_true, if_false] at h
                          simp only [Prod.mk.injEq, Except.ok.injEq] at h
                          obtain ⟨ha', hfs', hr⟩ := h
                          subst hr
                          refine ⟨by omega, by omega, h3, h4, h5, h6, rfl,
                            ?_, h7', ?_, ?_, h9', ?_⟩
                          · simp only [Bool.false_eq_true, if_false]
                            exact ha'.symm
                          · intro hcon; cases hcon
                          · intro hcon; cases hcon
                          · intro p
                            rw [← hfs', fsGet_eraseIf]
                            simp only [Bool.false_eq_true, if_false]
                            by_cases hpc : p = mergeConcatPath env p0.dir
                            · rw [if_pos hpc, if_pos hpc]
                            · rw [if_neg hpc, if_neg hpc]
                              dsimp only [moveSpec]
                              rw [hfs2]
                              congr 1
                              { injection hct with hhct; rw [hhct] }
                        | true =>
                          rw [hao] at h
                          simp only [eq_self_iff_true, if_true] at h
                          rcases hloop : mergeArchiveLoop env fs2
                              ((p0 :: rest).zip
                                (resolveMergeArchivedPaths fs p0.dir
                                  (p0 :: rest) nn am)) 0 with ⟨fsE, mv, lres⟩
                          rw [hloop] at h
                          cases lres with
                          | some e =>
                            dsimp only [] at h
                            simp at h
                          | none =>
                            dsimp only [] at h
                            simp only [Prod.mk.injEq, Except.ok.injEq] at h
                            obtain ⟨ha', hfs', hr⟩ := h
                            subst hr
                            have harch_free : ∀ ap ∈
                                resolveMergeArchivedPaths fs p0.dir
                                  (p0 :: rest) nn am,
                                fsExists fs ap = false := by
                              intro ap hap
                              have := h8' ap (by
                                rw [hao]
                                simp only [eq_self_iff_true, if_true]
                                exact hap)
                              exact this
                            have hcross : ∀ pr ∈ (p0 :: rest).zip
                                (resolveMergeArchivedPaths fs p0.dir
                                  (p0 :: rest) nn am), ∀ pr2 ∈ (p0 :: rest).zip
                                (resolveMergeArchivedPaths fs p0.dir
                                  (p0 :: rest) nn am), pr.2 ≠ pr2.1 := by
                              intro pr hpr pr2 hpr2
                              have h1m := (List.of_mem_zip hpr).2
                              have h2m := (List.of_mem_zip hpr2).1
                              exact Ne.symm (ne_of_exists_free (h6 _ h2m)
                                (harch_free _ h1m))
                            have hsrc_ex : ∀ pr ∈ (p0 :: rest).zip
                                (resolveMergeArchivedPaths fs p0.dir
                                  (p0 :: rest) nn am),
                                fsExists fs2 pr.1 = true := by
                              intro pr hpr
                              have h1m := (List.of_mem_zip hpr).1
                              unfold fsExists
                              rw [hsrcs_fs2 pr.1 h1m]
                              exact h6 pr.1 h1m
                            obtain ⟨hmv, hdfree, hndd, hpw⟩ :=
                              mergeArchiveLoop_ok_elim env _ fs2 0 fsE mv hloop
                                (List.Nodup.sublist
                                  (zip_map_fst_sublist (p0 :: rest) _) h3)
                                hsrc_ex hcross
                            refine ⟨by omega, by omega, h3, h4, h5, h6, rfl,
                              ?_, h7', ?_, ?_, h9', ?_⟩
                            · simp only [eq_self_iff_true, if_true]
                              exact ha'.symm
                            · intro _; exact harch_free
                            · intro _; exact hndd
                            · intro p
                              rw [← hfs', fsGet_eraseIf]
                              simp only [eq_self_iff_true, if_true]
                              by_cases hpc : p = mergeConcatPath env p0.dir
                              · rw [if_pos hpc, if_pos hpc]
                              · rw [if_neg hpc, if_neg hpc, hpw p]
                                refine moveSpec_congr fs2 _ _ p ?_ ?_
                                · intro pr hpr
                                  rw [hfs2]
                                  congr 1
                                  { injection hct with hhct; rw [hhct] }
                                · refine Or.inr (Or.inr ?_)
                                  rw [hfs2]
                                  congr 1
                                  { injection hct with hhct; rw [hhct] }

theorem mergeUndoFalse_ok_elim {env : Env} {fs : FS} {prm p0 : FPath}
    {rest : List FPath} {nn : String} {mm : Option FPath}
    {am : Option (List FPath)} {a' : UAction} {fs' : FS} {r : FPath}
    (h : mergeUndo env fs prm (p0 :: rest) nn false mm am = (a', fs', .ok r)) :
    r = p0 ∧
    ∃ merged cm, resolveMergedPath fs prm.dir (p0 :: rest) nn mm = .ok merged ∧
      fsGet fs merged = some cm ∧
      ∀ p, fsGet fs' p =
        if p = ensure_unique_path fs
            ⟨get_archive_dir prm.dir, "undo_archive_" ++ merged.name,
              merged.ext⟩ then some cm
        else if p = merged then none
        else fsGet fs p := by
  unfold mergeUndo at h
  dsimp only [] at h
  cases hres : resolveMergedPath fs prm.dir (p0 :: rest) nn mm with
  | error e => rw [hres] at h; simp at h
  | ok merged =>
    rw [hres] at h
    dsimp only [] at h
    by_cases h1 : fsExists fs merged = false
    · rw [if_pos h1] at h; simp at h
    · rw [if_neg h1] at h
      have h1' : fsExists fs merged = true := by
        revert h1; cases fsExists fs merged <;> simp
      cases hout : (safe_rename env.undoOutFails fs merged
          (ensure_unique_path fs
            ⟨get_archive_dir prm.dir, "undo_archive_" ++ merged.name,
              merged.ext⟩)).1 with
      | error e => rw [hout] at h; simp at h
      | ok fs1 =>
        rw [hout] at h
        simp only [Bool.false_eq_true, if_false] at h
        simp only [Prod.mk.injEq, Except.ok.injEq] at h
        obtain ⟨ha', hfs', hr⟩ := h
        obtain ⟨cm, hcm, hfs1⟩ := osRename_ok (safe_rename_ok hout)
        have hqm : ensure_unique_path fs
            ⟨get_archive_dir prm.dir, "undo_archive_" ++ merged.name,
              merged.ext⟩ ≠ merged :=
          Ne.symm (ne_of_exists_free h1' (fsExists_ensure_unique_path fs _))
        refine ⟨hr.symm, merged, cm, rfl, hcm, ?_⟩
        intro p
        rw [← hfs', hfs1, fsGet_fsSet, fsGet_fsErase]

theorem mergeUndoTrue_ok_elim {env : Env} {fs : FS} {prm p0 : FPath}
    {rest : List FPath} {nn : String} {mm : Option FPath} {l : List FPath}
    {a' : UAction} {fs' : FS} {r : FPath}
    (h : mergeUndo env fs prm (p0 :: rest) nn true mm (some l) =
      (a', fs', .ok r))
    (hnps : (p0 :: rest).Nodup)
    (hnl : (((p0 :: rest).zip l).map Prod.snd).Nodup) :
    r = p0 ∧
    ∃ merged cm, resolveMergedPath fs prm.dir (p0 :: rest) nn mm = .ok merged ∧
      fsExists fs merged = true ∧ fsGet fs merged = some cm ∧
      (∀ pr ∈ (p0 :: rest).zip l,
        fsExists (fsSet (fsErase fs merged)
          (ensure_unique_path fs
            ⟨get_archive_dir prm.dir, "undo_archive_" ++ merged.name,
              merged.ext⟩) cm) pr.2 = true ∧
        fsExists (fsSet (fsErase fs merged)
          (ensure_unique_path fs
            ⟨get_archive_dir prm.dir, "undo_archive_" ++ merged.name,
              merged.ext⟩) cm) pr.1 = false) ∧
      ∀ p, fsGet fs' p =
        moveSpec (fsSet (fsErase fs merged)
          (ensure_unique_path fs
            ⟨get_archive_dir prm.dir, "undo_archive_" ++ merged.name,
              merged.ext⟩) cm)
          (((p0 :: rest).zip l).map fun pr => (pr.2, pr.1)) p := by
  unfold mergeUndo at h
  dsimp only [] at h
  cases hres : resolveMergedPath fs prm.dir (p0 :: rest) nn mm with
  | error e => rw [hres] at h; simp at h
  | ok merged =>
    rw [hres] at h
    dsimp only [] at h
    by_cases h1 : fsExists fs merged = false
    · rw [if_pos h1] at h; simp at h
    · rw [if_neg h1] at h
      have h1' : fsExists fs merged = true := by
        revert h1; cases fsExists fs merged <;> simp
      cases hout : (safe_rename env.undoOutFails fs merged
          (ensure_unique_path fs
            ⟨get_archive_dir prm.dir, "undo_archive_" ++ merged.name,
              merged.ext⟩)).1 with
      | error e => rw [hout] at h; simp at h
      | ok fs1 =>
        rw [hout] at h
        simp only [eq_self_iff_true, if_true] at h
        obtain ⟨cm, hcm, hfs1⟩ := osRename_ok (safe_rename_ok hout)
        cases hchk : mergeUndoCheckLoop fs1
            ((p0 :: rest).zip
              (resolveMergeArchivedPaths fs1 prm.dir (p0 :: rest) nn (some l)))
            with
        | some e =>
          rw [hchk] at h
          dsimp only [] at h
          simp at h
        | none =>
          rw [hchk] at h
          dsimp only [] at h
          rcases hrl : mergeRestoreLoop env fs1
              ((p0 :: rest).zip
                (resolveMergeArchivedPaths fs1 prm.dir (p0 :: rest) nn (some l)))
              0 with ⟨fs2, oe⟩
          rw [hrl] at h
          cases oe with
          | some e =>
            dsimp only [] at h
            simp at h
          | none =>
            dsimp only [] at h
            simp only [Prod.mk.injEq, Except.ok.injEq] at h
            obtain ⟨ha', hfs', hr⟩ := h
            have hresolve : resolveMergeArchivedPaths fs1 prm.dir (p0 :: rest)
                nn (some l) = l := rfl
            rw [hresolve] at hchk hrl
            have hchk' := mergeUndoCheckLoop_none_elim hchk
            have hcross : ∀ pr ∈ (p0 :: rest).zip l,
                ∀ pr2 ∈ (p0 :: rest).zip l, pr.1 ≠ pr2.2 := by
              intro pr hpr pr2 hpr2
              exact Ne.symm (ne_of_exists_free (hchk' pr2 hpr2).1
                (hchk' pr hpr).2)
            have hpw := mergeRestoreLoop_ok_elim env ((p0 :: rest).zip l) fs1 0
              fs2 hrl
              (List.Nodup.sublist (zip_map_fst_sublist (p0 :: rest) l) hnps)
              hnl
              (fun pr hpr => (hchk' pr hpr).1)
              (fun pr hpr => (hchk' pr hpr).2)
              hcross
            refine ⟨hr.symm, merged, cm, rfl, h1', hcm, ?_, ?_⟩
            · intro pr hpr
              rw [← hfs1]
              exact hchk' pr hpr
            · intro p
              rw [← hfs', hpw p, hfs1]

theorem fsGet_none_of_free {fs : FS} {p : FPath} (h : fsExists fs p = false) :
    fsGet fs p = none := by
  revert h
  unfold fsExists
  cases fsGet fs p <;> simp

/-- Round trip of `RenameVideoAction`: undo right after a successful apply
restores the filesystem exactly. -/
theorem renameRoundTrip (env : Env) (fs : FS) (old : FPath) (nn : String)
    (a1 a2 : UAction) (fs1 fs2 : FS) (r1 r2 : FPath)
    (h1 : applyA env fs (.rename old nn none) = (a1, fs1, .ok r1))
    (h2 : undoA env fs1 a1 = (a2, fs2, .ok r2)) :
    fsEquiv fs2 fs := by
  have h1' : renameApply env fs old nn none = (a1, fs1, .ok r1) := h1
  obtain ⟨hex, hres, ha1, hcase⟩ := renameApply_ok_elim h1'
  subst ha1
  have h2' : renameUndo env fs1 old nn (some r1) = (a2, fs2, .ok r2) := h2
  obtain ⟨hr2, target, htgt, hcase2⟩ := renameUndo_ok_elim h2'
  have htgt0 : (Except.ok r1 : Except Err FPath) = .ok target := htgt
  have htgt' : r1 = target := by injection htgt0
  subst htgt'
  rcases hcase with ⟨hro, hfs1⟩ | ⟨hro, hfree, c, hc, hfs1⟩
  · rcases hcase2 with ⟨_, hfs2⟩ | ⟨hne, _, _⟩
    · rw [hfs2, hfs1]; intro p; rfl
    · exact absurd hro hne
  · rcases hcase2 with ⟨heq, _⟩ | ⟨hne, holdfree, c', hc', hfs2⟩
    · exact absurd heq hro
    · have hc'' : c' = c := by
        rw [hfs1, fsGet_fsSet, if_pos rfl] at hc'
        injection hc' with hh; exact hh.symm
      intro p
      rw [hfs2, fsGet_fsSet, fsGet_fsErase, hfs1, fsGet_fsSet, fsGet_fsErase,
        hc'']
      by_cases hpo : p = old
      · rw [if_pos hpo, hpo, hc]
      · rw [if_neg hpo]
        by_cases hpr : p = r1
        · rw [if_pos hpr, hpr, fsGet_none_of_free hfree]
        · rw [if_neg hpr, if_neg hpr, if_neg hpo]

/-- Round trip of `DeleteVideoAction`: undo right after a successful apply
restores the filesystem exactly. -/
theorem deleteRoundTrip (env : Env) (fs : FS) (orig : FPath)
    (a1 a2 : UAction) (fs1 fs2 : FS) (r1 r2 : FPath)
    (h1 : applyA env fs (.del orig none) = (a1, fs1, .ok r1))
    (h2 : undoA env fs1 a1 = (a2, fs2, .ok r2)) :
    fsEquiv fs2 fs := by
  have h1' : deleteApply env fs orig none = (a1, fs1, .ok r1) := h1
  obtain ⟨hex, hr1, ha1, hfree, c, hc, hfs1⟩ := deleteApply_ok_elim h1'
  subst ha1
  have h2' : deleteUndo env fs1 orig (some r1) = (a2, fs2, .ok r2) := h2
  obtain ⟨hr2, hof, c', hc', hfs2⟩ := deleteUndo_ok_elim h2'
  have hmemo : resolveDeleteArchivedPath fs1 orig (some r1) = r1 := rfl
  rw [hmemo] at hc' hfs2
  have hor : orig ≠ r1 := ne_of_exists_free hex hfree
  have hc'' : c' = c := by
    rw [hfs1, fsGet_fsSet, if_pos rfl] at hc'
    injection hc' with hh; exact hh.symm
  intro p
  rw [hfs2, fsGet_fsSet, fsGet_fsErase, hfs1, fsGet_fsSet, fsGet_fsErase, hc'']
  by_cases hpo : p = orig
  · rw [if_pos hpo, hpo, hc]
  · rw [if_neg hpo]
    by_cases hpr : p = r1
    · rw [if_pos hpr, hpr, fsGet_none_of_free hfree]
    · rw [if_neg hpr, if_neg hpr, if_neg hpo]

/-- Round trip of `TrimVideoAction`: undo right after a successful apply
restores every original path, but parks the trimmed output at a fresh
`undo_archive_` path inside the archive directory instead of removing it. -/
theorem trimRoundTrip (env : Env) (fs : FS) (o : FPath) (nn st en : String)
    (a1 a2 : UAction) (fs1 fs2 : FS) (r1 r2 : FPath)
    (htf : fsExists fs (trimTempPath env o nn) = false)
    (h1 : applyA env fs (.trim o nn st en none none) = (a1, fs1, .ok r1))
    (h2 : undoA env fs1 a1 = (a2, fs2, .ok r2)) :
    ∃ c q, fsGet fs o = some c ∧ q.dir = get_archive_dir o.dir ∧
      fsGet fs q = none ∧ fsGet fs2 q = some (.trimOut c st en) ∧
      ∀ p, p ≠ q → fsGet fs2 p = fsGet fs p := by
  have h1' : trimApply env fs o nn st en none none = (a1, fs1, .ok r1) := h1
  obtain ⟨hnn, hst, hoex, hr1, ha1, hr1free, harchfree, hffm, hotemp, c, hc,
    hfs1⟩ := trimApply_ok_elim h1'
  subst ha1
  rw [← hr1] at hfs1
  have h2' : trimUndo env fs1 o nn st en (some r1)
      (some (resolveTrimArchivedPath fs o nn none)) = (a2, fs2, .ok r2) := h2
  obtain ⟨hr2, harchex, hofree, c0, hc0, hdisj⟩ := trimUndo_ok_elim h2'
  have hmemo : resolveTrimArchivedPath fs1 o nn
      (some (resolveTrimArchivedPath fs o nn none)) =
      resolveTrimArchivedPath fs o nn none := rfl
  rw [hmemo] at harchex hc0 hdisj
  have hr1' : r1 = ensure_unique_path fs
      ⟨o.dir, sanitize_filename nn, o.ext⟩ := hr1
  have hr1dir : r1.dir = o.dir := by
    rw [hr1']; exact ensure_unique_path_dir fs _
  have hAR' : resolveTrimArchivedPath fs o nn none = ensure_unique_path fs
      ⟨get_archive_dir o.dir,
        sanitize_filename nn ++ "_archive_" ++ o.name, o.ext⟩ := rfl
  have hARdir : (resolveTrimArchivedPath fs o nn none).dir =
      get_archive_dir o.dir := by
    rw [hAR']; exact ensure_unique_path_dir fs _
  have hr1AR : r1 ≠ resolveTrimArchivedPath fs o nn none := by
    intro hh
    exact get_archive_dir_ne o.dir (by rw [← hARdir, ← hh, hr1dir])
  have hor1 : o ≠ r1 := ne_of_exists_free hoex hr1free
  have hc0' : c0 = c := by
    rw [hfs1 (resolveTrimArchivedPath fs o nn none), if_pos rfl] at hc0
    injection hc0 with hh; exact hh.symm
  have hex1 : fsExists fs1 r1 = true := by
    unfold fsExists
    rw [hfs1 r1, if_neg hr1AR, if_neg (Ne.symm hor1), if_pos rfl]
    rfl
  rcases hdisj with ⟨hfact, _⟩ | ⟨tp, ct, htm, htpex, hct, htpAR, hfs2⟩
  · rw [hfact r1 rfl] at hex1; cases hex1
  · have htp' : r1 = tp := by injection htm
    subst htp'
    have hct' : ct = .trimOut c st en := by
      rw [hfs1 r1, if_neg hr1AR, if_neg (Ne.symm hor1), if_pos rfl] at hct
      injection hct with hh; exact hh.symm
    have hqdir : (ensure_unique_path fs1
        ⟨get_archive_dir o.dir, "undo_archive_" ++ r1.name, r1.ext⟩).dir =
        get_archive_dir o.dir := ensure_unique_path_dir fs1 _
    have hqfree1 : fsExists fs1 (ensure_unique_path fs1
        ⟨get_archive_dir o.dir, "undo_archive_" ++ r1.name, r1.ext⟩) = false :=
      fsExists_ensure_unique_path fs1 _
    have hARq : resolveTrimArchivedPath fs o nn none ≠ ensure_unique_path fs1
        ⟨get_archive_dir o.dir, "undo_archive_" ++ r1.name, r1.ext⟩ :=
      ne_of_exists_free harchex hqfree1
    have hqo : ensure_unique_path fs1
        ⟨get_archive_dir o.dir, "undo_archive_" ++ r1.name, r1.ext⟩ ≠ o := by
      intro hh
      exact get_archive_dir_ne o.dir (by rw [← hqdir, hh])
    have hqr1 : ensure_unique_path fs1
        ⟨get_archive_dir o.dir, "undo_archive_" ++ r1.name, r1.ext⟩ ≠ r1 := by
      intro hh
      exact get_archive_dir_ne o.dir (by rw [← hqdir, hh, hr1dir])
    have htempdir : (trimTempPath env o nn).dir = o.dir := rfl
    have hqtemp : ensure_unique_path fs1
        ⟨get_archive_dir o.dir, "undo_archive_" ++ r1.name, r1.ext⟩ ≠
        trimTempPath env o nn := by
      intro hh
      exact get_archive_dir_ne o.dir (by rw [← hqdir, hh, htempdir])
    have hfsq : fsGet fs (ensure_unique_path fs1
        ⟨get_archive_dir o.dir, "undo_archive_" ++ r1.name, r1.ext⟩) = none := by
      have hn := fsGet_none_of_free hqfree1
      rw [hfs1 _, if_neg (Ne.symm hARq), if_neg hqo, if_neg hqr1,
        if_neg hqtemp] at hn
      exact hn
    refine ⟨c, ensure_unique_path fs1
      ⟨get_archive_dir o.dir, "undo_archive_" ++ r1.name, r1.ext⟩,
      hc, hqdir, hfsq, ?_, ?_⟩
    · rw [hfs2 _, if_neg hqo, if_neg (fun hh => hARq hh.symm), if_pos rfl,
        hct']
    · intro p hpq
      rw [hfs2 p]
      by_cases hpo : p = o
      · rw [if_pos hpo, hc0', hpo, hc]
      · rw [if_neg hpo]
        by_cases hpa : p = resolveTrimArchivedPath fs o nn none
        · rw [if_pos hpa, hpa, fsGet_none_of_free harchfree]
        · rw [if_neg hpa, if_neg hpq]
          by_cases hpr : p = r1
          · rw [if_pos hpr, hpr, fsGet_none_of_free hr1free]
          · rw [if_neg hpr]
            rw [hfs1 p, if_neg hpa, if_neg hpo, if_neg hpr]
            by_cases hpt : p = trimTempPath env o nn
            · rw [if_pos hpt, hpt, fsGet_none_of_free htf]
            · rw [if_neg hpt]

/-- Round trip of `MergeVideosAction` with `archive_originals`: undo right
after a successful apply restores every source clip from the archive, but
parks the merged output at a fresh `undo_archive_` path inside the archive
directory instead of removing it. -/
theorem mergeRoundTrip (env : Env) (fs : FS) (prm p0 : FPath)
    (rest : List FPath) (nn : String)
    (a1 a2 : UAction) (fs1 fs2 : FS) (r1 r2 : FPath)
    (hprm : prm.dir = p0.dir)
    (htf : fsExists fs (mergeTempPath env p0.dir p0 nn) = false)
    (hcf : fsExists fs (mergeConcatPath env p0.dir) = false)
    (h1 : applyA env fs (.merge prm (p0 :: rest) nn true none none) =
      (a1, fs1, .ok r1))
    (h2 : undoA env fs1 a1 = (a2, fs2, .ok r2)) :
    ∃ q, q.dir = get_archive_dir p0.dir ∧ fsGet fs q = none ∧
      fsGet fs2 q =
        some (.concatOut ((p0 :: rest).map fun s => (fsGet fs s).getD .junk)) ∧
      ∀ p, p ≠ q → fsGet fs2 p = fsGet fs p := by
  have h1' : mergeApply env fs prm (p0 :: rest) nn true none none =
      (a1, fs1, .ok r1) := h1
  obtain ⟨hlen3, hlen2, hnodup, hnn, hdirs, hex, hres, ha1, hr1free, harchfree,
    hsndnd, hffm, hfs1⟩ := mergeApply_ok_elim h1' htf hcf
  have harchfree' := harchfree rfl
  have hsndnd' := hsndnd rfl
  have ha1' : a1 = .merge prm (p0 :: rest) nn true (some r1)
      (some (resolveMergeArchivedPaths fs p0.dir (p0 :: rest) nn none)) := ha1
  subst ha1'
  obtain ⟨A, hA⟩ :
      ∃ x, resolveMergeArchivedPaths fs p0.dir (p0 :: rest) nn none = x :=
    ⟨_, rfl⟩
  rw [hA] at harchfree' hsndnd' h2
  have hfs1' : ∀ p, fsGet fs1 p =
      if p = mergeConcatPath env p0.dir then none
      else moveSpec
        (fsSet (fsErase
            (fsSet (fsSet fs (mergeConcatPath env p0.dir)
              (.listing (p0 :: rest)))
            (mergeTempPath env p0.dir p0 nn)
            (.concatOut ((p0 :: rest).map fun s => (fsGet fs s).getD .junk)))
          (mergeTempPath env p0.dir p0 nn)) r1
          (.concatOut ((p0 :: rest).map fun s => (fsGet fs s).getD .junk)))
        ((p0 :: rest).zip A) p := by
    intro p
    have h0 := hfs1 p
    rw [hA] at h0
    exact h0
  have h2' : mergeUndo env fs1 prm (p0 :: rest) nn true (some r1) (some A) =
      (a2, fs2, .ok r2) := h2
  obtain ⟨hr2, merged, cm, hresu, hmex, hcm, _hchk, hfs2⟩ :=
    mergeUndoTrue_ok_elim h2' hnodup hsndnd'
  have hmr : r1 = merged := by
    have h0 : (Except.ok r1 : Except Err FPath) = .ok merged := hresu
    injection h0
  subst hmr
  obtain ⟨CC, hCC⟩ :
      ∃ x, Content.concatOut ((p0 :: rest).map fun s => (fsGet fs s).getD .junk)
        = x := ⟨_, rfl⟩
  rw [hCC] at hfs1'
  obtain ⟨chainFS, hchain⟩ :
      ∃ x, fsSet (fsErase
          (fsSet (fsSet fs (mergeConcatPath env p0.dir)
            (.listing (p0 :: rest)))
          (mergeTempPath env p0.dir p0 nn) CC)
        (mergeTempPath env p0.dir p0 nn)) r1 CC = x := ⟨_, rfl⟩
  rw [hchain] at hfs1'
  obtain ⟨zs, hzs⟩ : ∃ x, (p0 :: rest).zip A = x := ⟨_, rfl⟩
  rw [hzs] at hfs1' hsndnd' _hchk hfs2
  obtain ⟨q, hq⟩ : ∃ x, ensure_unique_path fs1
      ⟨get_archive_dir prm.dir, "undo_archive_" ++ r1.name, r1.ext⟩ = x :=
    ⟨_, rfl⟩
  rw [hq] at _hchk hfs2
  obtain ⟨fsB, hfsB⟩ : ∃ x, fsSet (fsErase fs1 r1) q cm = x := ⟨_, rfl⟩
  rw [hfsB] at _hchk hfs2
  obtain ⟨zsw, hzsw⟩ : ∃ x, zs.map (fun pr => (pr.2, pr.1)) = x := ⟨_, rfl⟩
  rw [hzsw] at hfs2
  -- basic directory facts
  have hr1' : r1 = ensure_unique_path fs ⟨p0.dir, sanitize_filename nn, p0.ext⟩
      := by
    have h0 : (Except.ok
        (ensure_unique_path fs ⟨p0.dir, sanitize_filename nn, p0.ext⟩) :
        Except Err FPath) = .ok r1 := hres
    injection h0 with hh
    exact hh.symm
  have hr1dir : r1.dir = p0.dir := by
    rw [hr1']; exact ensure_unique_path_dir fs _
  have hA' : A = (p0 :: rest).map fun sp => ensure_unique_path fs
      ⟨get_archive_dir p0.dir, sanitize_filename nn ++ "_archive_" ++ sp.name,
        sp.ext⟩ := by
    rw [← hA]
    exact rfl
  have hAdir : ∀ ap ∈ A, ap.dir = get_archive_dir p0.dir := by
    intro ap hap
    rw [hA'] at hap
    obtain ⟨sp, _, heq⟩ := List.mem_map.mp hap
    rw [← heq]
    exact ensure_unique_path_dir fs _
  have hsrcdir : ∀ sp ∈ p0 :: rest, sp.dir = p0.dir := by
    intro sp hsp
    rcases List.mem_cons.mp hsp with hh | hh
    · rw [hh]
    · exact hdirs sp hh
  have hlenA : (p0 :: rest).length ≤ A.length := by
    rw [hA', List.length_map]
  have hfst : zs.map Prod.fst = p0 :: rest := by
    rw [← hzs]; exact List.map_fst_zip _ _ hlenA
  have hsnd : zs.map Prod.snd = A := by
    rw [← hzs]; exact List.map_snd_zip _ _ (le_of_eq (by rw [hA', List.length_map]))
  have hfstw : zsw.map Prod.fst = A := by
    rw [← hzsw, List.map_map]; exact hsnd
  have hsndw : zsw.map Prod.snd = p0 :: rest := by
    rw [← hzsw, List.map_map]; exact hfst
  have htempdir : (mergeTempPath env p0.dir p0 nn).dir = p0.dir := rfl
  have hconcatdir : (mergeConcatPath env p0.dir).dir = p0.dir := rfl
  -- non-collision facts for the sources
  have hsrcne : ∀ s ∈ p0 :: rest, s ≠ r1 ∧
      s ≠ mergeTempPath env p0.dir p0 nn ∧ s ≠ mergeConcatPath env p0.dir :=
    fun s hs => ⟨ne_of_exists_free (hex s hs) hr1free,
      ne_of_exists_free (hex s hs) htf, ne_of_exists_free (hex s hs) hcf⟩
  have hcross : ∀ pr ∈ zs, ∀ pr2 ∈ zs, pr.2 ≠ pr2.1 := by
    intro pr hpr pr2 hpr2
    rw [← hzs] at hpr hpr2
    obtain ⟨s, d⟩ := pr
    obtain ⟨s2, d2⟩ := pr2
    have hd : d ∈ A := (List.of_mem_zip hpr).2
    have hs2 : s2 ∈ p0 :: rest := (List.of_mem_zip hpr2).1
    intro hh
    exact get_archive_dir_ne p0.dir
      (by rw [← hAdir d hd, show d = s2 from hh]; exact hsrcdir s2 hs2)
  have hcrossw : ∀ pr ∈ zsw, ∀ pr2 ∈ zsw, pr.2 ≠ pr2.1 := by
    intro pr hpr pr2 hpr2
    rw [← hzsw] at hpr hpr2
    obtain ⟨pa, hpa, hpaeq⟩ := List.mem_map.mp hpr
    obtain ⟨pb, hpb, hpbeq⟩ := List.mem_map.mp hpr2
    rw [← hpaeq, ← hpbeq]
    intro hh
    exact hcross pb hpb pa hpa hh.symm
  -- the values stored by apply
  have hchainval : ∀ p, p ≠ r1 → p ≠ mergeConcatPath env p0.dir →
      fsGet chainFS p =
        if p = mergeTempPath env p0.dir p0 nn then none else fsGet fs p := by
    intro p hp1 hp2
    rw [← hchain, fsGet_fsSet, if_neg hp1, fsGet_fsErase]
    by_cases ht : p = mergeTempPath env p0.dir p0 nn
    · rw [if_pos ht, if_pos ht]
    · rw [if_neg ht, if_neg ht, fsGet_fsSet, if_neg ht, fsGet_fsSet,
        if_neg hp2]
  have hr1c : r1 ≠ mergeConcatPath env p0.dir := by
    intro hh
    have h0 := hmex
    unfold fsExists at h0
    rw [hfs1' r1, if_pos hh] at h0
    simp at h0
  have hr1nf : r1 ∉ zs.map Prod.fst := by
    rw [hfst]
    intro hm
    exact (hsrcne r1 hm).1 rfl
  have hr1ns : r1 ∉ zs.map Prod.snd := by
    rw [hsnd]
    intro hm
    exact get_archive_dir_ne p0.dir (by rw [← hAdir r1 hm]; exact hr1dir)
  have hcmC : CC = cm := by
    rw [hfs1' r1, if_neg hr1c, moveSpec_other chainFS zs r1 hr1nf hr1ns,
      ← hchain, fsGet_fsSet, if_pos rfl] at hcm
    injection hcm
  have hdstval : ∀ pr ∈ zs, fsGet fs1 pr.2 = fsGet fs pr.1 := by
    intro pr hpr
    obtain ⟨s, d⟩ := pr
    have hsm : s ∈ p0 :: rest := (List.of_mem_zip (by rw [hzs]; exact hpr)).1
    have hdm : d ∈ A := (List.of_mem_zip (by rw [hzs]; exact hpr)).2
    have hdc : d ≠ mergeConcatPath env p0.dir := by
      intro hh
      exact get_archive_dir_ne p0.dir
        (by rw [← hAdir d hdm, hh]; exact hconcatdir)
    rw [hfs1' d, if_neg hdc, moveSpec_dest chainFS zs s d hpr hsndnd' hcross,
      hchainval s (hsrcne s hsm).1 (hsrcne s hsm).2.2,
      if_neg (hsrcne s hsm).2.1]
  have hdstex1 : ∀ d ∈ A, fsExists fs1 d = true := by
    intro d hd
    have hd' : d ∈ zs.map Prod.snd := by rw [hsnd]; exact hd
    obtain ⟨pr, hpr, hpreq⟩ := List.mem_map.mp hd'
    have hval := hdstval pr hpr
    rw [hpreq] at hval
    unfold fsExists
    rw [hval]
    have hsm : pr.1 ∈ p0 :: rest := by
      have : pr.1 ∈ zs.map Prod.fst := List.mem_map_of_mem _ hpr
      rw [hfst] at this
      exact this
    have := hex pr.1 hsm
    unfold fsExists at this
    exact this
  -- facts about the undo-archive destination q
  have hqdir : q.dir = get_archive_dir p0.dir := by
    rw [← hq, ← hprm]
    exact ensure_unique_path_dir fs1 _
  have hqfree1 : fsExists fs1 q = false := by
    rw [← hq]; exact fsExists_ensure_unique_path fs1 _
  have hq_ne_src : ∀ s ∈ p0 :: rest, q ≠ s := by
    intro s hs hh
    exact get_archive_dir_ne p0.dir (by rw [← hqdir, hh]; exact hsrcdir s hs)
  have hq_ne_dst : ∀ d ∈ A, q ≠ d :=
    fun d hd hh => absurd (hdstex1 d hd) (by rw [← hh, hqfree1]; simp)
  have hq_ne_r1 : q ≠ r1 := Ne.symm (ne_of_exists_free hmex hqfree1)
  have hq_ne_temp : q ≠ mergeTempPath env p0.dir p0 nn := by
    intro hh
    exact get_archive_dir_ne p0.dir (by rw [← hqdir, hh]; exact htempdir)
  have hq_ne_concat : q ≠ mergeConcatPath env p0.dir := by
    intro hh
    exact get_archive_dir_ne p0.dir (by rw [← hqdir, hh]; exact hconcatdir)
  have hq_nf : q ∉ zs.map Prod.fst := by
    rw [hfst]; intro hm; exact hq_ne_src q hm rfl
  have hq_ns : q ∉ zs.map Prod.snd := by
    rw [hsnd]; intro hm; exact hq_ne_dst q hm rfl
  have hq_nfw : q ∉ zsw.map Prod.fst := by
    rw [hfstw]; intro hm; exact hq_ne_dst q hm rfl
  have hq_nsw : q ∉ zsw.map Prod.snd := by
    rw [hsndw]; intro hm; exact hq_ne_src q hm rfl
  have hfsq : fsGet fs q = none := by
    have hn := fsGet_none_of_free hqfree1
    rw [hfs1' q, if_neg hq_ne_concat, moveSpec_other chainFS zs q hq_nf hq_ns,
      hchainval q hq_ne_r1 hq_ne_concat, if_neg hq_ne_temp] at hn
    exact hn
  refine ⟨q, hqdir, hfsq, ?_, ?_⟩
  · rw [hfs2 q, moveSpec_other fsB zsw q hq_nfw hq_nsw, ← hfsB, fsGet_fsSet,
      if_pos rfl, ← hcmC, hCC]
  · intro p hpq
    rw [hfs2 p]
    by_cases hp_src : p ∈ p0 :: rest
    · have hp_f : p ∈ zs.map Prod.fst := by rw [hfst]; exact hp_src
      obtain ⟨pr, hpr, hpreq⟩ := List.mem_map.mp hp_f
      have hmemw : (pr.2, pr.1) ∈ zsw := by
        rw [← hzsw]
        exact List.mem_map_of_mem _ hpr
      have hndw : (zsw.map Prod.snd).Nodup := by rw [hsndw]; exact hnodup
      rw [← hpreq, moveSpec_dest fsB zsw pr.2 pr.1 hmemw hndw hcrossw]
      have hd : pr.2 ∈ A := by
        have : pr.2 ∈ zs.map Prod.snd := List.mem_map_of_mem _ hpr
        rw [hsnd] at this
        exact this
      have hd_ne_q : pr.2 ≠ q := fun hh => hq_ne_dst pr.2 hd hh.symm
      have hd_ne_r1 : pr.2 ≠ r1 := by
        intro hh
        exact get_archive_dir_ne p0.dir
          (by rw [← hAdir pr.2 hd, hh]; exact hr1dir)
      rw [← hfsB, fsGet_fsSet, if_neg hd_ne_q, fsGet_fsErase, if_neg hd_ne_r1]
      exact hdstval pr hpr
    · by_cases hp_dst : p ∈ A
      · have hp_fw : p ∈ zsw.map Prod.fst := by rw [hfstw]; exact hp_dst
        have hp_nsw : p ∉ zsw.map Prod.snd := by rw [hsndw]; exact hp_src
        rw [moveSpec_src fsB zsw p hp_fw hp_nsw,
          fsGet_none_of_free (harchfree' p hp_dst)]
      · have hp_nfw : p ∉ zsw.map Prod.fst := by rw [hfstw]; exact hp_dst
        have hp_nsw : p ∉ zsw.map Prod.snd := by rw [hsndw]; exact hp_src
        rw [moveSpec_other fsB zsw p hp_nfw hp_nsw, ← hfsB, fsGet_fsSet,
          if_neg hpq, fsGet_fsErase]
        by_cases hpr1 : p = r1
        · rw [if_pos hpr1, hpr1, fsGet_none_of_free hr1free]
        · rw [if_neg hpr1]
          by_cases hpc : p = mergeConcatPath env p0.dir
          · rw [hfs1' p, if_pos hpc, hpc, fsGet_none_of_free hcf]
          · have hp_nf : p ∉ zs.map Prod.fst := by rw [hfst]; exact hp_src
            have hp_ns : p ∉ zs.map Prod.snd := by rw [hsnd]; exact hp_dst
            rw [hfs1' p, if_neg hpc, moveSpec_other chainFS zs p hp_nf hp_ns,
              hchainval p hpr1 hpc]
            by_cases hpt : p = mergeTempPath env p0.dir p0 nn
            · rw [if_pos hpt, hpt, fsGet_none_of_free htf]
            · rw [if_neg hpt]

/-! ### Claim C4 -/

theorem renameApply_memoized_ok {env : Env} {fs : FS} {old : FPath}
    {nn : String} {t r : FPath}
    (h : (renameApply env fs old nn (some t)).2.2 = .ok r) : r = t := by
  rcases hx : renameApply env fs old nn (some t) with ⟨a3, f3, res⟩
  rw [hx] at h
  dsimp only [] at h
  subst h
  obtain ⟨_, hres, _, _⟩ := renameApply_ok_elim hx
  have : Except.ok (ε := Err) t = Except.ok r := by
    rw [← hres]; rfl
  injection this with hh
  exact hh.symm

theorem trimApply_memoized_ok {env : Env} {fs : FS} {o : FPath}
    {nn st en : String} {t : FPath} {am : Option FPath} {r : FPath}
    (h : (trimApply env fs o nn st en (some t) am).2.2 = .ok r) : r = t := by
  rcases hx : trimApply env fs o nn st en (some t) am with ⟨a3, f3, res⟩
  rw [hx] at h
  dsimp only [] at h
  subst h
  obtain ⟨_, _, _, hres, _⟩ := trimApply_ok_elim hx
  exact hres

theorem deleteApply_memoized_ok {env : Env} {fs : FS} {orig : FPath}
    {t r : FPath}
    (h : (deleteApply env fs orig (some t)).2.2 = .ok r) : r = t := by
  rcases hx : deleteApply env fs orig (some t) with ⟨a3, f3, res⟩
  rw [hx] at h
  dsimp only [] at h
  subst h
  obtain ⟨_, hres, _⟩ := deleteApply_ok_elim hx
  exact hres

/-- Every successful `MergeVideosAction.apply` returns the destination the
resolver produced and memoizes it in the returned action. -/
theorem mergeApply_ok_resolved {env : Env} {fs : FS} {prm : FPath}
    {ps : List FPath} {nn : String} {ao : Bool} {mm : Option FPath}
    {am : Option (List FPath)} {a' : UAction} {fs' : FS} {r : FPath}
    (h : mergeApply env fs prm ps nn ao mm am = (a', fs', .ok r)) :
    (∃ folder, resolveMergedPath fs folder ps nn mm = .ok r) ∧
    ∃ am', a' = .merge prm ps nn ao (some r) am' := by
  unfold mergeApply at h
  by_cases h1 : ps.length < 2
  · rw [if_pos h1] at h; simp at h
  · rw [if_neg h1] at h
    by_cases h2 : 3 < ps.length
    · rw [if_pos h2] at h; simp at h
    · rw [if_neg h2] at h
      by_cases h3 : ¬ ps.Nodup
      · rw [if_pos h3] at h; simp at h
      · rw [if_neg h3] at h
        by_cases h4 : nn = ""
        · rw [if_pos h4] at h; simp at h
        · rw [if_neg h4] at h
          cases ps with
          | nil => simp at h
          | cons p0 rest =>
            dsimp only [] at h
            by_cases h5 : ¬ ∀ q ∈ rest, q.dir = p0.dir
            · rw [if_pos h5] at h; simp at h
            · rw [if_neg h5] at h
              by_cases h6 : ¬ ∀ q ∈ p0 :: rest, fsExists fs q = true
              · rw [if_pos h6] at h; simp at h
              · rw [if_neg h6] at h
                cases hres : resolveMergedPath fs p0.dir (p0 :: rest) nn mm
                    with
                | error e0 => rw [hres] at h; simp at h
                | ok merged =>
                  rw [hres] at h
                  dsimp only [] at h
                  by_cases h7 : fsExists fs merged
                  · rw [if_pos h7] at h; simp at h
                  · rw [if_neg h7] at h
                    by_cases h8 : ∃ ap ∈ (if ao then
                        resolveMergeArchivedPaths fs p0.dir (p0 :: rest) nn am
                      else []), fsExists fs ap = true
                    · rw [if_pos h8] at h; simp at h
                    · rw [if_neg h8] at h
                      by_cases h9 : env.ffmpegOk = false
                      · rw [if_pos h9] at h; simp at h
                      · rw [if_neg h9] at h
                        cases hpm : (safe_rename env.promoteFails
                            (fsSet (fsSet fs (mergeConcatPath env p0.dir)
                              (.listing (p0 :: rest)))
                              (mergeTempPath env p0.dir p0 nn)
                              (.concatOut ((p0 :: rest).map fun q =>
                                (fsGet fs q).getD .junk)))
                            (mergeTempPath env p0.dir p0 nn) merged).1 with
                        | error e0 => rw [hpm] at h; simp at h
                        | ok fs2 =>
                          rw [hpm] at h
                          dsimp only [] at h
                          by_cases hao : ao = true
                          · rw [hao] at h
                            simp only [eq_self_iff_true, if_true] at h
                            rcases hloop : mergeArchiveLoop env fs2
                                ((p0 :: rest).zip
                                  (resolveMergeArchivedPaths fs p0.dir
                                    (p0 :: rest) nn am)) 0 with
                              ⟨fs3, moved, res⟩
                            rw [hloop] at h
                            cases res with
                            | some e0 => simp at h
                            | none =>
                              dsimp only [] at h
                              simp only [Prod.mk.injEq, Except.ok.injEq] at h
                              obtain ⟨ha, _, hr⟩ := h
                              subst hr
                              rw [hao]
                              exact ⟨⟨p0.dir, hres⟩, _, ha.symm⟩
                          · have hao' : ao = false := by
                              revert hao; cases ao <;> simp
                            rw [hao'] at h
                            simp only [Bool.false_eq_true, if_false] at h
                            simp only [Prod.mk.injEq, Except.ok.injEq] at h
                            obtain ⟨ha, _, hr⟩ := h
                            subst hr
                            rw [hao']
                            exact ⟨⟨p0.dir, hres⟩, _, ha.symm⟩

theorem mergeApply_memoized_ok {env : Env} {fs : FS} {prm : FPath}
    {ps : List FPath} {nn : String} {ao : Bool} {t : FPath}
    {am : Option (List FPath)} {r : FPath}
    (h : (mergeApply env fs prm ps nn ao (some t) am).2.2 = .ok r) :
    r = t := by
  rcases hx : mergeApply env fs prm ps nn ao (some t) am with ⟨a3, f3, res⟩
  rw [hx] at h
  dsimp only [] at h
  subst h
  obtain ⟨⟨folder, hres⟩, _⟩ := mergeApply_ok_resolved hx
  have : Except.ok (ε := Err) t = Except.ok r := by
    rw [← hres]; rfl
  injection this with hh
  exact hh.symm

/-- Re-applying the record produced by any successful apply — whatever the
environment and the filesystem have become in the meantime — returns exactly
the destination memoized by the first apply. -/
theorem applyA_again_ok {env env3 : Env} {fs fs1 fs3 : FS} {a a1 : UAction}
    {t r : FPath}
    (h1 : applyA env fs a = (a1, fs1, .ok t))
    (h2 : (applyA env3 fs3 a1).2.2 = .ok r) : r = t := by
  cases a with
  | rename old nn memo =>
    have h1' : renameApply env fs old nn memo = (a1, fs1, .ok t) := h1
    obtain ⟨_, _, ha1, _⟩ := renameApply_ok_elim h1'
    subst ha1
    exact renameApply_memoized_ok h2
  | trim o nn st en tm am =>
    have h1' : trimApply env fs o nn st en tm am = (a1, fs1, .ok t) := h1
    obtain ⟨_, _, _, _, ha1, _⟩ := trimApply_ok_elim h1'
    subst ha1
    exact trimApply_memoized_ok h2
  | del orig memo =>
    have h1' : deleteApply env fs orig memo = (a1, fs1, .ok t) := h1
    obtain ⟨_, _, ha1, _⟩ := deleteApply_ok_elim h1'
    subst ha1
    exact deleteApply_memoized_ok h2
  | merge prm ps nn ao mm am =>
    have h1' : mergeApply env fs prm ps nn ao mm am = (a1, fs1, .ok t) := h1
    obtain ⟨_, am', ha1⟩ := mergeApply_ok_resolved h1'
    subst ha1
    exact mergeApply_memoized_ok h2

/-- Claim C4 (confirmed): every resolver reuses its memoized destination
independently of the current filesystem state, and for every action variant
a redo after undo returns exactly the destination path memoized by the
original apply (persisted in the appended record) — no recomputation, no
renumbering of collision suffixes. -/
theorem C4_redo_uses_memoized_destination :
    (∀ (fs : FS) (old : FPath) (nn : String) (t : FPath),
      resolveRenamePath fs old nn (some t) = .ok t) ∧
    (∀ (fs : FS) (o : FPath) (nn : String) (t : FPath),
      resolveTrimmedPath fs o nn (some t) = t) ∧
    (∀ (fs : FS) (o : FPath) (nn : String) (t : FPath),
      resolveTrimArchivedPath fs o nn (some t) = t) ∧
    (∀ (fs : FS) (o : FPath) (t : FPath),
      resolveDeleteArchivedPath fs o (some t) = t) ∧
    (∀ (fs : FS) (folder : String) (ps : List FPath) (nn : String) (t : FPath),
      resolveMergedPath fs folder ps nn (some t) = .ok t) ∧
    (∀ (fs : FS) (folder : String) (ps : List FPath) (nn : String)
      (l : List FPath),
      resolveMergeArchivedPaths fs folder ps nn (some l) = l) ∧
    (∀ (env : Env) (s : HistoryState) (a : UAction) (fs : FS)
      (s1 : HistoryState) (fs1 : FS) (t : FPath),
      executeH env s a fs = (s1, fs1, .ok t) →
      ∀ (env2 : Env) (fs2 : FS) (s2 : HistoryState) (fs2' : FS) (r2 : FPath),
        undoH env2 s1 fs2 = (s2, fs2', .ok r2) →
        ∀ (env3 : Env) (fs3 : FS) (s3 : HistoryState) (fs3' : FS) (r3 : FPath),
          redoH env3 s2 fs3 = (s3, fs3', .ok r3) → r3 = t) := by
  refine ⟨fun _ _ _ _ => rfl, fun _ _ _ _ => rfl, fun _ _ _ _ => rfl,
    fun _ _ _ => rfl, fun _ _ _ _ _ => rfl, fun _ _ _ _ _ => rfl, ?_⟩
  intro env s a fs s1 fs1 t hx env2 fs2 s2 fs2' r2 hu env3 fs3 s3 fs3' r3 hr
  obtain ⟨a1, happ, hact, hcur⟩ := executeH_ok_elim hx
  obtain ⟨_, _, _, _, _, _, hcur2, hact2⟩ := undoH_ok_elim hu
  obtain ⟨_, _, rec3, hrec3, hok3, _, _, _⟩ := redoH_ok_elim hr
  have hidx : (s2.cursor + 1).toNat = (truncate_redo_tail s).actions.length := by
    rw [hcur2, hcur, hact]
    simp only [List.length_append, List.length_cons, List.length_nil]
    push_cast
    omega
  rw [hact2, hact, hidx, List.get?_eq_getElem?, List.getElem?_concat_length]
    at hrec3
  have hrec3' : rec3 = a1 := by injection hrec3 with hh; exact hh.symm
  subst hrec3'
  exact applyA_again_ok happ hok3

set_option maxHeartbeats 1000000 in
/-- Witness for C4 at concrete execute–undo–redo runs of all four variants:
redo returns the memoized `d/b.mp4` for a rename and a trim of `d/a.mp4`,
the memoized `TO_BE_DELETED/a_archive_a.mp4` for a delete of `d/a.mp4`, and
the memoized `d/m.mp4` for a two-clip merge. -/
theorem C4_redo_uses_memoized_destination_witness :
    resolveRenamePath [] pA "b" (some pB) = .ok pB ∧
    (pB = pB) ∧
    ((⟨get_archive_dir "d", "a_archive_a", ".mp4"⟩ : FPath) =
      ⟨"d/TO_BE_DELETED", "a_archive_a", ".mp4"⟩) ∧
    (pB = pB) ∧
    ((⟨"d", "m", ".mp4"⟩ : FPath) = ⟨"d", "m", ".mp4"⟩) :=
  ⟨C4_redo_uses_memoized_destination.1 [] pA "b" pB,
    C4_redo_uses_memoized_destination.2.2.2.2.2.2
      envOk ⟨-1, []⟩ (.rename pA "b" none) [(pA, Content.raw 1)] _ _ _ rfl
      envOk (executeH envOk ⟨-1, []⟩ (.rename pA "b" none)
        [(pA, Content.raw 1)]).2.1 _ _ _ rfl
      envOk (undoH envOk
        (executeH envOk ⟨-1, []⟩ (.rename pA "b" none)
          [(pA, Content.raw 1)]).1
        (executeH envOk ⟨-1, []⟩ (.rename pA "b" none)
          [(pA, Content.raw 1)]).2.1).2.1 _ _ _ rfl,
    C4_redo_uses_memoized_destination.2.2.2.2.2.2
      envOk ⟨-1, []⟩ (.del pA none) [(pA, Content.raw 1)] _ _ _ rfl
      envOk (executeH envOk ⟨-1, []⟩ (.del pA none)
        [(pA, Content.raw 1)]).2.1 _ _ _ rfl
      envOk (undoH envOk
        (executeH envOk ⟨-1, []⟩ (.del pA none) [(pA, Content.raw 1)]).1
        (executeH envOk ⟨-1, []⟩ (.del pA none)
          [(pA, Content.raw 1)]).2.1).2.1 _ _ _ rfl,
    C4_redo_uses_memoized_destination.2.2.2.2.2.2
      envOk ⟨-1, []⟩ (.trim pA "b" "1" "" none none) [(pA, Content.raw 1)]
      _ _ _ rfl
      envOk (executeH envOk ⟨-1, []⟩ (.trim pA "b" "1" "" none none)
        [(pA, Content.raw 1)]).2.1 _ _ _ rfl
      envOk (undoH envOk
        (executeH envOk ⟨-1, []⟩ (.trim pA "b" "1" "" none none)
          [(pA, Content.raw 1)]).1
        (executeH envOk ⟨-1, []⟩ (.trim pA "b" "1" "" none none)
          [(pA, Content.raw 1)]).2.1).2.1 _ _ _ rfl,
    C4_redo_uses_memoized_destination.2.2.2.2.2.2
      envOk ⟨-1, []⟩ (.merge pA [pA, pB] "m" true none none)
      [(pA, Content.raw 1), (pB, Content.raw 2)] _ _ _ rfl
      envOk (executeH envOk ⟨-1, []⟩ (.merge pA [pA, pB] "m" true none none)
        [(pA, Content.raw 1), (pB, Content.raw 2)]).2.1 _ _ _ rfl
      envOk (undoH envOk
        (executeH envOk ⟨-1, []⟩ (.merge pA [pA, pB] "m" true none none)
          [(pA, Content.raw 1), (pB, Content.raw 2)]).1
        (executeH envOk ⟨-1, []⟩ (.merge pA [pA, pB] "m" true none none)
          [(pA, Content.raw 1), (pB, Content.raw 2)]).2.1).2.1 _ _ _ rfl⟩

/-! ### Claim C1 -/

/-- Claim C1, counterexample to the claim as stated: for the trim variant,
undo right after a successful apply does not restore the filesystem to
byte-identical state — the trimmed output is parked at
`TO_BE_DELETED/undo_archive_b.mp4` instead of being removed, so an archive
directory artifact of the round trip survives. -/
theorem C1_counterexample_trim_undo_leftover :
    ∃ a1 fs1 a2 fs2 r2,
      applyA envOk [(pA, Content.raw 1)] (.trim pA "b" "1" "" none none) =
        (a1, fs1, .ok pB) ∧
      undoA envOk fs1 a1 = (a2, fs2, .ok r2) ∧
      ¬ fsEquiv fs2 [(pA, Content.raw 1)] := by
  refine ⟨_, _, _, _, pA, rfl, rfl, ?_⟩
  intro h
  have hx := h ⟨"d/TO_BE_DELETED", "undo_archive_b", ".mp4"⟩
  exact Option.noConfusion hx

/-- Claim C1 as amended: undo right after a successful apply restores the
filesystem to byte-identical state for the rename and delete variants; for
the trim and merge variants every original path is restored (the original
content back in place, the produced artifact gone from its resolved
destination), but the produced trim/merge output is parked at one fresh
`undo_archive_` path inside the archive directory rather than removed, so
exactly that one archive-directory artifact of the round trip survives. -/
theorem C1_amended_undo_after_apply :
    (∀ (env : Env) (fs : FS) (old : FPath) (nn : String) (a1 a2 : UAction)
        (fs1 fs2 : FS) (r1 r2 : FPath),
      applyA env fs (.rename old nn none) = (a1, fs1, .ok r1) →
      undoA env fs1 a1 = (a2, fs2, .ok r2) → fsEquiv fs2 fs) ∧
    (∀ (env : Env) (fs : FS) (orig : FPath) (a1 a2 : UAction)
        (fs1 fs2 : FS) (r1 r2 : FPath),
      applyA env fs (.del orig none) = (a1, fs1, .ok r1) →
      undoA env fs1 a1 = (a2, fs2, .ok r2) → fsEquiv fs2 fs) ∧
    (∀ (env : Env) (fs : FS) (o : FPath) (nn st en : String)
        (a1 a2 : UAction) (fs1 fs2 : FS) (r1 r2 : FPath),
      fsExists fs (trimTempPath env o nn) = false →
      applyA env fs (.trim o nn st en none none) = (a1, fs1, .ok r1) →
      undoA env fs1 a1 = (a2, fs2, .ok r2) →
      ∃ c q, fsGet fs o = some c ∧ q.dir = get_archive_dir o.dir ∧
        fsGet fs q = none ∧ fsGet fs2 q = some (.trimOut c st en) ∧
        ∀ p, p ≠ q → fsGet fs2 p = fsGet fs p) ∧
    (∀ (env : Env) (fs : FS) (prm p0 : FPath) (rest : List FPath)
        (nn : String) (a1 a2 : UAction) (fs1 fs2 : FS) (r1 r2 : FPath),
      prm.dir = p0.dir →
      fsExists fs (mergeTempPath env p0.dir p0 nn) = false →
      fsExists fs (mergeConcatPath env p0.dir) = false →
      applyA env fs (.merge prm (p0 :: rest) nn true none none) =
        (a1, fs1, .ok r1) →
      undoA env fs1 a1 = (a2, fs2, .ok r2) →
      ∃ q, q.dir = get_archive_dir p0.dir ∧ fsGet fs q = none ∧
        fsGet fs2 q = some (.concatOut
          ((p0 :: rest).map fun s => (fsGet fs s).getD .junk)) ∧
        ∀ p, p ≠ q → fsGet fs2 p = fsGet fs p) :=
  ⟨fun env fs old nn a1 a2 fs1 fs2 r1 r2 h1 h2 =>
      renameRoundTrip env fs old nn a1 a2 fs1 fs2 r1 r2 h1 h2,
    fun env fs orig a1 a2 fs1 fs2 r1 r2 h1 h2 =>
      deleteRoundTrip env fs orig a1 a2 fs1 fs2 r1 r2 h1 h2,
    fun env fs o nn st en a1 a2 fs1 fs2 r1 r2 htf h1 h2 =>
      trimRoundTrip env fs o nn st en a1 a2 fs1 fs2 r1 r2 htf h1 h2,
    fun env fs prm p0 rest nn a1 a2 fs1 fs2 r1 r2 hprm htf hcf h1 h2 =>
      mergeRoundTrip env fs prm p0 rest nn a1 a2 fs1 fs2 r1 r2 hprm htf hcf
        h1 h2⟩

/-- Witness for C1's amended theorem at concrete inputs: a rename and a
delete of `d/a.mp4` round-trip exactly; a trim of `d/a.mp4` and a
two-clip merge of `d/a.mp4` and `d/b.mp4` round-trip up to one parked
`undo_archive_` file inside `d/TO_BE_DELETED`. -/
theorem C1_amended_undo_after_apply_witness :
    fsEquiv (undoA envOk
        (applyA envOk [(pA, Content.raw 1)] (.rename pA "c" none)).2.1
        (applyA envOk [(pA, Content.raw 1)] (.rename pA "c" none)).1).2.1
      [(pA, Content.raw 1)] ∧
    fsEquiv (undoA envOk
        (applyA envOk [(pA, Content.raw 1)] (.del pA none)).2.1
        (applyA envOk [(pA, Content.raw 1)] (.del pA none)).1).2.1
      [(pA, Content.raw 1)] ∧
    (∃ c q, fsGet [(pA, Content.raw 1)] pA = some c ∧
      q.dir = get_archive_dir pA.dir ∧
      fsGet [(pA, Content.raw 1)] q = none ∧
      fsGet (undoA envOk
        (applyA envOk [(pA, Content.raw 1)]
          (.trim pA "b" "1" "" none none)).2.1
        (applyA envOk [(pA, Content.raw 1)]
          (.trim pA "b" "1" "" none none)).1).2.1 q =
        some (.trimOut c "1" "") ∧
      ∀ p, p ≠ q →
        fsGet (undoA envOk
          (applyA envOk [(pA, Content.raw 1)]
            (.trim pA "b" "1" "" none none)).2.1
          (applyA envOk [(pA, Content.raw 1)]
            (.trim pA "b" "1" "" none none)).1).2.1 p =
        fsGet [(pA, Content.raw 1)] p) ∧
    (∃ q, q.dir = get_archive_dir pA.dir ∧
      fsGet [(pA, Content.raw 1), (pB, Content.raw 2)] q = none ∧
      fsGet (undoA envOk
        (applyA envOk [(pA, Content.raw 1), (pB, Content.raw 2)]
          (.merge pA [pA, pB] "m" true none none)).2.1
        (applyA envOk [(pA, Content.raw 1), (pB, Content.raw 2)]
          (.merge pA [pA, pB] "m" true none none)).1).2.1 q =
        some (.concatOut ([pA, pB].map fun s =>
          (fsGet [(pA, Content.raw 1), (pB, Content.raw 2)] s).getD .junk)) ∧
      ∀ p, p ≠ q →
        fsGet (undoA envOk
          (applyA envOk [(pA, Content.raw 1), (pB, Content.raw 2)]
            (.merge pA [pA, pB] "m" true none none)).2.1
          (applyA envOk [(pA, Content.raw 1), (pB, Content.raw 2)]
            (.merge pA [pA, pB] "m" true none none)).1).2.1 p =
        fsGet [(pA, Content.raw 1), (pB, Content.raw 2)] p) :=
  ⟨C1_amended_undo_after_apply.1 envOk [(pA, Content.raw 1)] pA "c"
      _ _ _ _ _ _ rfl rfl,
    C1_amended_undo_after_apply.2.1 envOk [(pA, Content.raw 1)] pA
      _ _ _ _ _ _ rfl rfl,
    C1_amended_undo_after_apply.2.2.1 envOk [(pA, Content.raw 1)] pA "b" "1"
      "" _ _ _ _ _ _ rfl rfl rfl,
    C1_amended_undo_after_apply.2.2.2 envOk
      [(pA, Content.raw 1), (pB, Content.raw 2)] pA pA [pB] "m"
      _ _ _ _ _ _ rfl rfl rfl rfl rfl⟩

theorem moveSpec_snoc (fs0 : FS) :
    ∀ (ys : List (FPath × FPath)) (s d p : FPath), p ≠ s → p ≠ d →
      moveSpec fs0 (ys ++ [(s, d)]) p = moveSpec fs0 ys p := by
  intro ys
  induction ys with
  | nil =>
    intro s d p hps hpd
    rw [List.nil_append]
    show (if p = d then fsGet fs0 s else if p = s then none
      else moveSpec fs0 [] p) = moveSpec fs0 [] p
    rw [if_neg hpd, if_neg hps]
  | cons hd tl ih =>
    obtain ⟨s', d'⟩ := hd
    intro s d p hps hpd
    rw [List.cons_append, moveSpec, moveSpec]
    by_cases h1 : p = d'
    · rw [if_pos h1, if_pos h1]
    · rw [if_neg h1, if_neg h1]
      by_cases h2 : p = s'
      · rw [if_pos h2, if_pos h2]
      · rw [if_neg h2, if_neg h2]
        exact ih s d p hps hpd

/-- The best-effort rollback of `MergeVideosAction.apply`'s `except` branch
fully restores the pre-archive filesystem when none of the rollback renames
hits a transient `PermissionError`. -/
theorem mergeRollback_restore (env : Env)
    (hrb : ∀ k i, env.rollbackFails k i = false) :
    ∀ (ws : List (FPath × FPath)) (fsCur fs0 : FS) (k : Nat),
    (∀ p, fsGet fsCur p = moveSpec fs0 ws.reverse p) →
    (ws.map Prod.fst).Nodup →
    (ws.map Prod.snd).Nodup →
    (∀ pr ∈ ws, ∀ pr2 ∈ ws, pr.1 ≠ pr2.2) →
    (∀ pr ∈ ws, fsExists fs0 pr.1 = true) →
    (∀ pr ∈ ws, fsExists fs0 pr.2 = false) →
    ∀ p, fsGet (mergeRollback env fsCur ws k) p = fsGet fs0 p := by
  intro ws
  induction ws with
  | nil =>
    intro fsCur fs0 k hval _ _ _ _ _ p
    exact hval p
  | cons hd tl ih =>
    obtain ⟨s, d⟩ := hd
    intro fsCur fs0 k hval h1 h2 h3 h4 h5 p
    have hrev : ((s, d) :: tl).reverse = tl.reverse ++ [(s, d)] :=
      List.reverse_cons _ _
    have hmem_rev : (s, d) ∈ ((s, d) :: tl).reverse :=
      List.mem_reverse.mpr (by simp)
    have hnd_rev : ((((s, d) :: tl).reverse).map Prod.snd).Nodup := by
      rw [List.map_reverse]
      exact List.nodup_reverse.mpr h2
    have hcross_rev : ∀ pr ∈ ((s, d) :: tl).reverse,
        ∀ pr2 ∈ ((s, d) :: tl).reverse, pr.2 ≠ pr2.1 := by
      intro pr hpr pr2 hpr2
      exact fun hh =>
        h3 pr2 (List.mem_reverse.mp hpr2) pr (List.mem_reverse.mp hpr) hh.symm
    obtain ⟨c, hc⟩ := fsGet_of_fsExists (h4 (s, d) (by simp))
    have hd_val : fsGet fsCur d = some c := by
      rw [hval d,
        moveSpec_dest fs0 _ s d hmem_rev hnd_rev hcross_rev, hc]
    have hdex : fsExists fsCur d = true := by
      unfold fsExists
      rw [hd_val]
      rfl
    have hs_nf : s ∉ (tl.map Prod.fst) := by
      rw [List.map_cons] at h1
      exact (List.nodup_cons.mp h1).1
    have hs_ns : ∀ pr2 ∈ (s, d) :: tl, s ≠ pr2.2 :=
      fun pr2 hpr2 => h3 (s, d) (by simp) pr2 hpr2
    have hs_val : fsGet fsCur s = none := by
      rw [hval s]
      refine moveSpec_src fs0 _ s ?_ ?_
      · exact List.mem_map_of_mem Prod.fst hmem_rev
      · intro hmem
        obtain ⟨pr, hpr, hpr2⟩ := List.mem_map.mp hmem
        exact hs_ns pr (List.mem_reverse.mp hpr) hpr2.symm
    have hsfree : fsExists fsCur s = false := by
      unfold fsExists
      rw [hs_val]
      rfl
    have hds : d ≠ s := fun hh => hs_ns (s, d) (by simp) hh.symm
    have hsr : safe_rename (env.rollbackFails k) fsCur d s =
        (osRename fsCur d s, 0) :=
      safe_rename_retry_success _ _ _ _ 0 (by decide)
        (fun k' hk' => absurd hk' (Nat.not_lt_zero k')) (hrb k 0)
    have hos : osRename fsCur d s = .ok (fsSet (fsErase fsCur d) s c) :=
      osRename_ok_free hd_val hsfree
    unfold mergeRollback
    rw [hdex, hsfree]
    simp only [Bool.not_false, Bool.and_self, eq_self_iff_true, if_true]
    rw [hsr]
    dsimp only []
    rw [hos]
    dsimp only []
    refine ih (fsSet (fsErase fsCur d) s c) fs0 (k + 1) ?_ ?_ ?_ ?_ ?_ ?_ p
    · intro p'
      rw [fsGet_fsSet, fsGet_fsErase]
      by_cases hp1 : p' = s
      · rw [if_pos hp1, hp1]
        have hs_nf' : s ∉ tl.reverse.map Prod.fst := by
          intro hmem
          rw [List.map_reverse, List.mem_reverse] at hmem
          exact hs_nf hmem
        have hs_ns' : s ∉ tl.reverse.map Prod.snd := by
          intro hmem
          obtain ⟨pr, hpr, hpr2⟩ := List.mem_map.mp hmem
          exact hs_ns pr (List.mem_cons_of_mem _ (List.mem_reverse.mp hpr))
            hpr2.symm
        rw [moveSpec_other fs0 _ s hs_nf' hs_ns', hc]
      · rw [if_neg hp1]
        by_cases hp2 : p' = d
        · rw [if_pos hp2, hp2]
          have hd_nf' : d ∉ tl.reverse.map Prod.fst := by
            intro hmem
            obtain ⟨pr, hpr, hpr2⟩ := List.mem_map.mp hmem
            exact h3 pr (List.mem_cons_of_mem _ (List.mem_reverse.mp hpr))
              (s, d) (by simp) hpr2
          have hd_ns' : d ∉ tl.reverse.map Prod.snd := by
            intro hmem
            rw [List.map_reverse, List.mem_reverse] at hmem
            rw [List.map_cons, List.nodup_cons] at h2
            exact h2.1 hmem
          rw [moveSpec_other fs0 _ d hd_nf' hd_ns',
            fsGet_none_of_free (h5 (s, d) (by simp))]
        · rw [if_neg hp2, hval p', hrev,
            moveSpec_snoc fs0 tl.reverse s d p' hp1 hp2]
    · rw [List.map_cons, List.nodup_cons] at h1
      exact h1.2
    · rw [List.map_cons, List.nodup_cons] at h2
      exact h2.2
    · exact fun pr hpr pr2 hpr2 =>
        h3 pr (List.mem_cons_of_mem _ hpr) pr2 (List.mem_cons_of_mem _ hpr2)
    · exact fun pr hpr => h4 pr (List.mem_cons_of_mem _ hpr)
    · exact fun pr hpr => h5 pr (List.mem_cons_of_mem _ hpr)

/-- Characterization of a failing archive loop: the pairs renamed before the
failing one form a prefix of the work list, their destinations were free,
and the loop's final filesystem is exactly that prefix of moves. -/
theorem mergeArchiveLoop_err_elim (env : Env) :
    ∀ (zs : List (FPath × FPath)) (fs0 : FS) (k : Nat) (fsE : FS)
      (moved : List (FPath × FPath)) (e : Err),
    mergeArchiveLoop env fs0 zs k = (fsE, moved, some e) →
    (zs.map Prod.fst).Nodup →
    (∀ pr ∈ zs, fsExists fs0 pr.1 = true) →
    (∀ pr ∈ zs, ∀ pr2 ∈ zs, pr.2 ≠ pr2.1) →
    (∃ zs2, zs = moved ++ zs2) ∧
    (∀ pr ∈ moved, fsExists fs0 pr.2 = false) ∧
    ((moved.map Prod.snd).Nodup) ∧
    (∀ p, fsGet fsE p = moveSpec fs0 moved p) := by
  intro zs
  induction zs with
  | nil =>
    intro fs0 k fsE moved e h _ _ _
    unfold mergeArchiveLoop at h
    simp at h
  | cons hd tl ih =>
    obtain ⟨s, d⟩ := hd
    intro fs0 k fsE moved e h hnds hex hcross
    unfold mergeArchiveLoop at h
    cases hsr : (safe_rename (env.archiveFails k) fs0 s d).1 with
    | error e0 =>
      rw [hsr] at h
      dsimp only [] at h
      simp only [Prod.mk.injEq] at h
      obtain ⟨hE, hmv, _⟩ := h
      subst hE
      rw [← hmv]
      exact ⟨⟨(s, d) :: tl, rfl⟩, by simp, by simp, fun p => rfl⟩
    | ok fs1 =>
      rw [hsr] at h
      dsimp only [] at h
      rcases hrec : mergeArchiveLoop env fs1 tl (k + 1) with ⟨fs'', mv, res⟩
      rw [hrec] at h
      dsimp only [] at h
      simp only [Prod.mk.injEq] at h
      obtain ⟨hE, hmv, hres⟩ := h
      cases res with
      | none => simp at hres
      | some e1 =>
        subst hE
        have hren := safe_rename_ok hsr
        obtain ⟨c, hc, hfs1⟩ := osRename_ok hren
        have hds : d ≠ s := by
          have := hcross (s, d) (by simp) (s, d) (by simp)
          simpa using this
        have hdfree : fsExists fs0 d = false := by
          rcases osRename_ok_dst hren with hh | hh
          · exact absurd hh hds
          · exact hh
        have hnds' : s ∉ tl.map Prod.fst ∧ (tl.map Prod.fst).Nodup := by
          rw [List.map_cons] at hnds
          exact List.nodup_cons.mp hnds
        have hsrc1 : ∀ pr ∈ tl, fsGet fs1 pr.1 = fsGet fs0 pr.1 := by
          intro pr hpr
          have hne_s : pr.1 ≠ s := by
            intro hh
            exact hnds'.1 (hh ▸ List.mem_map_of_mem Prod.fst hpr)
          have hne_d : pr.1 ≠ d := by
            intro hh
            have := hcross (s, d) (by simp) pr (List.mem_cons_of_mem _ hpr)
            exact this (by simpa using hh.symm)
          rw [hfs1, fsGet_fsSet, if_neg hne_d, fsGet_fsErase, if_neg hne_s]
        have hex1 : ∀ pr ∈ tl, fsExists fs1 pr.1 = true := by
          intro pr hpr
          have := hex pr (List.mem_cons_of_mem _ hpr)
          unfold fsExists at this ⊢
          rw [hsrc1 pr hpr]
          exact this
        obtain ⟨⟨tl2, htl2⟩, hdfree', hndd', hpw'⟩ := ih fs1 (k + 1) fs'' mv e1
          hrec hnds'.2 hex1
          (fun pr hpr pr2 hpr2 =>
            hcross pr (List.mem_cons_of_mem _ hpr) pr2
              (List.mem_cons_of_mem _ hpr2))
        have hmvtl : ∀ pr ∈ mv, pr ∈ tl := by
          intro pr hpr
          rw [htl2]
          exact List.mem_append_left _ hpr
        have hdfree0 : ∀ pr ∈ mv, fsExists fs0 pr.2 = false := by
          intro pr hpr
          have hh1 := hdfree' pr hpr
          have hne_d : pr.2 ≠ d := by
            intro hh
            have := hh1
            unfold fsExists at this
            rw [hh, hfs1, fsGet_fsSet, if_pos rfl] at this
            simp at this
          have hne_s : pr.2 ≠ s :=
            fun hh => (hcross pr (List.mem_cons_of_mem _ (hmvtl pr hpr))
              (s, d) (by simp)) (by simpa using hh)
          unfold fsExists at hh1 ⊢
          rw [hfs1, fsGet_fsSet, if_neg hne_d, fsGet_fsErase, if_neg hne_s]
            at hh1
          exact hh1
        rw [← hmv]
        refine ⟨⟨tl2, by rw [htl2]; rfl⟩, ?_, ?_, ?_⟩
        · intro pr hpr
          rcases List.mem_cons.mp hpr with hh | hh
          · rw [hh]; exact hdfree
          · exact hdfree0 pr hh
        · rw [List.map_cons, List.nodup_cons]
          refine ⟨?_, hndd'⟩
          intro hmem
          obtain ⟨pr, hpr, hpr2⟩ := List.mem_map.mp hmem
          have hx := hdfree' pr hpr
          unfold fsExists at hx
          rw [hpr2, hfs1, fsGet_fsSet] at hx
          rw [if_pos rfl] at hx
          simp at hx
        · intro p
          rw [hpw' p, moveSpec]
          by_cases hpd : p = d
          · have hout : d ∉ mv.map Prod.fst := by
              intro hmem
              obtain ⟨pr, hpr, hpr2⟩ := List.mem_map.mp hmem
              exact (hcross (s, d) (by simp) pr
                (List.mem_cons_of_mem _ (hmvtl pr hpr)))
                (by simpa using hpr2.symm)
            have hout2 : d ∉ mv.map Prod.snd := by
              intro hmem
              obtain ⟨pr, hpr, hpr2⟩ := List.mem_map.mp hmem
              have hx := hdfree' pr hpr
              unfold fsExists at hx
              rw [hpr2, hfs1, fsGet_fsSet] at hx
              rw [if_pos rfl] at hx
              simp at hx
            rw [hpd, moveSpec_other fs1 mv d hout hout2, if_pos rfl, hfs1,
              fsGet_fsSet]
            rw [if_pos rfl, hc]
          · rw [if_neg hpd]
            by_cases hps : p = s
            · have hout : s ∉ mv.map Prod.fst := by
                intro hmem
                obtain ⟨pr, hpr, hpr2⟩ := List.mem_map.mp hmem
                exact hnds'.1 (hpr2 ▸ List.mem_map_of_mem Prod.fst
                  (hmvtl pr hpr))
              have hout2 : s ∉ mv.map Prod.snd := by
                intro hmem
                obtain ⟨pr, hpr, hpr2⟩ := List.mem_map.mp hmem
                exact (hcross pr (List.mem_cons_of_mem _ (hmvtl pr hpr))
                  (s, d) (by simp)) (by simpa using hpr2)
              rw [hps, moveSpec_other fs1 mv s hout hout2,
                if_pos rfl, hfs1, fsGet_fsSet,
                if_neg (fun hh => hds hh.symm), fsGet_fsErase]
              rw [if_pos rfl]
            · rw [if_neg hps]
              refine moveSpec_congr fs1 fs0 mv p
                (fun pr hpr => hsrc1 pr (hmvtl pr hpr)) ?_
              by_cases hf : p ∈ mv.map Prod.fst
              · exact Or.inl hf
              · by_cases hs2 : p ∈ mv.map Prod.snd
                · exact Or.inr (Or.inl hs2)
                · refine Or.inr (Or.inr ?_)
                  rw [hfs1, fsGet_fsSet, if_neg hpd, fsGet_fsErase,
                    if_neg hps]

/-- Every failing `TrimVideoAction.apply` (validation, missing source,
conflicts, a failing external process, or a failing promote/archive rename)
leaves the filesystem as it was: the staged temp file is removed and no
original is touched. -/
theorem trimApply_err_equiv {env : Env} {fs : FS} {o : FPath}
    {nn st en : String} {tm am : Option FPath} {a' : UAction} {fs' : FS}
    {e : Err} (htf : fsExists fs (trimTempPath env o nn) = false)
    (h : trimApply env fs o nn st en tm am = (a', fs', .error e)) :
    fsEquiv fs' fs := by
  unfold trimApply at h
  by_cases h1 : nn = ""
  · rw [if_pos h1] at h
    simp only [Prod.mk.injEq] at h
    rw [← h.2.1]
    intro p; rfl
  · rw [if_neg h1] at h
    by_cases h2 : st = ""
    · rw [if_pos h2] at h
      simp only [Prod.mk.injEq] at h
      rw [← h.2.1]
      intro p; rfl
    · rw [if_neg h2] at h
      by_cases h3 : fsExists fs o = false
      · rw [if_pos h3] at h
        simp only [Prod.mk.injEq] at h
        rw [← h.2.1]
        intro p; rfl
      · rw [if_neg h3] at h
        dsimp only [] at h
        by_cases h4 : fsExists fs (resolveTrimmedPath fs o nn tm)
        · rw [if_pos h4] at h
          simp only [Prod.mk.injEq] at h
          rw [← h.2.1]
          intro p; rfl
        · rw [if_neg h4] at h
          have h4f : fsExists fs (resolveTrimmedPath fs o nn tm) = false := by
            revert h4; cases fsExists fs (resolveTrimmedPath fs o nn tm) <;> simp
          by_cases h5 : fsExists fs (resolveTrimArchivedPath fs o nn am)
          · rw [if_pos h5] at h
            simp only [Prod.mk.injEq] at h
            rw [← h.2.1]
            intro p; rfl
          · rw [if_neg h5] at h
            by_cases h6 : env.ffmpegOk = false
            · rw [if_pos h6] at h
              simp only [Prod.mk.injEq] at h
              rw [← h.2.1]
              intro p
              rw [fsGet_eraseIf, fsGet_fsSet]
              by_cases hp : p = trimTempPath env o nn
              · rw [if_pos hp, hp, fsGet_none_of_free htf]
              · rw [if_neg hp, if_neg hp]
            · rw [if_neg h6] at h
              cases hp : (safe_rename env.promoteFails
                  (fsSet fs (trimTempPath env o nn)
                    (.trimOut ((fsGet fs o).getD .junk) st en))
                  (trimTempPath env o nn) (resolveTrimmedPath fs o nn tm)).1
                  with
              | error e0 =>
                rw [hp] at h
                dsimp only [] at h
                simp only [Prod.mk.injEq] at h
                rw [← h.2.1]
                intro p
                rw [fsGet_eraseIf, fsGet_eraseIf, fsGet_fsSet]
                by_cases hp1 : p = resolveTrimmedPath fs o nn tm
                · rw [if_pos hp1, hp1, fsGet_none_of_free h4f]
                · rw [if_neg hp1]
                  by_cases hp2 : p = trimTempPath env o nn
                  · rw [if_pos hp2, hp2, fsGet_none_of_free htf]
                  · rw [if_neg hp2, if_neg hp2]
              | ok fs2 =>
                rw [hp] at h
                dsimp only [] at h
                obtain ⟨c1, hc1, hfs2⟩ := osRename_ok (safe_rename_ok hp)
                cases ha : (safe_rename (env.archiveFails 0) fs2 o
                    (resolveTrimArchivedPath fs o nn am)).1 with
                | error e0 =>
                  rw [ha] at h
                  dsimp only [] at h
                  simp only [Prod.mk.injEq] at h
                  rw [← h.2.1]
                  intro p
                  rw [fsGet_eraseIf, fsGet_eraseIf, hfs2, fsGet_fsSet,
                    fsGet_fsErase, fsGet_fsSet]
                  by_cases hp1 : p = resolveTrimmedPath fs o nn tm
                  · rw [if_pos hp1, hp1, fsGet_none_of_free h4f]
                  · rw [if_neg hp1]
                    by_cases hp2 : p = trimTempPath env o nn
                    · rw [if_pos hp2, hp2, fsGet_none_of_free htf]
                    · rw [if_neg hp2, if_neg hp1, if_neg hp2, if_neg hp2]
                | ok fs3 =>
                  rw [ha] at h
                  dsimp only [] at h
                  simp at h

/-- After a failing archive loop inside `MergeVideosAction.apply`, the
cleanup of the `except` branch (temp removal, best-effort rollback, merged
and concat-file removal) restores the original filesystem whenever no
rollback rename hits a transient `PermissionError`. -/
theorem mergeErrCleanup {env : Env} {fs : FS} {p0 : FPath}
    {rest : List FPath} {nn : String} {merged : FPath} {c1 : Content}
    {fs2 fs3 : FS} {moved : List (FPath × FPath)} {e0 : Err}
    (hrb : ∀ k i, env.rollbackFails k i = false)
    (htf : fsExists fs (mergeTempPath env p0.dir p0 nn) = false)
    (hcf : fsExists fs (mergeConcatPath env p0.dir) = false)
    (h3 : (p0 :: rest).Nodup)
    (h5 : ∀ q ∈ rest, q.dir = p0.dir)
    (h6 : ∀ q ∈ p0 :: rest, fsExists fs q = true)
    (hres : resolveMergedPath fs p0.dir (p0 :: rest) nn none = .ok merged)
    (h7f : fsExists fs merged = false)
    (h8 : ∀ ap ∈ resolveMergeArchivedPaths fs p0.dir (p0 :: rest) nn none,
      ¬ fsExists fs ap = true)
    (hfs2 : fs2 = fsSet (fsErase
        (fsSet (fsSet fs (mergeConcatPath env p0.dir)
          (.listing (p0 :: rest)))
        (mergeTempPath env p0.dir p0 nn)
        (.concatOut ((p0 :: rest).map fun q => (fsGet fs q).getD .junk)))
      (mergeTempPath env p0.dir p0 nn)) merged c1)
    (hloop : mergeArchiveLoop env fs2
      ((p0 :: rest).zip
        (resolveMergeArchivedPaths fs p0.dir (p0 :: rest) nn none)) 0 =
      (fs3, moved, some e0)) :
    ∀ fs4 fs5 fs6 fs7 : FS,
    fs4 = (if fsExists fs3 (mergeTempPath env p0.dir p0 nn) then
      fsErase fs3 (mergeTempPath env p0.dir p0 nn) else fs3) →
    fs5 = mergeRollback env fs4 moved.reverse 0 →
    fs6 = (if fsExists fs5 merged then fsErase fs5 merged else fs5) →
    fs7 = (if fsExists fs6 (mergeConcatPath env p0.dir) then
      fsErase fs6 (mergeConcatPath env p0.dir) else fs6) →
    fsEquiv fs7 fs := by
  intro fs4 fs5 fs6 fs7 h4eq h5eq h6eq h7eq
  obtain ⟨A, hA⟩ :
      ∃ x, resolveMergeArchivedPaths fs p0.dir (p0 :: rest) nn none = x :=
    ⟨_, rfl⟩
  rw [hA] at h8 hloop
  obtain ⟨zs, hzs⟩ : ∃ x, (p0 :: rest).zip A = x := ⟨_, rfl⟩
  rw [hzs] at hloop
  have hmd : merged = ensure_unique_path fs
      ⟨p0.dir, sanitize_filename nn, p0.ext⟩ := by
    have h0 : (Except.ok
        (ensure_unique_path fs ⟨p0.dir, sanitize_filename nn, p0.ext⟩) :
        Except Err FPath) = .ok merged := hres
    injection h0 with hh
    exact hh.symm
  have hmdir : merged.dir = p0.dir := by
    rw [hmd]; exact ensure_unique_path_dir fs _
  have hA' : A = (p0 :: rest).map fun sp => ensure_unique_path fs
      ⟨get_archive_dir p0.dir, sanitize_filename nn ++ "_archive_" ++ sp.name,
        sp.ext⟩ := by
    rw [← hA]
    exact rfl
  have hAdir : ∀ ap ∈ A, ap.dir = get_archive_dir p0.dir := by
    intro ap hap
    rw [hA'] at hap
    obtain ⟨sp, _, heq⟩ := List.mem_map.mp hap
    rw [← heq]
    exact ensure_unique_path_dir fs _
  have hsrcdir : ∀ sp ∈ p0 :: rest, sp.dir = p0.dir := by
    intro sp hsp
    rcases List.mem_cons.mp hsp with hh | hh
    · rw [hh]
    · exact h5 sp hh
  have hfst : zs.map Prod.fst = p0 :: rest := by
    rw [← hzs]
    exact List.map_fst_zip _ _ (by rw [hA', List.length_map])
  have hsnd : zs.map Prod.snd = A := by
    rw [← hzs]
    exact List.map_snd_zip _ _ (le_of_eq (by rw [hA', List.length_map]))
  have harchfree : ∀ ap ∈ A, fsExists fs ap = false := by
    intro ap hap
    have := h8 ap hap
    revert this
    cases fsExists fs ap <;> simp
  have htempdir : (mergeTempPath env p0.dir p0 nn).dir = p0.dir := rfl
  have hconcatdir : (mergeConcatPath env p0.dir).dir = p0.dir := rfl
  have hsrcne : ∀ s ∈ p0 :: rest, s ≠ merged ∧
      s ≠ mergeTempPath env p0.dir p0 nn ∧
      s ≠ mergeConcatPath env p0.dir :=
    fun s hs => ⟨ne_of_exists_free (h6 s hs) h7f,
      ne_of_exists_free (h6 s hs) htf, ne_of_exists_free (h6 s hs) hcf⟩
  have fs2val : ∀ p, fsGet fs2 p =
      if p = merged then some c1
      else if p = mergeTempPath env p0.dir p0 nn then none
      else if p = mergeConcatPath env p0.dir then
        some (.listing (p0 :: rest))
      else fsGet fs p := by
    intro p
    rw [hfs2, fsGet_fsSet, fsGet_fsErase, fsGet_fsSet, fsGet_fsSet]
    by_cases hp1 : p = merged
    · rw [if_pos hp1, if_pos hp1]
    · rw [if_neg hp1, if_neg hp1]
      by_cases hp2 : p = mergeTempPath env p0.dir p0 nn
      · rw [if_pos hp2, if_pos hp2]
      · rw [if_neg hp2, if_neg hp2, if_neg hp2]
  have hex2 : ∀ pr ∈ zs, fsExists fs2 pr.1 = true := by
    intro pr hpr
    have hsm : pr.1 ∈ p0 :: rest := by
      have : pr.1 ∈ zs.map Prod.fst := List.mem_map_of_mem _ hpr
      rw [hfst] at this
      exact this
    unfold fsExists
    rw [fs2val pr.1, if_neg (hsrcne pr.1 hsm).1,
      if_neg (hsrcne pr.1 hsm).2.1, if_neg (hsrcne pr.1 hsm).2.2]
    have := h6 pr.1 hsm
    unfold fsExists at this
    exact this
  have hfstnd : (zs.map Prod.fst).Nodup := by
    rw [hfst]
    exact h3
  have hcross : ∀ pr ∈ zs, ∀ pr2 ∈ zs, pr.2 ≠ pr2.1 := by
    intro pr hpr pr2 hpr2 hh
    have hd : pr.2 ∈ A := by
      have : pr.2 ∈ zs.map Prod.snd := List.mem_map_of_mem _ hpr
      rw [hsnd] at this
      exact this
    have hs2 : pr2.1 ∈ p0 :: rest := by
      have : pr2.1 ∈ zs.map Prod.fst := List.mem_map_of_mem _ hpr2
      rw [hfst] at this
      exact this
    exact get_archive_dir_ne p0.dir
      (by rw [← hAdir pr.2 hd, hh]; exact hsrcdir pr2.1 hs2)
  obtain ⟨⟨zs2, hzs2⟩, hdfree2, hsndmv, hpw3⟩ :=
    mergeArchiveLoop_err_elim env zs fs2 0 fs3 moved e0 hloop hfstnd hex2
      hcross
  have hmovedzs : ∀ pr ∈ moved, pr ∈ zs := by
    intro pr hpr
    rw [hzs2]
    exact List.mem_append_left _ hpr
  have htnf : mergeTempPath env p0.dir p0 nn ∉ moved.map Prod.fst := by
    intro hmem
    obtain ⟨pr, hpr, hpr2⟩ := List.mem_map.mp hmem
    have hsm : pr.1 ∈ p0 :: rest := by
      have : pr.1 ∈ zs.map Prod.fst :=
        List.mem_map_of_mem _ (hmovedzs pr hpr)
      rw [hfst] at this
      exact this
    exact (hsrcne pr.1 hsm).2.1 hpr2
  have htns : mergeTempPath env p0.dir p0 nn ∉ moved.map Prod.snd := by
    intro hmem
    obtain ⟨pr, hpr, hpr2⟩ := List.mem_map.mp hmem
    have hd : pr.2 ∈ A := by
      have : pr.2 ∈ zs.map Prod.snd :=
        List.mem_map_of_mem _ (hmovedzs pr hpr)
      rw [hsnd] at this
      exact this
    exact get_archive_dir_ne p0.dir
      (by rw [← hAdir pr.2 hd, hpr2]; exact htempdir)
  have hsrcE : ∀ pr ∈ moved, fsGet (fsErase fs2
      (mergeTempPath env p0.dir p0 nn)) pr.1 = fsGet fs2 pr.1 := by
    intro pr hpr
    rw [fsGet_fsErase]
    have hsm : pr.1 ∈ p0 :: rest := by
      have : pr.1 ∈ zs.map Prod.fst :=
        List.mem_map_of_mem _ (hmovedzs pr hpr)
      rw [hfst] at this
      exact this
    rw [if_neg (hsrcne pr.1 hsm).2.1]
  have hval4 : ∀ p, fsGet fs4 p =
      moveSpec (fsErase fs2 (mergeTempPath env p0.dir p0 nn))
        moved.reverse.reverse p := by
    intro p
    rw [List.reverse_reverse, h4eq, fsGet_eraseIf]
    by_cases hp : p = mergeTempPath env p0.dir p0 nn
    · rw [if_pos hp, hp,
        moveSpec_other _ moved _ htnf htns, fsGet_fsErase, if_pos rfl]
    · rw [if_neg hp, hpw3 p]
      refine (moveSpec_congr (fsErase fs2 (mergeTempPath env p0.dir p0 nn))
        fs2 moved p (fun pr hpr => hsrcE pr hpr) ?_).symm
      refine Or.inr (Or.inr ?_)
      rw [fsGet_fsErase, if_neg hp]
  have hmvfstnd : (moved.map Prod.fst).Nodup := by
    have := hfstnd
    rw [hzs2, List.map_append] at this
    exact (List.nodup_append.mp this).1
  have hrevfst : (moved.reverse.map Prod.fst).Nodup := by
    rw [List.map_reverse]
    exact List.nodup_reverse.mpr hmvfstnd
  have hrevsnd : (moved.reverse.map Prod.snd).Nodup := by
    rw [List.map_reverse]
    exact List.nodup_reverse.mpr hsndmv
  have hrevcross : ∀ pr ∈ moved.reverse, ∀ pr2 ∈ moved.reverse,
      pr.1 ≠ pr2.2 := by
    intro pr hpr pr2 hpr2 hh
    have hsm : pr.1 ∈ p0 :: rest := by
      have : pr.1 ∈ zs.map Prod.fst := List.mem_map_of_mem _
        (hmovedzs pr (List.mem_reverse.mp hpr))
      rw [hfst] at this
      exact this
    have hd : pr2.2 ∈ A := by
      have : pr2.2 ∈ zs.map Prod.snd := List.mem_map_of_mem _
        (hmovedzs pr2 (List.mem_reverse.mp hpr2))
      rw [hsnd] at this
      exact this
    exact get_archive_dir_ne p0.dir
      (by rw [← hAdir pr2.2 hd, ← hh]; exact hsrcdir pr.1 hsm)
  have hrevex : ∀ pr ∈ moved.reverse, fsExists
      (fsErase fs2 (mergeTempPath env p0.dir p0 nn)) pr.1 = true := by
    intro pr hpr
    unfold fsExists
    rw [hsrcE pr (List.mem_reverse.mp hpr)]
    exact hex2 pr (hmovedzs pr (List.mem_reverse.mp hpr))
  have hrevfree : ∀ pr ∈ moved.reverse, fsExists
      (fsErase fs2 (mergeTempPath env p0.dir p0 nn)) pr.2 = false := by
    intro pr hpr
    unfold fsExists
    rw [fsGet_fsErase]
    by_cases hp : pr.2 = mergeTempPath env p0.dir p0 nn
    · rw [if_pos hp]
      rfl
    · rw [if_neg hp]
      have := hdfree2 pr (List.mem_reverse.mp hpr)
      unfold fsExists at this
      exact this
  have hres5 : ∀ p, fsGet fs5 p =
      fsGet (fsErase fs2 (mergeTempPath env p0.dir p0 nn)) p := by
    intro p
    rw [h5eq]
    exact mergeRollback_restore env hrb moved.reverse fs4
      (fsErase fs2 (mergeTempPath env p0.dir p0 nn)) 0 hval4 hrevfst hrevsnd
      hrevcross hrevex hrevfree p
  intro p
  rw [h7eq, fsGet_eraseIf, h6eq, fsGet_eraseIf, hres5 p, fsGet_fsErase,
    fs2val p]
  by_cases hp1 : p = mergeConcatPath env p0.dir
  · rw [if_pos hp1, hp1, fsGet_none_of_free hcf]
  · rw [if_neg hp1]
    by_cases hp2 : p = merged
    · rw [if_pos hp2, hp2, fsGet_none_of_free h7f]
    · rw [if_neg hp2, if_neg hp2]
      by_cases hp3 : p = mergeTempPath env p0.dir p0 nn
      · rw [if_pos hp3, hp3, fsGet_none_of_free htf]
      · rw [if_neg hp3, if_neg hp3, if_neg hp1]

/-- Every failing `MergeVideosAction.apply` on a freshly built action leaves
the filesystem as it was, provided no rollback rename hits a transient
`PermissionError`: validation and concat-stage failures touch nothing, a
promote failure only cleans its own staging files, and an archive-stage
failure rolls the already archived originals back. -/
theorem mergeApply_err_equiv {env : Env} {fs : FS} {prm p0 : FPath}
    {rest : List FPath} {nn : String} {ao : Bool} {a' : UAction} {fs' : FS}
    {e : Err}
    (hrb : env.ffmpegOk = true → ∀ k i, env.rollbackFails k i = false)
    (htf : fsExists fs (mergeTempPath env p0.dir p0 nn) = false)
    (hcf : fsExists fs (mergeConcatPath env p0.dir) = false)
    (h : mergeApply env fs prm (p0 :: rest) nn ao none none =
      (a', fs', .error e)) :
    fsEquiv fs' fs := by
  unfold mergeApply at h
  by_cases h1 : (p0 :: rest).length < 2
  · rw [if_pos h1] at h
    simp only [Prod.mk.injEq] at h
    rw [← h.2.1]; intro p; rfl
  · rw [if_neg h1] at h
    by_cases h2 : 3 < (p0 :: rest).length
    · rw [if_pos h2] at h
      simp only [Prod.mk.injEq] at h
      rw [← h.2.1]; intro p; rfl
    · rw [if_neg h2] at h
      by_cases h3 : ¬ (p0 :: rest).Nodup
      · rw [if_pos h3] at h
        simp only [Prod.mk.injEq] at h
        rw [← h.2.1]; intro p; rfl
      · rw [if_neg h3] at h
        rw [not_not] at h3
        by_cases h4 : nn = ""
        · rw [if_pos h4] at h
          simp only [Prod.mk.injEq] at h
          rw [← h.2.1]; intro p; rfl
        · rw [if_neg h4] at h
          dsimp only [] at h
          by_cases h5 : ¬ ∀ q ∈ rest, q.dir = p0.dir
          · rw [if_pos h5] at h
            simp only [Prod.mk.injEq] at h
            rw [← h.2.1]; intro p; rfl
          · rw [if_neg h5] at h
            rw [not_not] at h5
            by_cases h6 : ¬ ∀ q ∈ p0 :: rest, fsExists fs q = true
            · rw [if_pos h6] at h
              simp only [Prod.mk.injEq] at h
              rw [← h.2.1]; intro p; rfl
            · rw [if_neg h6] at h
              rw [not_not] at h6
              cases hres : resolveMergedPath fs p0.dir (p0 :: rest) nn none
                  with
              | error e0 =>
                rw [hres] at h
                dsimp only [] at h
                simp only [Prod.mk.injEq] at h
                rw [← h.2.1]; intro p; rfl
              | ok merged =>
                rw [hres] at h
                dsimp only [] at h
                by_cases h7 : fsExists fs merged
                · rw [if_pos h7] at h
                  simp only [Prod.mk.injEq] at h
                  rw [← h.2.1]; intro p; rfl
                · rw [if_neg h7] at h
                  have h7f : fsExists fs merged = false := by
                    revert h7; cases fsExists fs merged <;> simp
                  by_cases h8 : ∃ ap ∈ (if ao then
                      resolveMergeArchivedPaths fs p0.dir (p0 :: rest) nn none
                    else []), fsExists fs ap = true
                  · rw [if_pos h8] at h
                    simp only [Prod.mk.injEq] at h
                    rw [← h.2.1]; intro p; rfl
                  · rw [if_neg h8] at h
                    push_neg at h8
                    by_cases h9 : env.ffmpegOk = false
                    · rw [if_pos h9] at h
                      simp only [Prod.mk.injEq] at h
                      rw [← h.2.1]
                      intro p
                      rw [fsGet_eraseIf, fsGet_eraseIf, fsGet_fsSet,
                        fsGet_fsSet]
                      by_cases hp1 : p = mergeConcatPath env p0.dir
                      · rw [if_pos hp1, hp1, fsGet_none_of_free hcf]
                      · rw [if_neg hp1]
                        by_cases hp2 : p = mergeTempPath env p0.dir p0 nn
                        · rw [if_pos hp2, hp2, fsGet_none_of_free htf]
                        · rw [if_neg hp2, if_neg hp2, if_neg hp1]
                    · rw [if_neg h9] at h
                      cases hpm : (safe_rename env.promoteFails
                          (fsSet (fsSet fs (mergeConcatPath env p0.dir)
                            (.listing (p0 :: rest)))
                            (mergeTempPath env p0.dir p0 nn)
                            (.concatOut ((p0 :: rest).map fun q =>
                              (fsGet fs q).getD .junk)))
                          (mergeTempPath env p0.dir p0 nn) merged).1 with
                      | error e0 =>
                        rw [hpm] at h
                        dsimp only [] at h
                        simp only [Prod.mk.injEq] at h
                        rw [← h.2.1]
                        intro p
                        rw [fsGet_eraseIf, fsGet_eraseIf, fsGet_eraseIf,
                          fsGet_fsSet, fsGet_fsSet]
                        by_cases hp1 : p = mergeConcatPath env p0.dir
                        · rw [if_pos hp1, hp1, fsGet_none_of_free hcf]
                        · rw [if_neg hp1]
                          by_cases hpmg : p = merged
                          · rw [if_pos hpmg, hpmg, fsGet_none_of_free h7f]
                          · rw [if_neg hpmg]
                            by_cases hp2 : p = mergeTempPath env p0.dir p0 nn
                            · rw [if_pos hp2, hp2, fsGet_none_of_free htf]
                            · rw [if_neg hp2, if_neg hp2, if_neg hp1]
                      | ok fs2 =>
                        rw [hpm] at h
                        dsimp only [] at h
                        obtain ⟨c1, hc1, hfs2⟩ :=
                          osRename_ok (safe_rename_ok hpm)
                        by_cases hao : ao = true
                        · rw [hao] at h h8
                          simp only [eq_self_iff_true, if_true] at h h8
                          rcases hloop : mergeArchiveLoop env fs2
                              ((p0 :: rest).zip
                                (resolveMergeArchivedPaths fs p0.dir
                                  (p0 :: rest) nn none)) 0 with
                            ⟨fs3, moved, res⟩
                          rw [hloop] at h
                          cases res with
                          | none =>
                            dsimp only [] at h
                            simp at h
                          | some e0 =>
                            dsimp only [] at h
                            simp only [Prod.mk.injEq] at h
                            rw [← h.2.1]
                            have h9t : env.ffmpegOk = true := by
                              revert h9; cases env.ffmpegOk <;> simp
                            exact mergeErrCleanup (hrb h9t) htf hcf h3 h5 h6
                              hres h7f h8 hfs2 hloop _ _ _ _ rfl rfl rfl rfl
                        · have hao' : ao = false := by
                            revert hao; cases ao <;> simp
                          rw [hao'] at h
                          simp only [Bool.false_eq_true, if_false] at h
                          simp at h

/-- Claim C5, counterexample to the claim as stated: when archiving the
second clip of a merge fails and the best-effort rollback renames also fail,
apply raises but the first original is left archived — it is not at its
original path, so not every original input is left untouched. -/
theorem C5_counterexample_merge_rollback_leaves_archived :
    ∃ a' fs',
      mergeApply envRollbackStuck [(pA, Content.raw 1), (pB, Content.raw 2)]
        pA [pA, pB] "m" true none none = (a', fs', .error .permission) ∧
      fsGet fs' pA = none ∧
      fsGet fs' ⟨get_archive_dir "d", "m_archive_a", ".mp4"⟩ =
        some (Content.raw 1) :=
  ⟨_, _, rfl, rfl, rfl⟩

/-- Claim C5 as amended: a failing trim apply removes its staged temp file
and leaves every original untouched; a failing merge apply does the same —
validation and concat-stage failures touch nothing, and an archive-stage
failure is rolled back — provided none of the best-effort rollback renames
itself fails transiently (a stuck rollback leaves an original archived). -/
theorem C5_amended_failure_cleanup :
    (∀ (env : Env) (fs : FS) (o : FPath) (nn st en : String)
        (tm am : Option FPath) (a' : UAction) (fs' : FS) (e : Err),
      fsExists fs (trimTempPath env o nn) = false →
      trimApply env fs o nn st en tm am = (a', fs', .error e) →
      fsEquiv fs' fs) ∧
    (∀ (env : Env) (fs : FS) (prm p0 : FPath) (rest : List FPath)
        (nn : String) (ao : Bool) (a' : UAction) (fs' : FS) (e : Err),
      (env.ffmpegOk = true → ∀ k i, env.rollbackFails k i = false) →
      fsExists fs (mergeTempPath env p0.dir p0 nn) = false →
      fsExists fs (mergeConcatPath env p0.dir) = false →
      mergeApply env fs prm (p0 :: rest) nn ao none none =
        (a', fs', .error e) →
      fsEquiv fs' fs) :=
  ⟨fun _ _ _ _ _ _ _ _ _ _ _ htf h => trimApply_err_equiv htf h,
    fun _ _ _ _ _ _ _ _ _ _ hrb htf hcf h =>
      mergeApply_err_equiv hrb htf hcf h⟩

/-- Witness for C5's amended theorem at concrete inputs: a trim rejected for
its empty start time leaves the filesystem unchanged, and a two-clip merge
whose second archive rename keeps failing (with working rollback renames)
ends with both clips back at their original paths. -/
theorem C5_amended_failure_cleanup_witness :
    fsEquiv
      (trimApply envOk [(pA, Content.raw 1)] pA "b" "" "" none none).2.1
      [(pA, Content.raw 1)] ∧
    fsEquiv
      (mergeApply envArchFail [(pA, Content.raw 1), (pB, Content.raw 2)]
        pA [pA, pB] "m" true none none).2.1
      [(pA, Content.raw 1), (pB, Content.raw 2)] :=
  ⟨C5_amended_failure_cleanup.1 envOk [(pA, Content.raw 1)] pA "b" "" ""
      none none _ _ .validation rfl rfl,
    C5_amended_failure_cleanup.2 envArchFail
      [(pA, Content.raw 1), (pB, Content.raw 2)] pA pA [pB] "m" true _ _
      .permission (fun _ _ _ => rfl) rfl rfl rfl⟩
